import Mathlib

/-!
Verification of the civsprite binary sprite codec (src/sprite/format/spr.py and
src/sprite/objects.py) through a shallow embedding.

Conventions of the embedding:
* Python byte strings are `List Nat` (each entry one byte).
* Python `int` values read from `struct.unpack('<l', ...)` are `Int` (signed),
  values from `'<H'` are `Nat` (unsigned); Python `//` is `Int.fdiv`, `%` is
  `Int.emod` (identical on the non-negative values that occur here).
* PIL Image objects become `Img` (width, height, row-major pixel list).
  Python object identity -- which the source code relies on via `is` checks --
  is modelled explicitly by the `id` field of `ImgObj`: two list entries are
  "the same object" exactly when their `id`s agree.
* Python exceptions are the error side of `Except PyErr`.  The source raises
  raw `struct.error`, `OSError`, `ValueError`, `TypeError`, `IndexError` and
  `KeyError`; it defines no error type of its own.
* `while` loops become structural recursion over an explicit fuel argument;
  every call site passes a fuel that is provably larger than the number of
  iterations the loop can perform, so the fuel-exhaustion branch is dead code.
-/

set_option maxRecDepth 100000

namespace CivSprite

/-- Kinds of Python exception that the embedded code can raise. -/
inductive PyErr where
  | structError
  | osError
  | valueError
  | typeError
  | indexError
  | keyError
deriving DecidableEq, Repr

/-- Little-endian two's-complement encoding of one `int32`, as written by
`struct.pack('<l', z)` for `z` in range. -/
def i32Bytes (z : Int) : List Nat :=
  let u : Nat := (z % 4294967296).toNat
  [u % 256, u / 256 % 256, u / 65536 % 256, u / 16777216 % 256]

/-- Little-endian signed `int32` read, as done by `struct.unpack('<l', ...)`. -/
def i32OfBytes (b0 b1 b2 b3 : Nat) : Int :=
  let u : Nat := b0 + 256 * b1 + 65536 * b2 + 16777216 * b3
  if u < 2147483648 then (u : Int) else (u : Int) - 4294967296

/-- Range check of `struct.pack('<l', ...)`, decided on the constructor of `z`
by a plain `Nat` comparison (an `Int` comparison against `2 ^ 31` left stuck on
a symbolic argument makes kernel reduction of `Nat.sub` walk the literal). -/
def decInt32Range (z : Int) : Decidable (-2147483648 ≤ z ∧ z < 2147483648) :=
  match z with
  | .ofNat n =>
    decidable_of_iff (n < 2147483648) (by
      rw [Int.ofNat_eq_coe]
      omega)
  | .negSucc n =>
    decidable_of_iff (n < 2147483648) (by
      rw [Int.negSucc_eq]
      omega)

/-- `struct.pack('<l', z)`: fails with `struct.error` when out of range. -/
def packI32 (z : Int) : Except PyErr (List Nat) :=
  @ite _ (-2147483648 ≤ z ∧ z < 2147483648) (decInt32Range z)
    (.ok (i32Bytes z)) (.error .structError)

/-- `struct.pack('<{n}l', *zs)`. -/
def packI32s : List Int → Except PyErr (List Nat)
  | [] => .ok []
  | z :: zs => do
    let b ← packI32 z
    let rest ← packI32s zs
    .ok (b ++ rest)

/-- Interpret a buffer as consecutive little-endian signed `int32` values. -/
def i32Chunks : List Nat → List Int
  | b0 :: b1 :: b2 :: b3 :: rest => i32OfBytes b0 b1 b2 b3 :: i32Chunks rest
  | _ => []

/-- `struct.unpack('<{count}l', buf)`: requires the exact buffer length. -/
def unpackI32s (buf : List Nat) (count : Nat) : Except PyErr (List Int) :=
  if buf.length = 4 * count then .ok (i32Chunks buf) else .error .structError

/-- `struct.pack('<H', n)`. -/
def packU16 (n : Nat) : Except PyErr (List Nat) :=
  if n < 65536 then .ok [n % 256, n / 256] else .error .structError

/-- `struct.pack('<{n}H', *ns)`. -/
def packU16s : List Nat → Except PyErr (List Nat)
  | [] => .ok []
  | n :: ns => do
    let b ← packU16 n
    let rest ← packU16s ns
    .ok (b ++ rest)

/-- Interpret a buffer as consecutive little-endian unsigned `uint16` values. -/
def u16Chunks : List Nat → List Nat
  | b0 :: b1 :: rest => (b0 + 256 * b1) :: u16Chunks rest
  | _ => []

/-- `struct.unpack('<{count}H', buf)`: requires the exact buffer length. -/
def unpackU16s (buf : List Nat) (count : Nat) : Except PyErr (List Nat) :=
  if buf.length = 2 * count then .ok (u16Chunks buf) else .error .structError

/-- `f.read(n)` at position `pos` followed by an exact-size `struct.unpack`:
a short read makes the subsequent unpack fail with `struct.error`. -/
def readExact (file : List Nat) (pos n : Nat) : Except PyErr (List Nat) :=
  let b := (file.drop pos).take n
  if b.length = n then .ok b else .error .structError

/-! ## Pixels and the 16-bit color codec (`_rgbm_to_int` / `_int_to_rgbm`) -/

/-- One RGBA pixel of a PIL `RGBA` image; the alpha channel `m` stores the
civilization color mask (only 0 and 255 occur in real data). -/
structure Pix where
  r : Nat
  g : Nat
  b : Nat
  m : Nat
deriving DecidableEq, Repr

/-- 'magenta without color mask', the sentinel used by the image encoder. -/
def transparentPix : Pix := ⟨255, 0, 255, 0⟩

/-- `_rgbm_to_int(rgbm)`: `bool(mask) << 15 | ((r >> 3) << 10) | ((g >> 3) << 5) | (b >> 3)`. -/
def _rgbm_to_int (p : Pix) : Nat :=
  ((if p.m = 0 then 0 else 1) <<< 15) ||| ((p.r >>> 3) <<< 10) ||| ((p.g >>> 3) <<< 5) ||| (p.b >>> 3)

/-- The 5-bit to 8-bit channel widening `(c << 3) + (c >> 2)` used by `_int_to_rgbm`. -/
def widen5 (c : Nat) : Nat := (c <<< 3) + (c >>> 2)

/-- `_int_to_rgbm(color)`: widen the three 5-bit channels, mask from bit 15. -/
def _int_to_rgbm (color : Nat) : Pix :=
  ⟨widen5 ((color >>> 10) &&& 31), widen5 ((color >>> 5) &&& 31), widen5 (color &&& 31),
    (color >>> 15) * 255⟩

/-! ## Animation frame record codec (`_int_to_frame` / `_frame_to_int`) -/

/-- `sprite.objects.Frame` (namedtuple).  The Python field `end` is a reserved
word in Lean and is called `isEnd` here. -/
structure Frame where
  image : Nat
  transparency : Nat
  start : Bool
  loop : Bool
  mirror : Bool
  isEnd : Bool
  continuous : Bool
deriving DecidableEq, Repr

/-- `_int_to_frame(frame)` for a signed 32-bit word; Python's `&` and `>>` on
possibly-negative ints are `Int.emod`/`Int.fdiv` by powers of two. -/
def _int_to_frame (v : Int) : Frame :=
  { image := (v % 1024).toNat
    transparency := (v.fdiv 1024 % 8).toNat
    start := v.fdiv 8192 % 2 == 1
    loop := v.fdiv 16384 % 2 == 1
    mirror := v.fdiv 32768 % 2 == 1
    isEnd := v.fdiv 16777216 % 2 == 1
    continuous := v.fdiv 33554432 % 2 == 1 }

/-- `_frame_to_int(frame)`: note the `frame.image & 1023` masking and the
constant `0x06 << 16`. -/
def _frame_to_int (f : Frame) : Nat :=
  (f.image &&& 1023) ||| ((f.transparency &&& 7) <<< 10) |||
  ((cond f.start 1 0) <<< 13) ||| ((cond f.loop 1 0) <<< 14) |||
  ((cond f.mirror 1 0) <<< 15) ||| (6 <<< 16) |||
  ((cond f.isEnd 1 0) <<< 24) ||| ((cond f.continuous 1 0) <<< 25)

/-! ## The Sprite document model (`sprite.objects.Sprite`) -/

/-- A PIL image: width, height and the row-major pixel list (`getdata()`). -/
structure Img where
  width : Nat
  height : Nat
  data : List Pix
deriving DecidableEq, Repr

/-- A PIL image object reference: `id` models Python object identity (two
entries of a list with equal `id` are "the same object"). -/
structure ImgObj where
  id : Nat
  img : Img
deriving DecidableEq, Repr

inductive SpriteType where
  | RESOURCES
  | STATIC
  | UNIT
deriving DecidableEq, Repr

/-- Python truthiness of an optional list: `bool(None) = bool([]) = False`. -/
def truthy : Option (List α) → Bool
  | none => false
  | some l => !l.isEmpty

structure Sprite where
  images : List ImgObj
  frames : Option (List Frame)
  animation_index : Option (List Int)
  has_animations : Bool
  type : SpriteType
deriving DecidableEq, Repr

/-- `Sprite.__init__`: raises `ValueError` when exactly one of `frames`,
`animation_index` is truthy, then derives `has_animations` and `type`. -/
def Sprite.init (images : List ImgObj) (frames : Option (List Frame))
    (animation_index : Option (List Int)) : Except PyErr Sprite :=
  if truthy frames ≠ truthy animation_index then .error .valueError
  else .ok
    { images := images
      frames := frames
      animation_index := animation_index
      has_animations := truthy frames
      type :=
        if truthy frames then
          if (animation_index.getD []).length = 32 then SpriteType.UNIT
          else SpriteType.RESOURCES
        else SpriteType.STATIC }

/-- `Sprite.find_matching_image_indexes(image, identical)` as the list of
indexes the Python generator yields, in order. -/
def find_matching_image_indexes (images : List ImgObj) (image : ImgObj)
    (identical : Bool) : List Nat :=
  (images.enum.filter
    (fun p => if identical then p.2.id == image.id else p.2.img == image.img)).map Prod.fst

/-! ## Scanline image codec (`_read_spr_image` / `_image_object_to_sprite_image`) -/

/-- Cut a flat pixel list into consecutive rows of `w` pixels, as the encoder's
`range(0, len(bbox_data), bbox_width)` slicing does.  Structural fuel equal to
the list length suffices for every positive `w`. -/
def chunksF : Nat → Nat → List Pix → List (List Pix)
  | 0, _, _ => []
  | _, _, [] => []
  | fuel + 1, w, xs => xs.take w :: chunksF fuel w (xs.drop w)

def chunks (w : Nat) (xs : List Pix) : List (List Pix) := chunksF xs.length w xs

/-- Does the pixel's RGB differ from the magenta canvas `(255, 0, 255)`?
(`ImageChops.difference` against the blank image is nonzero exactly here;
the mask channel is not part of the comparison.) -/
def pixDiff (p : Pix) : Bool := !(p.r == 255 && p.g == 0 && p.b == 255)

/-- PIL `ImageChops.difference(image.convert('RGB'), blank).getbbox()`: the
smallest `(left, top, right, bottom)` rectangle (right/bottom exclusive)
containing every pixel whose RGB differs from magenta, `none` if there is no
such pixel. -/
def getbbox (width : Nat) (data : List Pix) : Option (Nat × Nat × Nat × Nat) :=
  let rows := chunks width data
  match rows.findIdx? (fun r => r.any pixDiff) with
  | none => none
  | some top =>
    let contentRows := rows.filter (fun r => r.any pixDiff)
    let bottom := rows.length - ((rows.reverse.findIdx? (fun r => r.any pixDiff)).getD 0)
    let left := (contentRows.map (fun r => (r.findIdx? pixDiff).getD 0)).foldr min width
    let right :=
      (contentRows.map (fun r => r.length - (r.reverse.findIdx? pixDiff).getD 0)).foldr max 0
    some (left, top, right, bottom)

/-- One row of the encoder loop: count leading `transparent` pixels; if the row
is all transparent emit `(0, [])`, else also trim trailing transparent pixels
(never past the first kept pixel) and return `(bbox_left + first_pixel, kept)`. -/
def trimRow (bboxLeft : Nat) (row : List Pix) : Nat × List Pix :=
  let first := (row.takeWhile (fun p => p == transparentPix)).length
  if first = row.length then (0, [])
  else
    let trailing := (row.reverse.takeWhile (fun p => p == transparentPix)).length
    let last := row.length - 1 - min trailing (row.length - 1 - first)
    (bboxLeft + first, (row.drop first).take (last + 1 - first))

/-- `IMAGE_ROW_HEADER_STRUCT.pack(empty*2, len(row_data)*2) + pack('<{n}H', *row_data)`. -/
def rowBytes (bboxLeft : Nat) (row : List Pix) : Except PyErr (List Nat) := do
  let e := (trimRow bboxLeft row).1
  let words := (trimRow bboxLeft row).2.map _rgbm_to_int
  let hdr ← packI32s [(2 * e : Nat), (2 * words.length : Nat)]
  let payload ← packU16s words
  .ok (hdr ++ payload)

def rowsBytes (bboxLeft : Nat) : List (List Pix) → Except PyErr (List Nat)
  | [] => .ok []
  | row :: rest => do
    let b ← rowBytes bboxLeft row
    let more ← rowsBytes bboxLeft rest
    .ok (b ++ more)

/-- `image.crop(bounding_box).getdata()` cut into rows of `bbox_width`. -/
def croppedRows (image : Img) (l t r b : Nat) : List (List Pix) :=
  (((chunks image.width image.data).drop t).take (b - t)).map
    (fun row => (row.drop l).take (r - l))

/-- `IMAGE_HEADER_STRUCT.pack(...)` with format `'<16x6lBl'`: sixteen zero pad
bytes, six signed int32, one unsigned byte, one signed int32. -/
def packImageHeader (w h l t r b bg size : Nat) : Except PyErr (List Nat) := do
  let ints ← packI32s [(w : Int), (h : Int), (l : Int), (t : Int), (r : Int), (b : Int)]
  let szb ← packI32 (size : Int)
  if bg < 256 then .ok (List.replicate 16 0 ++ ints ++ [bg] ++ szb)
  else .error .structError

/-- `_image_object_to_sprite_image(image)`: header (with canonical background
byte `0xFD` and size `len(image_data) + 10`), row data, 10 zero trailer bytes. -/
def _image_object_to_sprite_image (image : Img) : Except PyErr (List Nat) :=
  match getbbox image.width image.data with
  | none => do
    let hdr ← packImageHeader image.width image.height 0 0 0 0 0xFD 10
    .ok (hdr ++ List.replicate 10 0)
  | some (l, t, r, b) => do
    let body ← rowsBytes l (croppedRows image l t r b)
    let hdr ← packImageHeader image.width image.height l t r b 0xFD (body.length + 10)
    .ok (hdr ++ body ++ List.replicate 10 0)

/-- The background-byte remap of `_read_spr_image`: bits `CCCCCBGR` into a
15-bit color word, then through `_int_to_rgbm` for a consistent conversion. -/
def bgColorOfByte (bgcolor : Nat) : Pix :=
  let bgchannel := bgcolor >>> 3
  _int_to_rgbm ((((bgcolor &&& 1) * bgchannel) <<< 10) +
    (((bgcolor &&& 2) * bgchannel) <<< 4) + (((bgcolor &&& 4) * bgchannel) >>> 2))

/-- The `while size > 10` row loop of `_read_spr_image`: read an 8-byte row
header `(empty_bytes, row_bytes)`, emit `empty_bytes // 2` background pixels,
then the unpacked 16-bit words, then pad the row to `width`; sizes and header
values are signed.  Returns the pixels and the position after the loop.  Fuel
only bounds the iteration count (the loop consumes at least 8 of `size` per
iteration, so any fuel above `size` is enough). -/
def readRowsF (file : List Nat) (width : Int) (bg : Pix) :
    Nat → Nat → Int → Except PyErr (List Pix × Nat)
  | 0, _, _ => .error .valueError
  | fuel + 1, pos, size =>
    if size > 10 then
      match readExact file pos 8 with
      | .error e => .error e
      | .ok hdr =>
        match unpackI32s hdr 2 with
        | .error e => .error e
        | .ok ints =>
          let empty_bytes := ints.getD 0 0
          let row_bytes := ints.getD 1 0
          let lead := List.replicate (empty_bytes.fdiv 2).toNat bg
          let tail := List.replicate (width - (empty_bytes + row_bytes).fdiv 2).toNat bg
          if row_bytes = 0 then
            match readRowsF file width bg fuel (pos + 8) (size - 8) with
            | .error e => .error e
            | .ok (pix, pend) => .ok (lead ++ tail ++ pix, pend)
          else if row_bytes < 0 then .error .structError
          else
            let buf := (file.drop (pos + 8)).take row_bytes.toNat
            match unpackU16s buf (row_bytes.fdiv 2).toNat with
            | .error e => .error e
            | .ok words =>
              match readRowsF file width bg fuel (pos + 8 + buf.length)
                  (size - 8 - row_bytes) with
              | .error e => .error e
              | .ok (pix, pend) =>
                .ok (lead ++ words.map _int_to_rgbm ++ tail ++ pix, pend)
    else .ok ([], pos)

/-- `_read_spr_image(spr_file)` at position `pos`: parse the 45-byte header
`'<16x6lBl'`, fill rows above the bounding box, run the row loop, fill rows
below, skip the 10-byte trailer.  `Image.new('RGBA', (width, height))` raises
`ValueError` on negative dimensions. -/
def _read_spr_image (file : List Nat) (pos : Nat) : Except PyErr (Img × Nat) :=
  match readExact file pos 45 with
  | .error e => .error e
  | .ok hdr =>
    match unpackI32s ((hdr.drop 16).take 24) 6 with
    | .error e => .error e
    | .ok ints =>
      let width := ints.getD 0 0
      let height := ints.getD 1 0
      let top := ints.getD 3 0
      let bottom := ints.getD 5 0
      let bgbyte := hdr.getD 40 0
      match unpackI32s (hdr.drop 41) 1 with
      | .error e => .error e
      | .ok szs =>
        let size := szs.getD 0 0
        let bg := bgColorOfByte bgbyte
        let head := List.replicate (width.toNat * top.toNat) bg
        match readRowsF file width bg (size.toNat + 1) (pos + 45) size with
        | .error e => .error e
        | .ok (pix, pend) =>
          let tail := List.replicate (width.toNat * (height - bottom).toNat) bg
          if width < 0 ∨ height < 0 then .error .valueError
          else .ok (⟨width.toNat, height.toNat, head ++ pix ++ tail⟩, pend + 10)

/-! ## Binary format encoder (`save`) -/

/-- The absolute file offsets stored in the animation-index half of the
animation section: `animations_offset + 4 * len(animation_index) + 4 * i`
(spr.py line 221). -/
def animEntryOffsets (animations_offset : Int) (indexLen : Nat) (idx : List Int) : List Int :=
  idx.map (fun i => animations_offset + 4 * indexLen + 4 * i)

/-- Placeholder object for `getD` calls whose index is provably in range. -/
def noImg : ImgObj := ⟨0, ⟨0, 0, []⟩⟩

/-- The image-writing loop of `save` (lines 232-245): for each image take
`next(sprite.find_matching_image_indexes(img))` -- the first index holding the
*identical* object (default `identical=True`); on first occurrence append the
encoded image and record the running offset, otherwise reuse the offset
recorded for that earlier index.  Returns the image index (without the final
sentinel), `current_end` and the image-data bytes. -/
def buildImagesF (all : List ImgObj) :
    List ImgObj → Nat → List Int → Nat → List Nat →
    Except PyErr (List Int × Nat × List Nat)
  | [], _, index, currentEnd, data => .ok (index, currentEnd, data)
  | img :: rest, n, index, currentEnd, data =>
    match (find_matching_image_indexes all img true).head? with
    | none => .error .valueError
    | some fo =>
      if fo = n then
        match _image_object_to_sprite_image img.img with
        | .error e => .error e
        | .ok bytes =>
          buildImagesF all rest (n + 1) (index ++ [(currentEnd : Int)])
            (currentEnd + bytes.length) (data ++ bytes)
      else
        buildImagesF all rest (n + 1) (index ++ [index.getD fo 0]) currentEnd data

/-- `save(sprite, path)` as the byte string the destination file holds.  The
source writes header and animation section, seeks past the reserved image
index, writes the image data, then seeks back and fills the index; the file is
the plain concatenation of the four sections. -/
def save (s : Sprite) : Except PyErr (List Nat) :=
  (if s.has_animations then
      match s.frames, s.animation_index with
      | some fs, some idx => .ok (some (fs, idx))
      | _, _ => .error PyErr.typeError
    else .ok none : Except PyErr (Option (List Frame × List Int))) >>= fun anims =>
  let animations_offset : Nat := if anims.isSome then 12 else 0
  let image_index_offset : Nat :=
    match anims with
    | some (fs, idx) => 12 + 4 * (idx.length + fs.length)
    | none => 12
  let first_image_offset := image_index_offset + 4 * (s.images.length + 1)
  packI32s [(animations_offset : Int), (image_index_offset : Int),
      (first_image_offset : Int)] >>= fun header =>
  (match anims with
    | some (fs, idx) =>
      packI32s (animEntryOffsets animations_offset idx.length idx ++
        fs.map (fun f => (_frame_to_int f : Int)))
    | none => .ok [] : Except PyErr (List Nat)) >>= fun animBytes =>
  buildImagesF s.images s.images 0 [] 0 [] >>= fun bid =>
  packI32s (bid.1 ++ [(bid.2.1 : Int)]) >>= fun indexBytes =>
  .ok (header ++ animBytes ++ indexBytes ++ bid.2.2)

/-! ## Binary format decoder (`load`) -/

/-- The boundary scan of `load` (lines 167-175): walking the animation-section
array, first compare position `i`'s own file address with the running minimum
`first_frame`; on a match the boundary is found, otherwise update the minimum
with the value at `i`. -/
def findBoundary (animation_offset : Int) : List Int → Int → Nat → Option (Nat × Int)
  | [], _, _ => none
  | v :: rest, first_frame, i =>
    if (i * 4 : Int) + animation_offset = first_frame then some (i, first_frame)
    else
      findBoundary animation_offset rest (if v < first_frame then v else first_frame) (i + 1)

/-- Lines 160-177 of `load`: split the animation-section array at the inferred
boundary; everything before it becomes the animation index, converted from
absolute offsets to frame positions by `(i - first_frame) // 4`, the rest is
decoded into frames.  An empty array raises `IndexError` at `anim_data[0]`;
a missing boundary leaves `animation_index = None` and raises `TypeError` in
the conversion list comprehension. -/
def splitAnimData (animation_offset : Int) (anim_data : List Int) :
    Except PyErr (List Int × List Frame) :=
  match anim_data with
  | [] => .error .indexError
  | d0 :: _ =>
    match findBoundary animation_offset anim_data d0 0 with
    | none => .error .typeError
    | some (bIdx, first_frame) =>
      .ok ((anim_data.take bIdx).map (fun i => (i - first_frame).fdiv 4),
        (anim_data.drop bIdx).map _int_to_frame)

/-- The image-reading loop of `load` (lines 184-192): stop when the current
offset (file position minus `images_offset`) equals the index's final entry,
otherwise decode one image at the current position, record
`offset -> position in image_sources` and continue.  Fuel only bounds the
iteration count; the position strictly grows, so `file.length + 2` is enough. -/
def readImagesF (file : List Nat) (images_offset lastEntry : Int) :
    Nat → Nat → List Img → List (Int × Nat) →
    Except PyErr (List Img × List (Int × Nat))
  | 0, _, _, _ => .error .valueError
  | fuel + 1, pos, srcs, omap =>
    let image_offset : Int := (pos : Int) - images_offset
    if image_offset = lastEntry then .ok (srcs, omap)
    else
      match _read_spr_image file pos with
      | .error e => .error e
      | .ok (img, pos2) =>
        readImagesF file images_offset lastEntry fuel pos2 (srcs ++ [img])
          (omap ++ [(image_offset, srcs.length)])

/-- Python dict lookup for the `image_offset_map` (later assignments win). -/
def dictLookup (m : List (Int × Nat)) (k : Int) : Option Nat :=
  (m.reverse.find? (fun e => e.1 == k)).map Prod.snd

/-- `load(path)` over the file's bytes: parse the `'<3l'` header, optionally
split the animation section, read the image index, sequentially decode the
stored images building the offset map, and resolve every index entry through
that map (entries sharing an offset resolve to the same object -- the same
`image_sources` position, hence the same `ImgObj.id`). -/
def load (file : List Nat) : Except PyErr Sprite :=
  match readExact file 0 12 with
  | .error e => .error e
  | .ok hdr =>
    match unpackI32s hdr 3 with
    | .error e => .error e
    | .ok offs =>
      let animation_offset := offs.getD 0 0
      let image_index_offset := offs.getD 1 0
      let images_offset := offs.getD 2 0
      match (if animation_offset ≠ 0 then
              if animation_offset < 0 then .error PyErr.osError
              else
                let anim_size := image_index_offset - animation_offset
                if anim_size.fdiv 4 < 0 then .error PyErr.structError
                else
                  let buf := (file.drop animation_offset.toNat).take anim_size.toNat
                  match unpackI32s buf (anim_size.fdiv 4).toNat with
                  | .error e => .error e
                  | .ok anim_data =>
                    match splitAnimData animation_offset anim_data with
                    | .error e => .error e
                    | .ok (idx, fs) => .ok (some (fs, idx))
             else .ok none : Except PyErr (Option (List Frame × List Int))) with
      | .error e => .error e
      | .ok anims =>
        if image_index_offset < 0 then .error .osError
        else
          let index_size := images_offset - image_index_offset
          if index_size.fdiv 4 < 0 then .error .structError
          else
            let buf := (file.drop image_index_offset.toNat).take index_size.toNat
            match unpackI32s buf (index_size.fdiv 4).toNat with
            | .error e => .error e
            | .ok image_index =>
              match image_index.getLast? with
              | none => .error .indexError
              | some lastEntry =>
                let pos0 := image_index_offset.toNat + buf.length
                match readImagesF file images_offset lastEntry (file.length + 2)
                    pos0 [] [] with
                | .error e => .error e
                | .ok (srcs, omap) =>
                  match (image_index.dropLast.mapM (fun x =>
                          match dictLookup omap x with
                          | some k => .ok (⟨k, srcs.getD k ⟨0, 0, []⟩⟩ : ImgObj)
                          | none => .error PyErr.keyError) :
                        Except PyErr (List ImgObj)) with
                  | .error e => .error e
                  | .ok images =>
                    match anims with
                    | some (fs, idx) => Sprite.init images (some fs) (some idx)
                    | none => Sprite.init images none none

/-! ## The save loop's written positions (for the compaction lemmas) -/

/-- Is position `m` the first occurrence, by object identity, of its image in
`all`?  Exactly then does `next(find_matching_image_indexes(img))` return `m`
itself and the `save` loop encode fresh bytes. -/
def isFirstOcc (all : List ImgObj) (m : Nat) : Bool :=
  (find_matching_image_indexes all (all.getD m noImg) true).head? == some m

/-- The positions whose image data the `save` loop writes, in order. -/
def writtenIdxs (all : List ImgObj) : List Nat :=
  (List.range all.length).filter (isFirstOcc all)

/-- Concatenated encodings of the images at the given positions. -/
def encodedImages (all : List ImgObj) (ms : List Nat) : List Nat :=
  ms.foldr (fun m acc =>
    (match _image_object_to_sprite_image (all.getD m noImg).img with
     | .ok bs => bs
     | .error _ => []) ++ acc) []

/-! ## Concrete inputs used by the counterexamples and witnesses -/

/-- The concrete document refuting C3: one animation whose index entry is 1
(so no entry is 0), two frames. -/
def C3red : Img := ⟨1, 1, [⟨255, 0, 0, 0⟩]⟩

def C3fr : Frame := ⟨0, 0, true, false, false, false, false⟩

def C3doc : Sprite := ⟨[⟨0, C3red⟩], some [C3fr, C3fr], some [1], true, .RESOURCES⟩

/-- A 1-by-1 image whose only pixel is magenta with the mask bit on: its RGB
equals the blank canvas, so the encoder's bounding box is empty. -/
def maskedMagenta : Img := ⟨1, 1, [⟨255, 0, 255, 255⟩]⟩

/-- A well-formed one-image file whose single 1-by-1 image stores the pixel
word `0xFC1F`: magenta with the mask bit on. -/
def craftedC1 : List Nat :=
  i32Bytes 0 ++ i32Bytes 12 ++ i32Bytes 20 ++
  i32Bytes 0 ++ i32Bytes 65 ++
  (List.replicate 16 0 ++ i32Bytes 1 ++ i32Bytes 1 ++ i32Bytes 0 ++ i32Bytes 0 ++
    i32Bytes 1 ++ i32Bytes 1 ++ [0xFD] ++ i32Bytes 20) ++
  (i32Bytes 0 ++ i32Bytes 2 ++ [0x1F, 0xFC]) ++ List.replicate 10 0

def craftedC1doc : Sprite :=
  ⟨[⟨0, ⟨1, 1, [⟨255, 0, 255, 255⟩]⟩⟩], none, none, false, .STATIC⟩

def craftedC1redoc : Sprite :=
  ⟨[⟨0, ⟨1, 1, [⟨255, 0, 255, 0⟩]⟩⟩], none, none, false, .STATIC⟩

/-- A well-formed animated document: one 1-by-1 opaque red image, a one-entry
animation index pointing at frame 0, and one frame word (`0x06` marker bits
only). -/
def C1wdoc : Sprite :=
  ⟨[⟨0, C3red⟩], some [_int_to_frame 393216], some [0], true, .RESOURCES⟩

/-- The byte string `save C1wdoc` produces; `load` maps it back to `C1wdoc`. -/
def C1wbytes : List Nat :=
  [12, 0, 0, 0, 20, 0, 0, 0, 28, 0, 0, 0, 16, 0, 0, 0, 0, 0, 6, 0, 0, 0, 0, 0,
   65, 0, 0, 0, 0, 0, 0, 0, 0, 0, 0, 0, 0, 0, 0, 0, 0, 0, 0, 0, 1, 0, 0, 0,
   1, 0, 0, 0, 0, 0, 0, 0, 0, 0, 0, 0, 1, 0, 0, 0, 1, 0, 0, 0, 253, 20, 0, 0,
   0, 0, 0, 0, 0, 2, 0, 0, 0, 0, 124, 0, 0, 0, 0, 0, 0, 0, 0, 0, 0]

/-- The 16-by-16 opaque red image of the claim's concrete scenario. -/
def red16 : Img := ⟨16, 16, List.replicate 256 ⟨255, 0, 0, 0⟩⟩

/-- Two pixel-for-pixel equal but distinct image objects (distinct ids). -/
def C2doc : Sprite := ⟨[⟨0, red16⟩, ⟨1, red16⟩], none, none, false, .STATIC⟩

/-- One image object stored under two index slots (equal ids: the same
object), as the decoder produces for a file whose index repeats an offset. -/
def C2sharedDoc : Sprite := ⟨[⟨5, C3red⟩, ⟨5, C3red⟩], none, none, false, .STATIC⟩

instance : Std.Antisymm (fun a b : Int => a ≤ b) :=
  ⟨fun h1 h2 => le_antisymm h1 h2⟩

/-- A pixel survives the 16-bit packing unchanged: every channel is in the
image of the 5-to-8-bit widening and the mask is 0 or 255. -/
def Representable (p : Pix) : Prop := _int_to_rgbm (_rgbm_to_int p) = p

instance (p : Pix) : Decidable (Representable p) := by
  unfold Representable
  infer_instance

/-- Every pixel outside the encoder's RGB bounding box is the sentinel
`(255, 0, 255, 0)`.  Pixels that are magenta in RGB but carry the mask bit do
not enlarge the box, so when such a pixel sits outside it the encoder drops
its mask. -/
def outsideBboxTransparent (image : Img) : Bool :=
  match getbbox image.width image.data with
  | none => image.data.all (fun p => p == transparentPix)
  | some (l, t, r, b) =>
    (List.range (chunks image.width image.data).length).all (fun y =>
      if y < t ∨ b ≤ y then
        ((chunks image.width image.data).getD y []).all (fun p => p == transparentPix)
      else
        (((chunks image.width image.data).getD y []).take l).all
          (fun p => p == transparentPix) &&
        (((chunks image.width image.data).getD y []).drop r).all
          (fun p => p == transparentPix))

/-- The bytes `struct.pack('<{n}H', *ws)` produces when it succeeds. -/
def u16sBytes (ws : List Nat) : List Nat := ws.flatMap (fun n => [n % 256, n / 256])

/-- Byte layout of a list of encoded rows `(empty_pixels, packed_words)`:
each row is its 8-byte header followed by its 16-bit words. -/
def encRowsBytes : List (Nat × List Nat) → List Nat
  | [] => []
  | (e, ws) :: rs =>
    i32Bytes (2 * e) ++ i32Bytes (2 * ws.length) ++ u16sBytes ws ++ encRowsBytes rs

/-- The pixels the row loop of `_read_spr_image` appends for those rows. -/
def decRowsPixels (width : Int) (bg : Pix) : List (Nat × List Nat) → List Pix
  | [] => []
  | (e, ws) :: rs =>
    List.replicate e bg ++ ws.map _int_to_rgbm ++
    List.replicate (width - ((e + ws.length : Nat) : Int)).toNat bg ++
    decRowsPixels width bg rs

/-- The encoder's per-row output: the stored empty-pixel count and the packed
16-bit words. -/
def encRow (l : Nat) (row : List Pix) : Nat × List Nat :=
  ((trimRow l row).1, (trimRow l row).2.map _rgbm_to_int)

/-- The `image_offset_map` entries `load`'s image loop records when the data
section is the concatenation of the encodings of the images at positions `ms`:
one `(offset, position)` pair per image, the offset accumulating the encoded
lengths. -/
def omapOf (all : List ImgObj) : List Nat → Int → Nat → List (Int × Nat)
  | [], _, _ => []
  | m :: rest, off, cnt =>
    (off, cnt) ::
      omapOf all rest (off + ((encodedImages all [m]).length : Int)) (cnt + 1)

/-! ## Bitwise-to-arithmetic bridge lemmas -/

theorem lor_eq_add_right (i : Nat) {a b : Nat} (c : Nat) (ha : a = c * 2 ^ i)
    (hb : b < 2 ^ i) : a ||| b = a + b := by
  subst ha
  rw [Nat.mul_comm]
  exact (Nat.mul_add_lt_is_or hb c).symm

theorem lor_eq_add_left (i : Nat) {a b : Nat} (c : Nat) (hb : b = c * 2 ^ i)
    (ha : a < 2 ^ i) : a ||| b = a + b := by
  rw [Nat.lor_comm, lor_eq_add_right i c hb ha, Nat.add_comm]

theorem and_mod (a i n : Nat) (hn : n + 1 = 2 ^ i) : a &&& n = a % (n + 1) := by
  have h := Nat.and_pow_two_sub_one_eq_mod a i
  rw [← hn] at h
  simpa using h

/-- Arithmetic form of `_rgbm_to_int` for in-range channel values. -/
theorem rgbm_to_int_arith (p : Pix) (hr : p.r < 256) (hg : p.g < 256) (hb : p.b < 256) :
    _rgbm_to_int p =
      (if p.m = 0 then 0 else 1) * 32768 + p.r / 8 * 1024 + p.g / 8 * 32 + p.b / 8 := by
  obtain ⟨r, g, b, m⟩ := p
  simp only [_rgbm_to_int, Nat.shiftLeft_eq, Nat.shiftRight_eq_div_pow]
  simp only [Pix.r, Pix.g, Pix.b, Pix.m] at *
  generalize (if m = 0 then (0 : Nat) else 1) = M
  have h1 : M * 2 ^ 15 ||| r / 2 ^ 3 * 2 ^ 10 = M * 2 ^ 15 + r / 2 ^ 3 * 2 ^ 10 :=
    lor_eq_add_right 15 M rfl (by omega)
  have h2 : M * 2 ^ 15 + r / 2 ^ 3 * 2 ^ 10 ||| g / 2 ^ 3 * 2 ^ 5 =
      M * 2 ^ 15 + r / 2 ^ 3 * 2 ^ 10 + g / 2 ^ 3 * 2 ^ 5 :=
    lor_eq_add_right 10 (M * 2 ^ 5 + r / 2 ^ 3) (by ring) (by omega)
  have h3 : M * 2 ^ 15 + r / 2 ^ 3 * 2 ^ 10 + g / 2 ^ 3 * 2 ^ 5 ||| b / 2 ^ 3 =
      M * 2 ^ 15 + r / 2 ^ 3 * 2 ^ 10 + g / 2 ^ 3 * 2 ^ 5 + b / 2 ^ 3 :=
    lor_eq_add_right 5 (M * 2 ^ 10 + r / 2 ^ 3 * 2 ^ 5 + g / 2 ^ 3) (by ring) (by omega)
  rw [h1, h2, h3]
  norm_num

/-- Arithmetic form of `_frame_to_int`. -/
theorem frame_to_int_arith (f : Frame) :
    _frame_to_int f =
      f.image % 1024 + f.transparency % 8 * 1024 + (cond f.start 1 0) * 8192 +
      (cond f.loop 1 0) * 16384 + (cond f.mirror 1 0) * 32768 + 393216 +
      (cond f.isEnd 1 0) * 16777216 + (cond f.continuous 1 0) * 33554432 := by
  obtain ⟨i, t, s, l, m, e, c⟩ := f
  simp only [_frame_to_int, Nat.shiftLeft_eq]
  rw [and_mod i 10 1023 (by norm_num), and_mod t 3 7 (by norm_num)]
  have hs : cond s 1 0 ≤ 1 := by cases s <;> simp
  have hl : cond l 1 0 ≤ 1 := by cases l <;> simp
  have hm : cond m 1 0 ≤ 1 := by cases m <;> simp
  have he : cond e 1 0 ≤ 1 := by cases e <;> simp
  have hc : cond c 1 0 ≤ 1 := by cases c <;> simp
  have h1 : i % (1023 + 1) ||| t % (7 + 1) * 2 ^ 10 =
      i % (1023 + 1) + t % (7 + 1) * 2 ^ 10 :=
    lor_eq_add_left 10 (t % (7 + 1)) rfl (by omega)
  have h2 : i % (1023 + 1) + t % (7 + 1) * 2 ^ 10 ||| cond s 1 0 * 2 ^ 13 =
      i % (1023 + 1) + t % (7 + 1) * 2 ^ 10 + cond s 1 0 * 2 ^ 13 :=
    lor_eq_add_left 13 (cond s 1 0) rfl (by omega)
  have h3 : i % (1023 + 1) + t % (7 + 1) * 2 ^ 10 + cond s 1 0 * 2 ^ 13 |||
        cond l 1 0 * 2 ^ 14 =
      i % (1023 + 1) + t % (7 + 1) * 2 ^ 10 + cond s 1 0 * 2 ^ 13 + cond l 1 0 * 2 ^ 14 :=
    lor_eq_add_left 14 (cond l 1 0) rfl (by omega)
  have h4 : i % (1023 + 1) + t % (7 + 1) * 2 ^ 10 + cond s 1 0 * 2 ^ 13 +
        cond l 1 0 * 2 ^ 14 ||| cond m 1 0 * 2 ^ 15 =
      i % (1023 + 1) + t % (7 + 1) * 2 ^ 10 + cond s 1 0 * 2 ^ 13 + cond l 1 0 * 2 ^ 14 +
        cond m 1 0 * 2 ^ 15 :=
    lor_eq_add_left 15 (cond m 1 0) rfl (by omega)
  have h5 : i % (1023 + 1) + t % (7 + 1) * 2 ^ 10 + cond s 1 0 * 2 ^ 13 +
        cond l 1 0 * 2 ^ 14 + cond m 1 0 * 2 ^ 15 ||| 6 * 2 ^ 16 =
      i % (1023 + 1) + t % (7 + 1) * 2 ^ 10 + cond s 1 0 * 2 ^ 13 + cond l 1 0 * 2 ^ 14 +
        cond m 1 0 * 2 ^ 15 + 6 * 2 ^ 16 :=
    lor_eq_add_left 16 6 rfl (by omega)
  have h6 : i % (1023 + 1) + t % (7 + 1) * 2 ^ 10 + cond s 1 0 * 2 ^ 13 +
        cond l 1 0 * 2 ^ 14 + cond m 1 0 * 2 ^ 15 + 6 * 2 ^ 16 ||| cond e 1 0 * 2 ^ 24 =
      i % (1023 + 1) + t % (7 + 1) * 2 ^ 10 + cond s 1 0 * 2 ^ 13 + cond l 1 0 * 2 ^ 14 +
        cond m 1 0 * 2 ^ 15 + 6 * 2 ^ 16 + cond e 1 0 * 2 ^ 24 :=
    lor_eq_add_left 24 (cond e 1 0) rfl (by omega)
  have h7 : i % (1023 + 1) + t % (7 + 1) * 2 ^ 10 + cond s 1 0 * 2 ^ 13 +
        cond l 1 0 * 2 ^ 14 + cond m 1 0 * 2 ^ 15 + 6 * 2 ^ 16 + cond e 1 0 * 2 ^ 24 |||
        cond c 1 0 * 2 ^ 25 =
      i % (1023 + 1) + t % (7 + 1) * 2 ^ 10 + cond s 1 0 * 2 ^ 13 + cond l 1 0 * 2 ^ 14 +
        cond m 1 0 * 2 ^ 15 + 6 * 2 ^ 16 + cond e 1 0 * 2 ^ 24 + cond c 1 0 * 2 ^ 25 :=
    lor_eq_add_left 25 (cond c 1 0) rfl (by omega)
  rw [h1, h2, h3, h4, h5, h6, h7]
  omega

theorem widen5_div_eight (c : Nat) (hc : c < 32) : widen5 c / 8 = c := by
  unfold widen5
  rw [Nat.shiftLeft_eq, Nat.shiftRight_eq_div_pow]
  omega

theorem widen5_lt (c : Nat) (hc : c < 32) : widen5 c < 256 := by
  unfold widen5
  rw [Nat.shiftLeft_eq, Nat.shiftRight_eq_div_pow]
  omega

/-- Claim C8: for every 16-bit color word `v` (1-bit mask plus 15-bit 5-5-5 RGB),
packing the (R,G,B,mask) tuple obtained by unpacking `v` gives back exactly `v`:
`_rgbm_to_int (_int_to_rgbm v) = v`. -/
theorem spr_color_pack_unpack_identity :
    ∀ v : Nat, v < 65536 → _rgbm_to_int (_int_to_rgbm v) = v := by
  intro v hv
  have ha : (v >>> 10) &&& 31 = v / 1024 % 32 := by
    rw [and_mod _ 5 31 (by norm_num), Nat.shiftRight_eq_div_pow]
  have hb : (v >>> 5) &&& 31 = v / 32 % 32 := by
    rw [and_mod _ 5 31 (by norm_num), Nat.shiftRight_eq_div_pow]
  have hc : v &&& 31 = v % 32 := by
    have h := and_mod v 5 31 (by norm_num)
    simpa using h
  have hm : v >>> 15 = v / 32768 := by
    rw [Nat.shiftRight_eq_div_pow]
  simp only [_int_to_rgbm, ha, hb, hc, hm]
  rw [rgbm_to_int_arith _ (widen5_lt _ (by omega)) (widen5_lt _ (by omega))
        (widen5_lt _ (by omega))]
  dsimp only
  rw [widen5_div_eight _ (by omega), widen5_div_eight _ (by omega),
      widen5_div_eight _ (by omega)]
  rcases (show v / 32768 = 0 ∨ v / 32768 = 1 by omega) with h | h <;> rw [h] <;>
    norm_num <;> omega

/-- Witness for C8 at the concrete word 64543. -/
theorem spr_color_pack_unpack_identity_witness :
    64543 < 65536 ∧ _rgbm_to_int (_int_to_rgbm 64543) = 64543 :=
  ⟨by norm_num, spr_color_pack_unpack_identity 64543 (by norm_num)⟩

/-- Claim C5 counterexample: packing a Frame whose `image` field is 1024 does not
fail; it produces exactly the word obtained for `image = 0` -- the index is
silently truncated by `frame.image & 1023` and no error of any kind is raised. -/
theorem spr_frame_pack_1024_counterexample :
    _frame_to_int ⟨1024, 0, false, false, false, false, false⟩ =
      _frame_to_int ⟨0, 0, false, false, false, false, false⟩ := by decide

/-- Claim C5 (amended): for every Frame, `_frame_to_int` packs `image & 1023`,
i.e. the image index reduced modulo 1024; an out-of-range index is silently
truncated and no FormatError exists anywhere in the encoder. -/
theorem spr_frame_pack_truncates (f : Frame) :
    _frame_to_int f = _frame_to_int { f with image := f.image % 1024 } := by
  rw [frame_to_int_arith, frame_to_int_arith]
  dsimp only
  omega

/-- Unpacking the word packed from an in-range frame returns the frame
(used for the animation-section round trip). -/
theorem frame_roundtrip (f : Frame) (h1 : f.image < 1024) (h2 : f.transparency < 8) :
    _int_to_frame ((_frame_to_int f : Nat) : Int) = f := by
  obtain ⟨i, t, s, l, m, e, c⟩ := f
  simp only at h1 h2
  rw [frame_to_int_arith]
  dsimp only
  rw [Nat.mod_eq_of_lt h1, Nat.mod_eq_of_lt h2]
  have hs : cond s 1 0 ≤ 1 := by cases s <;> simp
  have hl : cond l 1 0 ≤ 1 := by cases l <;> simp
  have hm : cond m 1 0 ≤ 1 := by cases m <;> simp
  have he : cond e 1 0 ≤ 1 := by cases e <;> simp
  have hc : cond c 1 0 ≤ 1 := by cases c <;> simp
  simp only [_int_to_frame,
    show ∀ a : Int, a.fdiv 1024 = a / 1024 from fun a => Int.fdiv_eq_ediv a (by norm_num),
    show ∀ a : Int, a.fdiv 8192 = a / 8192 from fun a => Int.fdiv_eq_ediv a (by norm_num),
    show ∀ a : Int, a.fdiv 16384 = a / 16384 from fun a => Int.fdiv_eq_ediv a (by norm_num),
    show ∀ a : Int, a.fdiv 32768 = a / 32768 from fun a => Int.fdiv_eq_ediv a (by norm_num),
    show ∀ a : Int, a.fdiv 16777216 = a / 16777216 from
      fun a => Int.fdiv_eq_ediv a (by norm_num),
    show ∀ a : Int, a.fdiv 33554432 = a / 33554432 from
      fun a => Int.fdiv_eq_ediv a (by norm_num),
    Frame.mk.injEq]
  refine ⟨?_, ?_, ?_, ?_, ?_, ?_, ?_⟩
  · omega
  · omega
  · cases s <;> simp <;> omega
  · cases l <;> simp <;> omega
  · cases m <;> simp <;> omega
  · cases e <;> simp <;> omega
  · cases c <;> simp <;> omega

/-- Claim C4: at the concrete truncated input (8 zero bytes, a header cut
short) the decoder fails with `struct.error` raised by the header unpack.
No `FormatError` exists anywhere in the code: `load` begins with a
`TODO: Add error handling` comment and propagates raw exceptions. -/
theorem spr_load_truncated_header :
    load (List.replicate 8 0) = .error PyErr.structError := rfl

/-- Claim C6: for an animation section whose two index entries both hold the
file offset of the section's first frame record (`animation_offset + 8`), the
running-minimum scan places the boundary at position 2: decoding yields the
animation index `[0, 0]` -- two equal frame positions -- and exactly one frame
array holding the frames decoded from the remaining words. -/
theorem spr_anim_boundary_shared_start (ao w : Int) (ws : List Int) :
    splitAnimData ao ((ao + 8) :: (ao + 8) :: w :: ws) =
      .ok ([0, 0], (w :: ws).map _int_to_frame) := by
  have h1 : findBoundary ao ((ao + 8) :: (ao + 8) :: w :: ws) (ao + 8) 0 =
      some (2, ao + 8) := by
    simp only [findBoundary]
    rw [if_neg (by push_cast; omega), if_neg (lt_irrefl (ao + 8)),
      if_neg (by push_cast; omega), if_neg (lt_irrefl (ao + 8)),
      if_pos (by push_cast; omega)]
  simp only [splitAnimData, h1]
  simp [Int.fdiv]

/-- Claim C3 counterexample: for `C3doc` (animation index `[1]`, two frames)
the single stored animation-index offset is 20 -- also visible in bytes 12..16
of the saved file -- while the first stored frame record sits at file offset
`12 + 4 * 1 = 16`: the minimum stored offset is not the first frame record's
offset when no animation-index entry is 0. -/
theorem spr_anim_min_offset_counterexample :
    (animEntryOffsets 12 1 [1]).min? = some 20 ∧
    (save C3doc).map (fun b => (b.drop 12).take 4) = .ok (i32Bytes 20) ∧
    (20 : Int) ≠ 12 + 4 * 1 :=
  ⟨by decide, rfl, by decide⟩

/-- Claim C3 (amended): when some animation-index entry is 0 (an animation
starts at the first frame) and all entries are non-negative frame positions,
the minimum of the stored animation-index offsets equals
`animations_offset + 4 * len(index)` -- the file offset of the first stored
frame record, since `save` writes the frame records directly after the index.
For documents in which no entry is 0 the minimum is strictly larger. -/
theorem spr_anim_min_offset (idx : List Int) (h0 : (0 : Int) ∈ idx)
    (hnn : ∀ i ∈ idx, 0 ≤ i) :
    (animEntryOffsets 12 idx.length idx).min? =
      some ((12 : Int) + 4 * (idx.length : Int)) := by
  rw [List.min?_eq_some_iff (fun a : Int => le_refl a)
      (fun a b : Int => min_choice a b) (fun _ _ _ => le_min_iff)]
  constructor
  · exact List.mem_map.mpr ⟨0, h0, by norm_num [animEntryOffsets]⟩
  · intro b hb
    obtain ⟨i, hi, rfl⟩ := List.mem_map.mp hb
    have := hnn i hi
    omega

/-- Witness for the amended C3 at the one-entry index `[0]`. -/
theorem spr_anim_min_offset_witness :
    ((0 : Int) ∈ [(0 : Int)]) ∧
    (animEntryOffsets 12 [(0 : Int)].length [0]).min? =
      some ((12 : Int) + 4 * ([(0 : Int)].length : Int)) :=
  ⟨by decide, spr_anim_min_offset [0] (by decide) (by decide)⟩

/-- Claim C7 counterexample: `maskedMagenta` contains a pixel differing from
the sentinel (the mask bit is on), yet encoding emits only a zero-box header
and decoding returns the all-sentinel image -- the mask is lost, the round
trip is not pixel-identical. -/
theorem spr_row_codec_masked_magenta_counterexample :
    maskedMagenta.data ≠ [transparentPix] ∧
    (_image_object_to_sprite_image maskedMagenta).map
        (fun b => _read_spr_image b 0) =
      .ok (.ok (⟨1, 1, [transparentPix]⟩, 55)) := by
  constructor
  · decide
  · rfl

/-- Claim C1 counterexample: decoding `craftedC1` succeeds, but re-encoding and
decoding again returns an image whose pixel lost the mask bit (the encoder's
RGB-only bounding box treats masked magenta as background), so
`decode(encode(decode(b)))` is not pixel-for-pixel equal to `decode(b)`. -/
theorem spr_roundtrip_counterexample :
    load craftedC1 = .ok craftedC1doc ∧
    (save craftedC1doc).map load = .ok (.ok craftedC1redoc) ∧
    craftedC1redoc.images.map ImgObj.img ≠ craftedC1doc.images.map ImgObj.img := by
  refine ⟨rfl, rfl, ?_⟩
  decide

/-- Claim C2 counterexample: for a document holding two pixel-equal 16-by-16
opaque red images that are not the same object, the encoder writes the pixel
data twice: the two image-index entries are the distinct offsets 0 and 695
(and the saved file's index section shows `0, 695, 1390`).  `save` dedupes by
object identity (`find_matching_image_indexes` with `identical=True`), not by
value equality. -/
theorem spr_dedup_by_value_counterexample :
    (C2doc.images.getD 0 noImg).img = (C2doc.images.getD 1 noImg).img ∧
    (buildImagesF C2doc.images C2doc.images 0 [] 0 []).map (fun r => r.1) =
      .ok [0, 695] ∧
    (save C2doc).map (fun b => (b.drop 12).take 12) =
      .ok (i32Bytes 0 ++ i32Bytes 695 ++ i32Bytes 1390) ∧
    (0 : Int) ≠ 695 := by
  refine ⟨rfl, rfl, rfl, ?_⟩
  decide

/-- Claim C9 counterexample: constructing a Sprite with `frames` present (the
empty list) and `animation_index` absent does not fail -- `Sprite.__init__`
compares truthiness, not presence, so construction succeeds. -/
theorem spr_init_empty_frames_counterexample :
    Sprite.init [] (some []) none = .ok ⟨[], some [], none, false, SpriteType.STATIC⟩ := by
  rfl

/-- Claim C9 (amended): construction succeeds iff `frames` and `animation_index`
have equal truthiness (`bool(frames) == bool(animation_index)`); a present but
empty list counts as absent, and a non-empty list paired with an empty one fails. -/
theorem spr_init_truthiness (imgs : List ImgObj) (fr : Option (List Frame))
    (ai : Option (List Int)) :
    (∃ s, Sprite.init imgs fr ai = .ok s) ↔ truthy fr = truthy ai := by
  unfold Sprite.init
  split <;> simp_all

/-- Claim C10: constructing a Sprite with `frames = []` and `animation_index`
absent (or also the empty list) raises no validation error; the resulting
document reports `has_animations = false` and is classified STATIC. -/
theorem spr_init_empty_lists_static (imgs : List ImgObj) :
    Sprite.init imgs (some []) none = .ok ⟨imgs, some [], none, false, SpriteType.STATIC⟩ ∧
    Sprite.init imgs (some []) (some []) =
      .ok ⟨imgs, some [], some [], false, SpriteType.STATIC⟩ :=
  ⟨rfl, rfl⟩

/-! ## Identity-based duplicate compaction (C2) -/

theorem getD_eq_getElem' (l : List α) (d : α) {k : Nat} (hk : k < l.length) :
    l.getD k d = l[k] := by
  simp [List.getD_eq_getElem?_getD, List.getElem?_eq_getElem hk]

theorem head_filter_enumFrom {α : Type} (p : α → Bool) :
    ∀ (l : List α) (n : Nat),
      (((l.enumFrom n).filter (fun q => p q.2)).map Prod.fst).head? =
        (l.findIdx? p).map (· + n) := by
  intro l
  induction l with
  | nil => intro n; simp
  | cons a l ih =>
    intro n
    simp only [List.enumFrom_cons, List.filter_cons]
    cases h : p a with
    | true => simp [h, List.findIdx?_cons]
    | false =>
      simp only [h, Bool.false_eq_true, if_false, List.findIdx?_cons]
      rw [ih (n + 1)]
      rw [List.findIdx?_succ]
      cases l.findIdx? p with
      | none => simp
      | some v =>
        simp only [Option.map_some', Option.map_map]
        congr 1
        omega

/-- `next(find_matching_image_indexes(o))` is the first index whose entry is
the identical object. -/
theorem head_find_matching (all : List ImgObj) (o : ImgObj) :
    (find_matching_image_indexes all o true).head? =
      all.findIdx? (fun x => x.id == o.id) := by
  unfold find_matching_image_indexes
  have h := head_filter_enumFrom (fun x : ImgObj => x.id == o.id) all 0
  simp only [List.enum] at h ⊢
  simp only [if_true]
  rw [h]
  cases all.findIdx? (fun x : ImgObj => x.id == o.id) <;> simp

/-- The first identity occurrence of position `k`'s image: it exists, sits at
or before `k`, has the same id, and is a fixed point of first-occurrence. -/
theorem firstOcc_spec (all : List ImgObj) (k : Nat) (hk : k < all.length) :
    ∃ f, all.findIdx? (fun x => x.id == (all.getD k noImg).id) = some f ∧
      f ≤ k ∧ (all.getD f noImg).id = (all.getD k noImg).id ∧
      all.findIdx? (fun x => x.id == (all.getD f noImg).id) = some f := by
  have hmem : all.getD k noImg ∈ all := by
    rw [getD_eq_getElem' all noImg hk]
    exact List.getElem_mem hk
  have hsome : (all.findIdx? (fun x => x.id == (all.getD k noImg).id)).isSome := by
    rw [List.findIdx?_isSome, List.any_eq_true]
    exact ⟨all.getD k noImg, hmem, by simp⟩
  obtain ⟨f, hf⟩ := Option.isSome_iff_exists.mp hsome
  rw [List.findIdx?_eq_some_iff_getElem] at hf
  obtain ⟨hflen, hpf, hmin⟩ := hf
  have hfk : f ≤ k := by
    by_contra hlt
    have := hmin k (by omega)
    rw [getD_eq_getElem' all noImg hk] at this
    simp at this
  have hid : (all.getD f noImg).id = (all.getD k noImg).id := by
    rw [getD_eq_getElem' all noImg hflen]
    exact beq_iff_eq.mp hpf
  refine ⟨f, ?_, hfk, hid, ?_⟩
  · rw [List.findIdx?_eq_some_iff_getElem]
    exact ⟨hflen, hpf, hmin⟩
  · rw [List.findIdx?_eq_some_iff_getElem]
    simp only [hid]
    exact ⟨hflen, hpf, hmin⟩

theorem getD_of_take_eq {l t : List Int} {k m : Nat} (h : l.take k = t) (hm : m < k) :
    l.getD m 0 = t.getD m 0 := by
  subst h
  simp [List.getD_eq_getElem?_getD, List.getElem?_take_of_lt hm]

/-- Full specification of the `save` image loop: the accumulated index is a
prefix of the result, the data bytes are the concatenation of the encodings of
the first-occurrence positions, and every index entry equals the entry at its
image's first identity occurrence. -/
theorem buildImagesF_spec (all : List ImgObj) :
    ∀ (rest : List ImgObj) (n : Nat) (acc : List Int) (ce : Nat) (d : List Nat)
      (idx : List Int) (e : Nat) (data : List Nat),
      buildImagesF all rest n acc ce d = .ok (idx, e, data) →
      rest = all.drop n → acc.length = n → n ≤ all.length →
      idx.take n = acc ∧ idx.length = all.length ∧
      data = d ++
        encodedImages all ((List.range' n (all.length - n)).filter (isFirstOcc all)) ∧
      (∀ m, n ≤ m → m < all.length →
        idx.getD m 0 =
          idx.getD ((all.findIdx? (fun x => x.id == (all.getD m noImg).id)).getD 0) 0) := by
  intro rest
  induction rest with
  | nil =>
    intro n acc ce d idx e data hok hrest hacc hn
    have hlen : all.length ≤ n := List.drop_eq_nil_iff.mp hrest.symm
    have hne : n = all.length := by omega
    simp only [buildImagesF] at hok
    obtain ⟨h1, h2, h3⟩ : idx = acc ∧ e = ce ∧ data = d := by
      cases hok
      exact ⟨rfl, rfl, rfl⟩
    subst h1
    subst h3
    refine ⟨by rw [← hacc, List.take_length], by omega, ?_, ?_⟩
    · rw [← hne]
      simp [encodedImages, Nat.sub_self]
    · intro m hm hmlen
      omega
  | cons img rest ih =>
    intro n acc ce d idx e data hok hrest hacc hn
    have hnlt : n < all.length := by
      by_contra hc
      rw [List.drop_eq_nil_of_le (by omega)] at hrest
      simp at hrest
    have hdc := List.drop_eq_getElem_cons hnlt
    rw [hdc] at hrest
    obtain ⟨himg, hrest'⟩ : img = all[n] ∧ rest = all.drop (n + 1) := by
      cases hrest
      exact ⟨rfl, rfl⟩
    have hgetn : all.getD n noImg = img := by
      rw [getD_eq_getElem' all noImg hnlt, himg]
    obtain ⟨f, hfo, hfle, hfid, hffix⟩ := firstOcc_spec all n hnlt
    rw [hgetn] at hfo
    simp only [buildImagesF, head_find_matching, hfo] at hok
    have hsucc : all.length - n = (all.length - (n + 1)) + 1 := by omega
    by_cases hfn : f = n
    · subst hfn
      rw [if_pos rfl] at hok
      cases henc : _image_object_to_sprite_image img.img with
      | error err => rw [henc] at hok; cases hok
      | ok bytes =>
        rw [henc] at hok
        obtain ⟨htake, hlen, hdata, hinv⟩ := ih (f + 1) (acc ++ [(ce : Int)])
          (ce + bytes.length) (d ++ bytes) idx e data hok hrest'
          (by simp [hacc]) (by omega)
        have htaken : idx.take f = acc := by
          have : idx.take f = (idx.take (f + 1)).take f := by
            rw [List.take_take]
            congr 1
            omega
          rw [this, htake, List.take_append_of_le_length (by omega), ← hacc,
            List.take_length]
        refine ⟨htaken, hlen, ?_, ?_⟩
        · rw [hsucc, List.range'_succ, List.filter_cons]
          have hfirst : isFirstOcc all f = true := by
            unfold isFirstOcc
            rw [head_find_matching]
            simp only [hgetn]
            rw [hfo]
            simp
          rw [hfirst]
          simp only [if_pos, encodedImages, List.foldr_cons]
          simp only [hgetn, henc]
          rw [hdata]
          simp only [encodedImages]
          rw [List.append_assoc]
        · intro m hm hmlen
          rcases Nat.eq_or_lt_of_le hm with hmf | hmf
          · subst hmf
            simp only [hgetn]
            rw [hfo]
            simp
          · exact hinv m (by omega) hmlen
    · have hflt : f < n := by omega
      rw [if_neg hfn] at hok
      obtain ⟨htake, hlen, hdata, hinv⟩ := ih (n + 1) (acc ++ [acc.getD f 0])
        ce d idx e data hok hrest' (by simp [hacc]) (by omega)
      have htaken : idx.take n = acc := by
        have : idx.take n = (idx.take (n + 1)).take n := by
          rw [List.take_take]
          congr 1
          omega
        rw [this, htake, List.take_append_of_le_length (by omega), ← hacc,
          List.take_length]
      refine ⟨htaken, hlen, ?_, ?_⟩
      · rw [hsucc, List.range'_succ, List.filter_cons]
        have hnotfirst : isFirstOcc all n = false := by
          unfold isFirstOcc
          rw [head_find_matching]
          simp only [hgetn]
          rw [hfo]
          simp [hfn]
        rw [hnotfirst]
        simpa using hdata
      · intro m hm hmlen
        rcases Nat.eq_or_lt_of_le hm with hmf | hmf
        · subst hmf
          simp only [hgetn]
          rw [hfo]
          have h1 : idx.getD n 0 = acc.getD f 0 := by
            have hh := getD_of_take_eq htake (Nat.lt_succ_self n)
            rw [hh, ← hacc, List.getD_eq_getElem?_getD,
              List.getElem?_append_right (by omega)]
            simp [hacc]
          have h2 : idx.getD f 0 = acc.getD f 0 := by
            rw [getD_of_take_eq htaken hflt]
          simp only [Option.getD_some]
          rw [h1, h2]
        · exact hinv m (by omega) hmlen

theorem countP_range_unique (p : Nat → Bool) (f : Nat) :
    ∀ len, f < len → p f = true → (∀ m, m < len → p m = true → m = f) →
      (List.range len).countP p = 1 := by
  intro len
  induction len with
  | zero => intro h; omega
  | succ k ih =>
    intro hf hp huniq
    rw [List.range_succ, List.countP_append]
    by_cases hfk : f = k
    · subst hfk
      have hz : (List.range f).countP p = 0 := by
        rw [List.countP_eq_zero]
        intro a ha hpa
        have halt : a < f := List.mem_range.mp ha
        have := huniq a (by omega) hpa
        omega
      rw [hz]
      simp [hp]
    · have hk : p k = false := by
        cases hpk : p k
        · rfl
        · exact absurd (huniq k (by omega) hpk).symm hfk
      rw [ih (by omega) hp (fun m hm hpm => huniq m (by omega) hpm)]
      simp [hk]

/-- Among the positions whose data `save` writes, exactly one holds the
identity class of position `i`. -/
theorem writtenIdxs_countP (all : List ImgObj) (i : Nat) (hi : i < all.length) :
    (writtenIdxs all).countP
      (fun m => (all.getD m noImg).id == (all.getD i noImg).id) = 1 := by
  obtain ⟨f, hfo, hfle, hfid, hffix⟩ := firstOcc_spec all i hi
  unfold writtenIdxs
  rw [List.countP_filter]
  apply countP_range_unique _ f
  · omega
  · have hb1 : ((all.getD f noImg).id == (all.getD i noImg).id) = true :=
      beq_iff_eq.mpr hfid
    have hb2 : isFirstOcc all f = true := by
      unfold isFirstOcc
      rw [head_find_matching, hffix]
      simp
    rw [hb1, hb2]
    rfl
  · intro m hm hpm
    rw [Bool.and_eq_true] at hpm
    obtain ⟨hpm1, hpm2⟩ := hpm
    have hmid : (all.getD m noImg).id = (all.getD i noImg).id := beq_iff_eq.mp hpm1
    unfold isFirstOcc at hpm2
    rw [head_find_matching] at hpm2
    have hpm2' : all.findIdx? (fun x => x.id == (all.getD m noImg).id) = some m := by
      cases hh : all.findIdx? (fun x => x.id == (all.getD m noImg).id) with
      | none => rw [hh] at hpm2; cases hpm2
      | some v =>
        rw [hh] at hpm2
        simpa using hpm2
    rw [show (fun x : ImgObj => x.id == (all.getD m noImg).id) =
        (fun x : ImgObj => x.id == (all.getD i noImg).id) from by
      simp only [hmid]] at hpm2'
    rw [hfo] at hpm2'
    exact (Option.some.injEq _ _ ▸ hpm2').symm

/-- Claim C2 (amended): the encoder's duplicate compaction is by object
identity, not pixel equality.  For every document whose images list holds the
same image object at two positions `i < j` (equal `id`s), a successful run of
the image-writing loop assigns the two positions equal byte offsets, the image
data section is exactly the concatenation of the encodings of the
first-identity-occurrence positions, and exactly one written position carries
that object: its pixel data is written exactly once.  Two pixel-equal but
distinct objects are written separately (see the counterexample). -/
theorem spr_dedup_by_identity (s : Sprite) (i j : Nat) (idx : List Int) (e : Nat)
    (data : List Nat) (hij : i < j) (hj : j < s.images.length)
    (hid : (s.images.getD i noImg).id = (s.images.getD j noImg).id)
    (hok : buildImagesF s.images s.images 0 [] 0 [] = .ok (idx, e, data)) :
    idx.getD i 0 = idx.getD j 0 ∧
    data = encodedImages s.images (writtenIdxs s.images) ∧
    (writtenIdxs s.images).countP
      (fun m => (s.images.getD m noImg).id == (s.images.getD i noImg).id) = 1 := by
  obtain ⟨htake, hlen, hdata, hinv⟩ := buildImagesF_spec s.images s.images 0 [] 0 []
    idx e data hok rfl rfl (Nat.zero_le _)
  have hi : i < s.images.length := by omega
  refine ⟨?_, ?_, writtenIdxs_countP s.images i hi⟩
  · have h1 := hinv i (Nat.zero_le _) hi
    have h2 := hinv j (Nat.zero_le _) hj
    rw [h1, h2]
    simp only [hid]
  · rw [hdata]
    unfold writtenIdxs
    rw [List.range_eq_range']
    simp

/-- Witness for the amended C2: the same 1-by-1 red object stored at both
positions of `C2sharedDoc` -- equal index offsets `0, 0` and one written copy. -/
theorem spr_dedup_by_identity_witness :
    ([(0 : Int), 0].getD 0 0 = [(0 : Int), 0].getD 1 0) ∧
    encodedImages C2sharedDoc.images (writtenIdxs C2sharedDoc.images) =
      encodedImages C2sharedDoc.images (writtenIdxs C2sharedDoc.images) ∧
    (writtenIdxs C2sharedDoc.images).countP
      (fun m => (C2sharedDoc.images.getD m noImg).id ==
        (C2sharedDoc.images.getD 0 noImg).id) = 1 :=
  spr_dedup_by_identity C2sharedDoc 0 1 [0, 0] 65
    (encodedImages C2sharedDoc.images (writtenIdxs C2sharedDoc.images))
    (by decide) (by decide) (by decide) (by rfl)

/-! ## Byte packing and parsing round trips -/

theorem packI32_ok {z : Int} {bs : List Nat} (h : packI32 z = .ok bs) :
    bs = i32Bytes z ∧ -2147483648 ≤ z ∧ z < 2147483648 := by
  unfold packI32 at h
  split at h
  · next hc => cases h; exact ⟨rfl, hc.1, hc.2⟩
  · cases h

theorem i32Bytes_length (z : Int) : (i32Bytes z).length = 4 := rfl

theorem i32Chunks_cons (z : Int) (h1 : -2147483648 ≤ z) (h2 : z < 2147483648)
    (rest : List Nat) : i32Chunks (i32Bytes z ++ rest) = z :: i32Chunks rest := by
  have hnn : (0 : Int) ≤ z % 4294967296 := Int.emod_nonneg z (by norm_num)
  have hub' : z % 4294967296 < 4294967296 :=
    Int.emod_lt_of_pos z (by norm_num)
  have hu : ((z % 4294967296).toNat : Int) = z % 4294967296 := by omega
  simp only [i32Bytes, List.cons_append, List.nil_append, i32Chunks]
  congr 1
  simp only [i32OfBytes]
  set u := (z % 4294967296).toNat with hudef
  have hub : u < 4294967296 := by omega
  have hrec : u % 256 + 256 * (u / 256 % 256) + 65536 * (u / 65536 % 256) +
      16777216 * (u / 16777216 % 256) = u := by omega
  rw [hrec]
  split
  · next hlt => omega
  · next hge => omega

theorem packI32s_ok : ∀ {zs : List Int} {bs : List Nat}, packI32s zs = .ok bs →
    bs.length = 4 * zs.length ∧
    (∀ z ∈ zs, -2147483648 ≤ z ∧ z < 2147483648) ∧
    ∀ rest, i32Chunks (bs ++ rest) = zs ++ i32Chunks rest := by
  intro zs
  induction zs with
  | nil =>
    intro bs h
    simp only [packI32s] at h
    cases h
    simp
  | cons z zs ih =>
    intro bs h
    simp only [packI32s, bind, Except.bind] at h
    cases hz : packI32 z with
    | error e => rw [hz] at h; cases h
    | ok b =>
      rw [hz] at h
      cases hzs : packI32s zs with
      | error e => rw [hzs] at h; cases h
      | ok rest' =>
        rw [hzs] at h
        cases h
        obtain ⟨hb, hz1, hz2⟩ := packI32_ok hz
        obtain ⟨hlen, hrange, hch⟩ := ih hzs
        subst hb
        refine ⟨by simp [i32Bytes_length, hlen]; omega, ?_, ?_⟩
        · intro w hw
          rcases List.mem_cons.mp hw with hw | hw
          · subst hw; exact ⟨hz1, hz2⟩
          · exact hrange w hw
        · intro rest
          rw [List.append_assoc, i32Chunks_cons z hz1 hz2, hch]
          rfl

theorem unpackI32s_exact {zs : List Int} {bs : List Nat} (h : packI32s zs = .ok bs) :
    unpackI32s bs zs.length = .ok zs := by
  obtain ⟨hlen, _, hch⟩ := packI32s_ok h
  unfold unpackI32s
  rw [if_pos hlen]
  have h2 := hch []
  rw [List.append_nil] at h2
  simp only [h2, i32Chunks, List.append_nil]

theorem packU16_ok {n : Nat} {bs : List Nat} (h : packU16 n = .ok bs) :
    bs = [n % 256, n / 256] ∧ n < 65536 := by
  unfold packU16 at h
  split at h
  · next hc => cases h; exact ⟨rfl, hc⟩
  · cases h

theorem packU16s_ok : ∀ {ws : List Nat} {bs : List Nat}, packU16s ws = .ok bs →
    bs.length = 2 * ws.length ∧
    ∀ rest, u16Chunks (bs ++ rest) = ws ++ u16Chunks rest := by
  intro ws
  induction ws with
  | nil =>
    intro bs h
    simp only [packU16s] at h
    cases h
    simp
  | cons w ws ih =>
    intro bs h
    simp only [packU16s, bind, Except.bind] at h
    cases hw : packU16 w with
    | error e => rw [hw] at h; cases h
    | ok b =>
      rw [hw] at h
      cases hws : packU16s ws with
      | error e => rw [hws] at h; cases h
      | ok rest' =>
        rw [hws] at h
        cases h
        obtain ⟨hb, hwlt⟩ := packU16_ok hw
        obtain ⟨hlen, hch⟩ := ih hws
        subst hb
        refine ⟨by simp [hlen]; omega, ?_⟩
        intro rest
        have hsplit : ([w % 256, w / 256] ++ rest') ++ rest =
            w % 256 :: w / 256 :: (rest' ++ rest) := by simp
        rw [hsplit]
        simp only [u16Chunks]
        rw [hch]
        congr 1
        omega

theorem unpackU16s_exact {ws : List Nat} {bs : List Nat} (h : packU16s ws = .ok bs) :
    unpackU16s bs ws.length = .ok ws := by
  obtain ⟨hlen, hch⟩ := packU16s_ok h
  unfold unpackU16s
  rw [if_pos hlen]
  have h2 := hch []
  rw [List.append_nil] at h2
  simp only [h2, u16Chunks, List.append_nil]

theorem readExact_append (pre mid post : List Nat) :
    readExact (pre ++ (mid ++ post)) pre.length mid.length = .ok mid := by
  unfold readExact
  rw [List.drop_left, List.take_left]
  simp

theorem u16sBytes_cons (w : Nat) (ws : List Nat) :
    u16sBytes (w :: ws) = w % 256 :: w / 256 :: u16sBytes ws := by
  simp [u16sBytes]

theorem u16sBytes_length (ws : List Nat) : (u16sBytes ws).length = 2 * ws.length := by
  induction ws with
  | nil => rfl
  | cons w ws ih =>
    rw [u16sBytes_cons]
    simp only [List.length_cons, ih, List.length_cons]
    omega

theorem packU16s_eq : ∀ {ws : List Nat} {bs : List Nat},
    packU16s ws = .ok bs → bs = u16sBytes ws := by
  intro ws
  induction ws with
  | nil =>
    intro bs h
    simp only [packU16s] at h
    cases h
    rfl
  | cons w ws ih =>
    intro bs h
    simp only [packU16s, bind, Except.bind] at h
    cases hw : packU16 w with
    | error e => rw [hw] at h; cases h
    | ok b =>
      rw [hw] at h
      cases hws : packU16s ws with
      | error e => rw [hws] at h; cases h
      | ok rest' =>
        rw [hws] at h
        cases h
        obtain ⟨hb, _⟩ := packU16_ok hw
        subst hb
        rw [ih hws, u16sBytes_cons]
        rfl

theorem u16Chunks_u16sBytes (ws : List Nat) (h : ∀ w ∈ ws, w < 65536)
    (rest : List Nat) : u16Chunks (u16sBytes ws ++ rest) = ws ++ u16Chunks rest := by
  induction ws with
  | nil => simp [u16sBytes]
  | cons w ws ih =>
    rw [u16sBytes_cons]
    simp only [List.cons_append, u16Chunks, List.append_eq]
    rw [ih (fun x hx => h x (List.mem_cons_of_mem _ hx))]
    have hw := h w (List.mem_cons_self _ _)
    congr 1
    omega

theorem unpackU16s_u16sBytes (ws : List Nat) (h : ∀ w ∈ ws, w < 65536) :
    unpackU16s (u16sBytes ws) ws.length = .ok ws := by
  unfold unpackU16s
  rw [if_pos (u16sBytes_length ws)]
  have h2 := u16Chunks_u16sBytes ws h []
  rw [List.append_nil] at h2
  simp [h2, u16Chunks]

theorem unpackI32s_two (a b : Int) (ha1 : -2147483648 ≤ a) (ha2 : a < 2147483648)
    (hb1 : -2147483648 ≤ b) (hb2 : b < 2147483648) :
    unpackI32s (i32Bytes a ++ i32Bytes b) 2 = .ok [a, b] := by
  unfold unpackI32s
  rw [if_pos (by simp [i32Bytes_length])]
  have h1 : i32Bytes a ++ i32Bytes b = i32Bytes a ++ (i32Bytes b ++ []) := by simp
  rw [h1, i32Chunks_cons a ha1 ha2, i32Chunks_cons b hb1 hb2]
  rfl

theorem unpackI32s_one (a : Int) (ha1 : -2147483648 ≤ a) (ha2 : a < 2147483648) :
    unpackI32s (i32Bytes a) 1 = .ok [a] := by
  unfold unpackI32s
  rw [if_pos (by simp [i32Bytes_length])]
  have h1 : i32Bytes a = i32Bytes a ++ [] := by simp
  rw [h1, i32Chunks_cons a ha1 ha2]
  rfl

theorem okBind {ε α β : Type} (a : α) (f : α → Except ε β) :
    (Except.ok a >>= f : Except ε β) = f a := rfl

theorem errBind {ε α β : Type} (e : ε) (f : α → Except ε β) :
    ((Except.error e : Except ε α) >>= f) = .error e := rfl

/-- Successful `IMAGE_HEADER_STRUCT.pack`: the header is 45 bytes and parses
back to its fields. -/
theorem packImageHeader_parse {w h l t r b bg size : Nat} {hdr : List Nat}
    (hok : packImageHeader w h l t r b bg size = .ok hdr) :
    hdr.length = 45 ∧
    unpackI32s ((hdr.drop 16).take 24) 6 =
      .ok [(w : Int), (h : Int), (l : Int), (t : Int), (r : Int), (b : Int)] ∧
    hdr.getD 40 0 = bg ∧
    unpackI32s (hdr.drop 41) 1 = .ok [(size : Int)] ∧
    w < 2147483648 ∧ h < 2147483648 ∧ l < 2147483648 ∧ t < 2147483648 ∧
    r < 2147483648 ∧ b < 2147483648 ∧ size < 2147483648 ∧ bg < 256 := by
  unfold packImageHeader at hok
  cases hints : packI32s [(w : Int), (h : Int), (l : Int), (t : Int), (r : Int), (b : Int)] with
  | error e => rw [hints, errBind] at hok; cases hok
  | ok ints =>
    rw [hints, okBind] at hok
    cases hsz : packI32 (size : Int) with
    | error e => rw [hsz, errBind] at hok; cases hok
    | ok szb =>
      rw [hsz, okBind] at hok
      by_cases hbg : bg < 256
      · rw [if_pos hbg] at hok
        cases hok
        obtain ⟨hlen6, hrange6, _⟩ := packI32s_ok hints
        obtain ⟨hszb, hs1, hs2⟩ := packI32_ok hsz
        subst hszb
        have hlen : ints.length = 24 := by simpa using hlen6
        have hwi := (hrange6 (w : Int) (by simp)).2
        have hhi := (hrange6 (h : Int) (by simp)).2
        have hli := (hrange6 (l : Int) (by simp)).2
        have hti := (hrange6 (t : Int) (by simp)).2
        have hri := (hrange6 (r : Int) (by simp)).2
        have hbi := (hrange6 (b : Int) (by simp)).2
        have hshape : List.replicate 16 (0:Nat) ++ ints ++ [bg] ++ i32Bytes (size : Int) =
            List.replicate 16 (0:Nat) ++ (ints ++ ([bg] ++ i32Bytes (size : Int))) := by
          simp [List.append_assoc]
        have hd16 : (List.replicate 16 (0:Nat) ++ ints ++ [bg] ++
            i32Bytes (size : Int)).drop 16 = ints ++ ([bg] ++ i32Bytes (size : Int)) := by
          rw [hshape, List.drop_left' (by simp)]
        have ht24 : ((List.replicate 16 (0:Nat) ++ ints ++ [bg] ++
            i32Bytes (size : Int)).drop 16).take 24 = ints := by
          rw [hd16, List.take_left' hlen]
        have hshape41 : List.replicate 16 (0:Nat) ++ ints ++ [bg] ++
            i32Bytes (size : Int) =
            (List.replicate 16 (0:Nat) ++ ints ++ [bg]) ++ i32Bytes (size : Int) := by
          simp [List.append_assoc]
        have hd41 : (List.replicate 16 (0:Nat) ++ ints ++ [bg] ++
            i32Bytes (size : Int)).drop 41 = i32Bytes (size : Int) := by
          rw [hshape41, List.drop_left' (by simp [hlen])]
        have hshape40 : List.replicate 16 (0:Nat) ++ ints ++ [bg] ++
            i32Bytes (size : Int) =
            (List.replicate 16 (0:Nat) ++ ints) ++ ([bg] ++ i32Bytes (size : Int)) := by
          simp [List.append_assoc]
        refine ⟨by simp [hlen, i32Bytes_length], ?_, ?_, ?_, by omega, by omega,
          by omega, by omega, by omega, by omega, by omega, hbg⟩
        · rw [ht24]
          simpa using unpackI32s_exact hints
        · rw [hshape40, List.getD_eq_getElem?_getD,
            List.getElem?_append_right (by simp [hlen])]
          simp [hlen]
        · rw [hd41]
          exact unpackI32s_one _ (by omega) hs2
      · rw [if_neg hbg] at hok
        cases hok

/-! ## Row-codec reconstruction: byte-level lemmas -/

theorem packI32s_bytes : ∀ {zs : List Int} {bs : List Nat}, packI32s zs = .ok bs →
    bs = zs.flatMap i32Bytes := by
  intro zs
  induction zs with
  | nil =>
    intro bs h
    simp only [packI32s] at h
    cases h
    rfl
  | cons z zs ih =>
    intro bs h
    simp only [packI32s, bind, Except.bind] at h
    cases hz : packI32 z with
    | error e => rw [hz] at h; cases h
    | ok b =>
      rw [hz] at h
      cases hzs : packI32s zs with
      | error e => rw [hzs] at h; cases h
      | ok rest' =>
        rw [hzs] at h
        cases h
        obtain ⟨hb, _, _⟩ := packI32_ok hz
        subst hb
        rw [ih hzs]
        simp [List.flatMap_cons]

theorem packU16s_lt : ∀ {ws : List Nat} {bs : List Nat}, packU16s ws = .ok bs →
    ∀ w ∈ ws, w < 65536 := by
  intro ws
  induction ws with
  | nil => intro bs _ w hw; cases hw
  | cons v ws ih =>
    intro bs h w hw
    simp only [packU16s, bind, Except.bind] at h
    cases hv : packU16 v with
    | error e => rw [hv] at h; cases h
    | ok b =>
      rw [hv] at h
      cases hws : packU16s ws with
      | error e => rw [hws] at h; cases h
      | ok rest' =>
        rcases List.mem_cons.mp hw with hw | hw
        · subst hw; exact (packU16_ok hv).2
        · exact ih hws w hw

/-- Inversion of one encoded row: the bytes are the 8-byte header followed by
the packed words, and every packed quantity is in range. -/
theorem rowBytes_ok {l : Nat} {row : List Pix} {bs : List Nat}
    (h : rowBytes l row = .ok bs) :
    bs = i32Bytes ((2 * (encRow l row).1 : Nat) : Int) ++
      (i32Bytes ((2 * (encRow l row).2.length : Nat) : Int) ++
        u16sBytes (encRow l row).2) ∧
    2 * (encRow l row).1 < 2147483648 ∧ 2 * (encRow l row).2.length < 2147483648 ∧
    ∀ w ∈ (encRow l row).2, w < 65536 := by
  simp only [rowBytes] at h
  cases hh : packI32s [((2 * (trimRow l row).1 : Nat) : Int),
      ((2 * ((trimRow l row).2.map _rgbm_to_int).length : Nat) : Int)] with
  | error e => rw [hh, errBind] at h; cases h
  | ok hdr =>
    rw [hh, okBind] at h
    cases hp : packU16s ((trimRow l row).2.map _rgbm_to_int) with
    | error e => rw [hp, errBind] at h; cases h
    | ok payload =>
      rw [hp, okBind] at h
      cases h
      obtain ⟨_, hrange, _⟩ := packI32s_ok hh
      have hdrb := packI32s_bytes hh
      have hpayb := packU16s_eq hp
      have hwlt := packU16s_lt hp
      subst hdrb
      subst hpayb
      have h1 := (hrange _ (by simp : ((2 * (trimRow l row).1 : Nat) : Int) ∈ _)).2
      have h2 := (hrange _ (by simp :
        ((2 * ((trimRow l row).2.map _rgbm_to_int).length : Nat) : Int) ∈ _)).2
      refine ⟨by simp [encRow, List.flatMap_cons], by exact_mod_cast h1,
        ?_, ?_⟩
      · simp only [encRow]
        exact_mod_cast h2
      · intro w hw
        simp only [encRow] at hw
        exact hwlt w hw

/-- Inversion of the encoded row list: the bytes are `encRowsBytes` of the
per-row `(empty, words)` pairs, every packed quantity in range. -/
theorem rowsBytes_ok {l : Nat} : ∀ {rows : List (List Pix)} {bs : List Nat},
    rowsBytes l rows = .ok bs →
    bs = encRowsBytes (rows.map (encRow l)) ∧
    ∀ row ∈ rows, 2 * (encRow l row).1 < 2147483648 ∧
      2 * (encRow l row).2.length < 2147483648 ∧
      ∀ w ∈ (encRow l row).2, w < 65536 := by
  intro rows
  induction rows with
  | nil =>
    intro bs h
    simp only [rowsBytes] at h
    cases h
    exact ⟨rfl, by simp⟩
  | cons row rest ih =>
    intro bs h
    simp only [rowsBytes] at h
    cases hr : rowBytes l row with
    | error e => rw [hr, errBind] at h; cases h
    | ok b =>
      rw [hr, okBind] at h
      cases hrest : rowsBytes l rest with
      | error e => rw [hrest, errBind] at h; cases h
      | ok more =>
        rw [hrest, okBind] at h
        cases h
        obtain ⟨hb, hb1, hb2, hb3⟩ := rowBytes_ok hr
        obtain ⟨hm, hmr⟩ := ih hrest
        subst hb
        subst hm
        refine ⟨?_, ?_⟩
        · simp only [List.map_cons, encRowsBytes]
          simp [encRow, List.append_assoc, Nat.cast_mul, Nat.cast_ofNat]
        · intro r hrm
          rcases List.mem_cons.mp hrm with h | h
          · subst h; exact ⟨hb1, hb2, hb3⟩
          · exact hmr r h

/-- Running the decoder's row loop over the encoded rows reproduces the rows'
pixels and stops exactly after the encoded bytes. -/
theorem readRowsF_enc (width : Int) (bg : Pix) (file : List Nat) :
    ∀ (rs : List (Nat × List Nat)) (post : List Nat) (pos : Nat) (fuel : Nat)
      (size : Int),
    rs.length < fuel →
    size = ((encRowsBytes rs).length : Int) + 10 →
    file.drop pos = encRowsBytes rs ++ post →
    (∀ r ∈ rs, 2 * r.1 < 2147483648 ∧ 2 * r.2.length < 2147483648 ∧
      ∀ w ∈ r.2, w < 65536) →
    readRowsF file width bg fuel pos size =
      .ok (decRowsPixels width bg rs, pos + (encRowsBytes rs).length) := by
  intro rs
  induction rs with
  | nil =>
    intro post pos fuel size hfuel hsize hdrop hr
    cases fuel with
    | zero => omega
    | succ f =>
      subst hsize
      simp only [encRowsBytes, List.length_nil, Nat.cast_zero, zero_add,
        decRowsPixels, Nat.add_zero]
      simp [readRowsF]
  | cons r rest ih =>
    obtain ⟨e, ws⟩ := r
    intro post pos fuel size hfuel hsize hdrop hr
    cases fuel with
    | zero => omega
    | succ f =>
      have hrestf : rest.length < f := by
        simp only [List.length_cons] at hfuel; omega
      obtain ⟨he31, hw31, hwlt⟩ := hr (e, ws) (List.mem_cons_self _ _)
      dsimp only at he31 hw31 hwlt
      have hrr : ∀ r ∈ rest, 2 * r.1 < 2147483648 ∧ 2 * r.2.length < 2147483648 ∧
          ∀ w ∈ r.2, w < 65536 := fun r h => hr r (List.mem_cons_of_mem _ h)
      have hlen : (encRowsBytes ((e, ws) :: rest)).length =
          8 + 2 * ws.length + (encRowsBytes rest).length := by
        simp only [encRowsBytes, List.length_append, i32Bytes_length,
          u16sBytes_length]
      have hsplit : encRowsBytes ((e, ws) :: rest) ++ post =
          (i32Bytes (2 * (e : Int)) ++ i32Bytes (2 * (ws.length : Int))) ++
            (u16sBytes ws ++ (encRowsBytes rest ++ post)) := by
        simp only [encRowsBytes, List.append_assoc]
      have hre : readExact file pos 8 =
          .ok (i32Bytes (2 * (e : Int)) ++ i32Bytes (2 * (ws.length : Int))) := by
        unfold readExact
        rw [hdrop, hsplit, List.take_left' (by simp [i32Bytes_length])]
        rw [if_pos (by simp [i32Bytes_length])]
      have hup : unpackI32s
          (i32Bytes (2 * (e : Int)) ++ i32Bytes (2 * (ws.length : Int))) 2 =
          .ok [2 * (e : Int), 2 * (ws.length : Int)] :=
        unpackI32s_two _ _ (by omega) (by omega) (by omega) (by omega)
      have hfd1 : ((2 * (e : Int)).fdiv 2) = (e : Int) := by
        rw [Int.fdiv_eq_ediv _ (by norm_num)]; omega
      have hfd2 : ((2 * (e : Int) + 2 * (ws.length : Int)).fdiv 2) =
          (e : Int) + (ws.length : Int) := by
        rw [Int.fdiv_eq_ediv _ (by norm_num)]; omega
      have hdrop8 : file.drop (pos + 8) = u16sBytes ws ++ (encRowsBytes rest ++ post) := by
        have h1 : file.drop (pos + 8) = (file.drop pos).drop 8 := by
          rw [List.drop_drop]
        rw [h1, hdrop, hsplit, List.drop_left' (by simp [i32Bytes_length])]
      have hgt : (((encRowsBytes ((e, ws) :: rest)).length : Int) + 10) > 10 := by
        rw [hlen]; push_cast; omega
      subst hsize
      simp only [readRowsF]
      rw [if_pos hgt, hre]
      simp only [hup, List.getD_cons_zero, List.getD_cons_succ, hfd1, hfd2]
      cases ws with
      | nil =>
        have hc0 : (2 * ((([] : List Nat)).length : Int)) = 0 := by simp
        rw [if_pos hc0]
        have hdrop' : file.drop (pos + 8) = encRowsBytes rest ++ post := by
          rw [hdrop8]; simp [u16sBytes]
        have hsz' : (((encRowsBytes ((e, ([] : List Nat)) :: rest)).length : Int) + 10)
            - 8 = ((encRowsBytes rest).length : Int) + 10 := by
          simp only [hlen, List.length_nil]
          push_cast
          omega
        rw [hsz', ih post (pos + 8) f _ hrestf rfl hdrop' hrr]
        simp only [decRowsPixels, List.map_nil, List.nil_append,
          Except.ok.injEq, Prod.mk.injEq]
        refine ⟨?_, ?_⟩
        · simp [Int.toNat_natCast, List.append_assoc]
        · have h8 : (encRowsBytes ((e, ([] : List Nat)) :: rest)).length =
              8 + (encRowsBytes rest).length := by simpa using hlen
          omega
      | cons w ws' =>
        have hcne : (2 * (((w :: ws') : List Nat).length : Int)) ≠ 0 := by
          simp only [List.length_cons]; push_cast; omega
        have hcnlt : ¬ (2 * (((w :: ws') : List Nat).length : Int)) < 0 := by
          omega
        rw [if_neg hcne, if_neg hcnlt]
        have htn : (2 * ((w :: ws').length : Int)).toNat = 2 * (w :: ws').length := by
          omega
        have hbuf : (file.drop (pos + 8)).take ((2 * ((w :: ws').length : Int)).toNat) =
            u16sBytes (w :: ws') := by
          rw [hdrop8, htn, List.take_left' (u16sBytes_length _)]
        rw [hbuf]
        have hfd3 : ((2 * ((w :: ws').length : Int)).fdiv 2) = ((w :: ws').length : Int) := by
          rw [Int.fdiv_eq_ediv _ (by norm_num)]; omega
        rw [hfd3]
        have htn2 : (((w :: ws').length : Int)).toNat = (w :: ws').length := by omega
        rw [htn2, unpackU16s_u16sBytes _ hwlt]
        have hdrop' : file.drop (pos + 8 + (u16sBytes (w :: ws')).length) =
            encRowsBytes rest ++ post := by
          have h1 : file.drop (pos + 8 + (u16sBytes (w :: ws')).length) =
              (file.drop (pos + 8)).drop ((u16sBytes (w :: ws')).length) := by
            rw [List.drop_drop]
          rw [h1, hdrop8, List.drop_left]
        have hsz' : (((encRowsBytes ((e, w :: ws') :: rest)).length : Int) + 10)
            - 8 - 2 * ((w :: ws').length : Int) =
            ((encRowsBytes rest).length : Int) + 10 := by
          simp only [hlen, List.length_cons]
          push_cast
          omega
        rw [hsz', ih post (pos + 8 + (u16sBytes (w :: ws')).length) f _ hrestf rfl
          hdrop' hrr]
        simp only [decRowsPixels, Except.ok.injEq, Prod.mk.injEq]
        refine ⟨?_, ?_⟩
        · simp [Int.toNat_natCast, List.append_assoc, Nat.cast_add]
        · have h8 : (encRowsBytes ((e, w :: ws') :: rest)).length =
              8 + 2 * (w :: ws').length + (encRowsBytes rest).length := hlen
          have h9 : (u16sBytes (w :: ws')).length = 2 * (w :: ws').length :=
            u16sBytes_length _
          omega

/-! ## Row slicing (`chunks`) -/

theorem chunksF_fuel : ∀ (f1 : Nat) (f2 w : Nat) (xs : List Pix), 0 < w →
    xs.length ≤ f1 → xs.length ≤ f2 → chunksF f1 w xs = chunksF f2 w xs := by
  intro f1
  induction f1 with
  | zero =>
    intro f2 w xs hw h1 h2
    have hxs : xs = [] := List.length_eq_zero.mp (by omega)
    subst hxs
    cases f2 <;> rfl
  | succ g ih =>
    intro f2 w xs hw h1 h2
    cases xs with
    | nil => cases f2 <;> rfl
    | cons x xs' =>
      cases f2 with
      | zero => simp at h2
      | succ h =>
        simp only [chunksF]
        congr 1
        apply ih
        · exact hw
        · simp only [List.length_drop, List.length_cons] at *; omega
        · simp only [List.length_drop, List.length_cons] at *; omega

theorem chunks_cons {w : Nat} (hw : 0 < w) {row : List Pix} (rest' : List Pix)
    (hrow : row.length = w) :
    chunks w (row ++ rest') = row :: chunks w rest' := by
  cases row with
  | nil => rw [← hrow] at hw; simp at hw
  | cons x row' =>
    show chunksF ((x :: row') ++ rest').length w ((x :: row') ++ rest') = _
    have hl : ((x :: row') ++ rest').length = (row'.length + rest'.length) + 1 := by
      simp only [List.length_append, List.length_cons]
      omega
    rw [hl]
    simp only [List.cons_append, List.append_eq, chunksF]
    congr 1
    · rw [← List.cons_append, List.take_left' hrow]
    · rw [← List.cons_append, List.drop_left' hrow]
      show _ = chunksF rest'.length w rest'
      exact chunksF_fuel _ _ w rest' hw (by omega) le_rfl

theorem chunks_spec (w : Nat) (hw : 0 < w) :
    ∀ (h : Nat) (data : List Pix), data.length = w * h →
      (chunks w data).length = h ∧ (∀ r ∈ chunks w data, r.length = w) ∧
      (chunks w data).flatten = data := by
  intro h
  induction h with
  | zero =>
    intro data hdata
    have : data = [] := List.length_eq_zero.mp (by omega)
    subst this
    refine ⟨rfl, ?_, rfl⟩
    intro r hr
    cases hr
  | succ k ih =>
    intro data hdata
    have hsplit : data = data.take w ++ data.drop w := (List.take_append_drop w data).symm
    have hmul : w * (k + 1) = w * k + w := by ring
    have hwle : w ≤ data.length := by omega
    have htl : (data.take w).length = w := by
      rw [List.length_take]
      omega
    have hdl : (data.drop w).length = w * k := by
      rw [List.length_drop]
      omega
    obtain ⟨ih1, ih2, ih3⟩ := ih (data.drop w) hdl
    have hc : chunks w data = data.take w :: chunks w (data.drop w) := by
      conv_lhs => rw [hsplit]
      exact chunks_cons hw _ htl
    rw [hc]
    refine ⟨by simp [ih1], ?_, ?_⟩
    · intro r hr
      rcases List.mem_cons.mp hr with h | h
      · subst h; exact htl
      · exact ih2 r h
    · simp only [List.flatten_cons, ih3]
      exact hsplit.symm

/-! ## Bounding box facts (`getbbox`) -/

theorem foldr_min_le_init (xs : List Nat) (w : Nat) : xs.foldr min w ≤ w := by
  induction xs with
  | nil => exact le_rfl
  | cons x xs ih => exact le_trans (min_le_right _ _) ih

theorem foldr_min_le_mem {x : Nat} {xs : List Nat} (w : Nat) (hx : x ∈ xs) :
    xs.foldr min w ≤ x := by
  induction xs with
  | nil => cases hx
  | cons y ys ih =>
    rcases List.mem_cons.mp hx with h | h
    · subst h; exact min_le_left _ _
    · exact le_trans (min_le_right _ _) (ih h)

theorem le_foldr_max_mem {x : Nat} {xs : List Nat} (w : Nat) (hx : x ∈ xs) :
    x ≤ xs.foldr max w := by
  induction xs with
  | nil => cases hx
  | cons y ys ih =>
    rcases List.mem_cons.mp hx with h | h
    · subst h; exact le_max_left _ _
    · exact le_trans (ih h) (le_max_right _ _)

theorem foldr_max_le {xs : List Nat} {w : Nat} (h0 : (0 : Nat) ≤ w)
    (h : ∀ x ∈ xs, x ≤ w) : xs.foldr max 0 ≤ w := by
  induction xs with
  | nil => exact h0
  | cons y ys ih =>
    exact max_le (h y (List.mem_cons_self _ _))
      (ih (fun x hx => h x (List.mem_cons_of_mem _ hx)))

/-- A row that holds a content pixel: its first content index is strictly
below its last-content-bound `length - (reverse index of last content)`. -/
theorem row_content_lt {row : List Pix} (hany : row.any pixDiff = true) :
    (row.findIdx? pixDiff).getD 0 <
      row.length - (row.reverse.findIdx? pixDiff).getD 0 := by
  have hsome : (row.findIdx? pixDiff).isSome := by
    rw [List.findIdx?_isSome, hany]
  obtain ⟨i, hi⟩ := Option.isSome_iff_exists.mp hsome
  have hrsome : (row.reverse.findIdx? pixDiff).isSome := by
    rw [List.findIdx?_isSome, List.any_reverse, hany]
  obtain ⟨j, hj⟩ := Option.isSome_iff_exists.mp hrsome
  rw [List.findIdx?_eq_some_iff_getElem] at hi hj
  obtain ⟨hilen, hip, himin⟩ := hi
  obtain ⟨hjlen, hjp, hjmin⟩ := hj
  rw [List.length_reverse] at hjlen
  have hjp' : pixDiff row[row.length - 1 - j] = true := by
    rw [List.getElem_reverse] at hjp
    exact hjp
  have hij : i ≤ row.length - 1 - j := by
    by_contra hc
    exact himin (row.length - 1 - j) (by omega) hjp'
  have := List.findIdx?_eq_some_iff_getElem.mpr ⟨hilen, hip, himin⟩
  rw [this]
  have hrj : row.reverse.findIdx? pixDiff = some j := by
    rw [List.findIdx?_eq_some_iff_getElem]
    exact ⟨by simpa using hjlen, hjp, hjmin⟩
  rw [hrj]
  simp only [Option.getD_some]
  omega

/-- A successful `getbbox`: the box is nonempty and bounded by the image. -/
theorem getbbox_some_spec {w : Nat} {data : List Pix} {l t r b : Nat}
    (hrows : ∀ row ∈ chunks w data, row.length = w)
    (h : getbbox w data = some (l, t, r, b)) :
    t < b ∧ b ≤ (chunks w data).length ∧ l < r ∧ r ≤ w ∧
    t < (chunks w data).length ∧
    ∃ ht : t < (chunks w data).length, (chunks w data)[t].any pixDiff = true := by
  simp only [getbbox] at h
  cases hf : (chunks w data).findIdx? (fun row => row.any pixDiff) with
  | none => rw [hf] at h; cases h
  | some top =>
    rw [hf] at h
    simp only [Option.some.injEq, Prod.mk.injEq] at h
    obtain ⟨hl, ht, hr, hb⟩ := h
    subst hl; subst ht; subst hr; subst hb
    have hf' := hf
    rw [List.findIdx?_eq_some_iff_getElem] at hf'
    obtain ⟨htlen, htp, htmin⟩ := hf'
    have hrsome : ((chunks w data).reverse.findIdx?
        (fun row => row.any pixDiff)).isSome := by
      rw [List.findIdx?_isSome, List.any_reverse, List.any_eq_true]
      exact ⟨(chunks w data)[top], List.getElem_mem htlen, htp⟩
    obtain ⟨j, hj⟩ := Option.isSome_iff_exists.mp hrsome
    have hj' := hj
    rw [List.findIdx?_eq_some_iff_getElem] at hj'
    obtain ⟨hjlen, hjp, _⟩ := hj'
    rw [List.length_reverse] at hjlen
    have hjp' : ((chunks w data)[(chunks w data).length - 1 - j]).any pixDiff
        = true := by
      rw [List.getElem_reverse] at hjp
      exact hjp
    have htle : top ≤ (chunks w data).length - 1 - j := by
      by_contra hc
      exact htmin ((chunks w data).length - 1 - j) (by omega) hjp'
    rw [hj]
    simp only [Option.getD_some]
    -- the first content row contributes to both folds
    have hmem : (chunks w data)[top] ∈
        (chunks w data).filter (fun row => row.any pixDiff) := by
      rw [List.mem_filter]
      exact ⟨List.getElem_mem htlen, htp⟩
    have hfi : (((chunks w data)[top].findIdx? pixDiff).getD 0) ∈
        (((chunks w data).filter (fun row => row.any pixDiff)).map
          (fun row => (row.findIdx? pixDiff).getD 0)) :=
      List.mem_map_of_mem _ hmem
    have hri : ((chunks w data)[top].length -
        ((chunks w data)[top].reverse.findIdx? pixDiff).getD 0) ∈
        (((chunks w data).filter (fun row => row.any pixDiff)).map
          (fun row => row.length - (row.reverse.findIdx? pixDiff).getD 0)) :=
      List.mem_map_of_mem _ hmem
    have hlle := foldr_min_le_mem w hfi
    have hrge := le_foldr_max_mem 0 hri
    have hfr := row_content_lt htp
    have hrw : (((chunks w data).filter (fun row => row.any pixDiff)).map
        (fun row => row.length - (row.reverse.findIdx? pixDiff).getD 0)).foldr
        max 0 ≤ w := by
      apply foldr_max_le (Nat.zero_le w)
      intro x hx
      obtain ⟨row, hrow, hxval⟩ := List.mem_map.mp hx
      have := hrows row (List.mem_of_mem_filter hrow)
      omega
    refine ⟨by omega, by omega, by omega, hrw, htlen, htlen, htp⟩

/-! ## Per-row reconstruction (`trimRow`) -/

theorem representable_channels {p : Pix} (h : Representable p) :
    p.r < 256 ∧ p.g < 256 ∧ p.b < 256 := by
  unfold Representable at h
  rw [← h]
  unfold _int_to_rgbm
  refine ⟨?_, ?_, ?_⟩ <;>
    exact widen5_lt _ (by
      rw [and_mod _ 5 31 (by norm_num)]
      exact Nat.mod_lt _ (by norm_num))

theorem rgbm_to_int_lt {p : Pix} (h : Representable p) : _rgbm_to_int p < 65536 := by
  obtain ⟨hr, hg, hb⟩ := representable_channels h
  rw [rgbm_to_int_arith p hr hg hb]
  have h1 : p.r / 8 < 32 := by omega
  have h2 : p.g / 8 < 32 := by omega
  have h3 : p.b / 8 < 32 := by omega
  split <;> omega

theorem take_takeWhile_eq (q : Pix → Bool) (row : List Pix) :
    row.take ((row.takeWhile q).length) = row.takeWhile q :=
  (List.prefix_iff_eq_take.mp (List.takeWhile_prefix q)).symm

/-- The trailing transparent run of a row that has a kept pixel cannot cross
the first kept pixel: the `min` in `trimRow` collapses to `trailing`. -/
theorem trailing_le {row : List Pix}
    (hfl : (row.takeWhile (fun p => p == transparentPix)).length < row.length) :
    (row.reverse.takeWhile (fun p => p == transparentPix)).length ≤
      row.length - 1 - (row.takeWhile (fun p => p == transparentPix)).length := by
  set q : Pix → Bool := fun p => p == transparentPix with hq
  by_contra hc
  push_neg at hc
  have htr_le : (row.reverse.takeWhile q).length ≤ row.length := by
    have := (List.takeWhile_prefix (l := row.reverse) q).length_le
    simpa using this
  have hfl_le : (row.takeWhile q).length ≤ row.length :=
    (List.takeWhile_prefix q).length_le
  have hall : ∀ p ∈ row, q p = true := by
    intro p hp
    rw [← List.take_append_drop (row.length - (row.reverse.takeWhile q).length) row]
      at hp
    rcases List.mem_append.mp hp with hp | hp
    · have hmin : row.take (row.length - (row.reverse.takeWhile q).length) =
          (row.take ((row.takeWhile q).length)).take
            (row.length - (row.reverse.takeWhile q).length) := by
        rw [List.take_take, Nat.min_eq_left (by omega)]
      rw [hmin, take_takeWhile_eq] at hp
      exact List.mem_takeWhile_imp (List.mem_of_mem_take hp)
    · have hrev : (row.reverse.take ((row.reverse.takeWhile q).length)).reverse =
          row.drop (row.length - (row.reverse.takeWhile q).length) := by
        rw [List.reverse_take, List.reverse_reverse, List.length_reverse]
      rw [← hrev, take_takeWhile_eq] at hp
      exact List.mem_takeWhile_imp (List.mem_reverse.mp hp)
  have : row.takeWhile q = row := List.takeWhile_eq_self_iff.mpr hall
  rw [this] at hfl
  omega

theorem trimRow_all_trans {l : Nat} {row : List Pix}
    (hall : (row.takeWhile (fun p => p == transparentPix)).length = row.length) :
    trimRow l row = (0, []) := by
  simp only [trimRow]
  rw [if_pos hall]

theorem trimRow_content {l : Nat} {row : List Pix}
    (hne : (row.takeWhile (fun p => p == transparentPix)).length ≠ row.length) :
    trimRow l row =
      (l + (row.takeWhile (fun p => p == transparentPix)).length,
       (row.drop ((row.takeWhile (fun p => p == transparentPix)).length)).take
         (row.length -
           (row.reverse.takeWhile (fun p => p == transparentPix)).length -
           (row.takeWhile (fun p => p == transparentPix)).length)) := by
  have hfl : (row.takeWhile (fun p => p == transparentPix)).length < row.length :=
    Nat.lt_of_le_of_ne (List.takeWhile_prefix _).length_le hne
  have htr := trailing_le hfl
  simp only [trimRow]
  rw [if_neg hne]
  simp only [Nat.min_def]
  rw [if_pos htr]
  congr 2
  omega

/-- Trimming then re-expanding one cropped row reproduces it, prefixed with
`bbox_left` transparent pixels (every kept pixel survives the 16-bit round
trip because it is `Representable`). -/
theorem trimRow_reconstruct {row : List Pix} (l : Nat)
    (hrep : ∀ p ∈ row, Representable p) :
    (trimRow l row).1 + ((trimRow l row).2).length ≤ l + row.length ∧
    List.replicate (trimRow l row).1 transparentPix ++
      (((trimRow l row).2.map _rgbm_to_int).map _int_to_rgbm ++
        List.replicate (l + row.length - (trimRow l row).1 -
          ((trimRow l row).2).length) transparentPix) =
    List.replicate l transparentPix ++ row := by
  by_cases hall : (row.takeWhile (fun p => p == transparentPix)).length = row.length
  · rw [trimRow_all_trans hall]
    have hrow : row = List.replicate row.length transparentPix := by
      rw [List.eq_replicate_iff]
      refine ⟨rfl, ?_⟩
      intro p hp
      have hself : row.takeWhile (fun p => p == transparentPix) = row := by
        have h2 := take_takeWhile_eq (fun p => p == transparentPix) row
        rw [hall, List.take_length] at h2
        exact h2.symm
      rw [← hself] at hp
      have h3 := List.mem_takeWhile_imp hp
      exact beq_iff_eq.mp h3
    refine ⟨by simp, ?_⟩
    conv_rhs => rw [hrow]
    simp
  · have hfl : (row.takeWhile (fun p => p == transparentPix)).length < row.length :=
      Nat.lt_of_le_of_ne (List.takeWhile_prefix _).length_le hall
    have htr := trailing_le hfl
    have htr_le : (row.reverse.takeWhile (fun p => p == transparentPix)).length ≤
        row.length := by
      have h2 := (List.takeWhile_prefix
        (l := row.reverse) (fun p => p == transparentPix)).length_le
      simpa using h2
    rw [trimRow_content hall]
    dsimp only
    set first := (row.takeWhile (fun p => p == transparentPix)).length with hfirst
    set trailing := (row.reverse.takeWhile (fun p => p == transparentPix)).length
      with htrailing
    set K := row.length - trailing - first with hK
    have hkl : ((row.drop first).take K).length = K := by
      rw [List.length_take, List.length_drop]
      omega
    have htake_first : row.take first = List.replicate first transparentPix := by
      rw [hfirst, take_takeWhile_eq, List.eq_replicate_iff]
      refine ⟨rfl, ?_⟩
      intro p hp
      have h3 := List.mem_takeWhile_imp hp
      exact beq_iff_eq.mp h3
    have hdrop_last : row.drop (row.length - trailing) =
        List.replicate trailing transparentPix := by
      have hrev : (row.reverse.take trailing).reverse =
          row.drop (row.length - trailing) := by
        rw [List.reverse_take, List.reverse_reverse, List.length_reverse]
      rw [← hrev, htrailing, take_takeWhile_eq, List.eq_replicate_iff]
      refine ⟨by simp, ?_⟩
      intro p hp
      have h3 := List.mem_takeWhile_imp (List.mem_reverse.mp hp)
      exact beq_iff_eq.mp h3
    have hdecomp : row = row.take first ++ ((row.drop first).take K ++
        row.drop (row.length - trailing)) := by
      have h1 : row.drop (row.length - trailing) = (row.drop first).drop K := by
        rw [List.drop_drop]
        congr 1
        omega
      rw [h1, List.take_append_drop, List.take_append_drop]
    have hkept : (((row.drop first).take K).map _rgbm_to_int).map _int_to_rgbm =
        (row.drop first).take K := by
      rw [List.map_map]
      have h2 : ∀ p ∈ (row.drop first).take K, (_int_to_rgbm ∘ _rgbm_to_int) p = p := by
        intro p hp
        exact hrep p (List.mem_of_mem_drop (List.mem_of_mem_take hp))
      rw [List.map_congr_left h2]
      simp
    refine ⟨by rw [hkl]; omega, ?_⟩
    rw [hkept]
    have harith : l + row.length - (l + first) - ((row.drop first).take K).length =
        trailing := by
      rw [hkl]
      omega
    rw [harith]
    conv_rhs => rw [hdecomp]
    rw [htake_first, hdrop_last, List.replicate_add, List.append_assoc]

/-! ## Image-level reconstruction -/

theorem readRowsF_stop {file : List Nat} {width : Int} {bg : Pix} {fuel pos : Nat}
    {size : Int} (h : ¬ size > 10) :
    readRowsF file width bg (fuel + 1) pos size = .ok ([], pos) := by
  simp only [readRowsF]
  rw [if_neg h]

theorem encRowsBytes_length_ge : ∀ rs : List (Nat × List Nat),
    rs.length ≤ (encRowsBytes rs).length := by
  intro rs
  induction rs with
  | nil => simp [encRowsBytes]
  | cons r rest ih =>
    obtain ⟨e, ws⟩ := r
    simp only [encRowsBytes, List.length_append, List.length_cons,
      i32Bytes_length, u16sBytes_length]
    omega

theorem flatten_replicate (n w : Nat) (a : Pix) :
    (List.replicate n (List.replicate w a)).flatten = List.replicate (n * w) a := by
  induction n with
  | zero => simp
  | succ k ih =>
    rw [List.replicate_succ, List.flatten_cons, ih, ← List.replicate_add]
    congr 1
    ring

theorem bgColorOfByte_FD : bgColorOfByte 253 = transparentPix := by decide

/-- The decoder's row loop output over the encoded middle rows is exactly the
flattening of those rows, when every row is `w` wide, transparent outside
`[l, r)`, and `Representable` everywhere. -/
theorem decRows_mid {w l r : Nat} (hlr : l < r) (hrw : r ≤ w) :
    ∀ (mid : List (List Pix)),
    (∀ row ∈ mid, row.length = w ∧
      (row.take l).all (fun p => p == transparentPix) = true ∧
      (row.drop r).all (fun p => p == transparentPix) = true ∧
      ∀ p ∈ row, Representable p) →
    decRowsPixels (w : Int) transparentPix
      ((mid.map (fun row => (row.drop l).take (r - l))).map (encRow l)) =
      mid.flatten := by
  intro mid
  induction mid with
  | nil => intro _; rfl
  | cons row rest ih =>
    intro hh
    obtain ⟨hrlen, htl, hdr, hrep⟩ := hh row (List.mem_cons_self _ _)
    have hrest := fun rr hr => hh rr (List.mem_cons_of_mem _ hr)
    set c : List Pix := (row.drop l).take (r - l) with hc
    have hclen : c.length = r - l := by
      rw [hc, List.length_take, List.length_drop]
      omega
    have hcrep : ∀ p ∈ c, Representable p := by
      intro p hp
      exact hrep p (List.mem_of_mem_drop (List.mem_of_mem_take hp))
    obtain ⟨hbound, hrec⟩ := @trimRow_reconstruct c l hcrep
    have hlc : l + c.length = r := by omega
    simp only [List.map_cons, encRow, decRowsPixels, List.flatten_cons]
    rw [← hc]
    rw [ih hrest]
    -- split the decoder's trailing pad
    have htail : (((w : Nat) : Int) -
        (((trimRow l c).1 + ((trimRow l c).2.map _rgbm_to_int).length : Nat) : Int)).toNat
        = (l + c.length - (trimRow l c).1 - ((trimRow l c).2).length) + (w - r) := by
      rw [List.length_map]
      omega
    rw [htail, List.replicate_add]
    -- rebuild the original row
    have hrow : row = List.replicate l transparentPix ++ c ++
        List.replicate (w - r) transparentPix := by
      have h1 : row = row.take l ++ (row.drop l).take (r - l) ++ row.drop r := by
        rw [List.append_assoc]
        have h2 : row.drop r = (row.drop l).drop (r - l) := by
          rw [List.drop_drop]
          congr 1
          omega
        rw [h2, List.take_append_drop, List.take_append_drop]
      have h3 : row.take l = List.replicate l transparentPix := by
        rw [List.eq_replicate_iff]
        refine ⟨by rw [List.length_take]; omega, ?_⟩
        intro p hp
        have := List.all_eq_true.mp htl p hp
        exact beq_iff_eq.mp this
      have h4 : row.drop r = List.replicate (w - r) transparentPix := by
        rw [List.eq_replicate_iff]
        refine ⟨by rw [List.length_drop]; omega, ?_⟩
        intro p hp
        have := List.all_eq_true.mp hdr p hp
        exact beq_iff_eq.mp this
      rw [← h3, ← h4, ← h1]
    rw [hrow]
    have hmain2 : ∀ X : List Pix,
        List.replicate (trimRow l c).1 transparentPix ++
          (((trimRow l c).2.map _rgbm_to_int).map _int_to_rgbm ++
            (List.replicate (l + c.length - (trimRow l c).1 -
              ((trimRow l c).2).length) transparentPix ++ X)) =
        List.replicate l transparentPix ++ (c ++ X) := by
      intro X
      have h5 := congrArg (fun z => z ++ X) hrec
      simpa [List.append_assoc] using h5
    simp only [List.append_assoc]
    rw [hmain2]

/-- Decoding head padding, the encoded middle rows and tail padding rebuilds
exactly the original pixel data. -/
theorem image_data_reconstruct {image : Img} {l t r b : Nat}
    (hsz : image.data.length = image.width * image.height)
    (hrep : ∀ p ∈ image.data, Representable p)
    (hout : outsideBboxTransparent image = true)
    (hbb : getbbox image.width image.data = some (l, t, r, b)) :
    List.replicate (image.width * t) transparentPix ++
      (decRowsPixels (image.width : Int) transparentPix
        ((croppedRows image l t r b).map (encRow l)) ++
       List.replicate (image.width * (image.height - b)) transparentPix) =
    image.data := by
  have hw : 0 < image.width := by
    rcases Nat.eq_zero_or_pos image.width with h0 | h
    · exfalso
      have hd0 : image.data = [] := by
        rw [h0] at hsz
        exact List.length_eq_zero.mp (by omega)
      rw [hd0] at hbb
      simp [getbbox, chunks, chunksF] at hbb
    · exact h
  obtain ⟨hrl, hrw', hrf⟩ :=
    chunks_spec image.width hw image.height image.data hsz
  obtain ⟨htb, hble, hlr, hrlew, hmm1, _⟩ := getbbox_some_spec hrw' hbb
  simp only [outsideBboxTransparent, hbb] at hout
  have hy : ∀ y, y < (chunks image.width image.data).length →
      (if y < t ∨ b ≤ y then
        ((chunks image.width image.data).getD y []).all
          (fun p => p == transparentPix)
      else
        (((chunks image.width image.data).getD y []).take l).all
          (fun p => p == transparentPix) &&
        (((chunks image.width image.data).getD y []).drop r).all
          (fun p => p == transparentPix)) = true := by
    intro y hylt
    exact List.all_eq_true.mp hout _ (List.mem_range.mpr hylt)
  have hgetD : ∀ y (h2 : y < (chunks image.width image.data).length),
      (chunks image.width image.data).getD y [] =
        (chunks image.width image.data)[y] := by
    intro y h2
    rw [List.getD_eq_getElem?_getD, List.getElem?_eq_getElem h2]
    rfl
  have hrowy : ∀ y (h2 : y < (chunks image.width image.data).length),
      y < t ∨ b ≤ y →
      (chunks image.width image.data)[y] =
        List.replicate image.width transparentPix := by
    intro y h2 hcase
    have h3 := hy y h2
    rw [if_pos hcase, hgetD y h2] at h3
    rw [List.eq_replicate_iff]
    refine ⟨hrw' _ (List.getElem_mem h2), ?_⟩
    intro p hp
    have h4 := List.all_eq_true.mp h3 p hp
    exact beq_iff_eq.mp h4
  have hmidy : ∀ y (h2 : y < (chunks image.width image.data).length),
      t ≤ y → y < b →
      ((chunks image.width image.data)[y].take l).all
        (fun p => p == transparentPix) = true ∧
      ((chunks image.width image.data)[y].drop r).all
        (fun p => p == transparentPix) = true := by
    intro y h2 ht2 hb2
    have h3 := hy y h2
    rw [if_neg (by omega), hgetD y h2, Bool.and_eq_true] at h3
    exact h3
  -- decompose the rows
  have hdecomp : chunks image.width image.data =
      (chunks image.width image.data).take t ++
        (((chunks image.width image.data).drop t).take (b - t) ++
          (chunks image.width image.data).drop b) := by
    have h1 : (chunks image.width image.data).drop b =
        (((chunks image.width image.data).drop t)).drop (b - t) := by
      rw [List.drop_drop]
      congr 1
      omega
    rw [h1, List.take_append_drop, List.take_append_drop]
  have htake_rep : (chunks image.width image.data).take t =
      List.replicate t (List.replicate image.width transparentPix) := by
    apply List.ext_getElem
    · rw [List.length_take, List.length_replicate]
      omega
    · intro i h1 h2
      rw [List.getElem_take, List.getElem_replicate]
      have hit : i < t := by
        rw [List.length_take] at h1
        omega
      exact hrowy i (by omega) (Or.inl hit)
  have hdrop_rep : (chunks image.width image.data).drop b =
      List.replicate (image.height - b)
        (List.replicate image.width transparentPix) := by
    apply List.ext_getElem
    · rw [List.length_drop, List.length_replicate]
      omega
    · intro i h1 h2
      rw [List.getElem_drop, List.getElem_replicate]
      have hib : b + i < (chunks image.width image.data).length := by
        rw [List.length_drop] at h1
        omega
      exact hrowy (b + i) hib (Or.inr (by omega))
  have hmid_flat : decRowsPixels (image.width : Int) transparentPix
      ((croppedRows image l t r b).map (encRow l)) =
      (((chunks image.width image.data).drop t).take (b - t)).flatten := by
    show decRowsPixels (image.width : Int) transparentPix
      (((((chunks image.width image.data).drop t).take (b - t)).map
        (fun row => (row.drop l).take (r - l))).map (encRow l)) = _
    apply decRows_mid hlr hrlew
    intro row hrowm
    obtain ⟨i, hi, hieq⟩ := List.getElem_of_mem hrowm
    have hit : i < b - t := by
      rw [List.length_take, List.length_drop] at hi
      omega
    have hyb : t + i < (chunks image.width image.data).length := by omega
    have hroweq : row = (chunks image.width image.data)[t + i] := by
      rw [← hieq, List.getElem_take, List.getElem_drop]
    have hrmem : row ∈ chunks image.width image.data := by
      rw [hroweq]
      exact List.getElem_mem hyb
    obtain ⟨hc1, hc2⟩ := hmidy (t + i) hyb (by omega) (by omega)
    refine ⟨hrw' row hrmem, ?_, ?_, ?_⟩
    · rw [hroweq]; exact hc1
    · rw [hroweq]; exact hc2
    · intro p hp
      apply hrep
      rw [← hrf]
      exact List.mem_flatten_of_mem hrmem hp
  -- assemble
  conv_rhs => rw [← hrf, hdecomp]
  rw [List.flatten_append, List.flatten_append, htake_rep, hdrop_rep,
    flatten_replicate, flatten_replicate, hmid_flat,
    Nat.mul_comm t image.width, Nat.mul_comm (image.height - b) image.width]

theorem readRowsF_stop2 (file : List Nat) (width : Int) (bg : Pix)
    (fuel pos : Nat) (size : Int) (hf : 0 < fuel) (h : ¬ size > 10) :
    readRowsF file width bg fuel pos size = .ok ([], pos) := by
  cases fuel with
  | zero => omega
  | succ f => exact readRowsF_stop h

/-- Decoding an encoded image embedded in a larger file at position
`pre.length` returns the original image and the position right after its
bytes. -/
theorem read_spr_image_enc {image : Img} {bytes : List Nat} (pre post : List Nat)
    (hsz : image.data.length = image.width * image.height)
    (hrep : ∀ p ∈ image.data, Representable p)
    (hout : outsideBboxTransparent image = true)
    (hok : _image_object_to_sprite_image image = .ok bytes) :
    _read_spr_image (pre ++ (bytes ++ post)) pre.length =
      .ok (image, pre.length + bytes.length) := by
  unfold _image_object_to_sprite_image at hok
  cases hbb : getbbox image.width image.data with
  | none =>
    simp only [hbb] at hok
    cases hph : packImageHeader image.width image.height 0 0 0 0 253 10 with
    | error e => rw [hph, errBind] at hok; cases hok
    | ok hdr =>
      rw [hph, okBind] at hok
      cases hok
      obtain ⟨hlen45, hup6, hbg, hup1, hwb, hhb, _, _, _, _, _, _⟩ :=
        packImageHeader_parse hph
      have hre : readExact (pre ++ ((hdr ++ List.replicate 10 0) ++ post))
          pre.length 45 = .ok hdr := by
        unfold readExact
        rw [List.drop_left, List.append_assoc, List.take_left' hlen45,
          if_pos hlen45]
      have hstop : readRowsF (pre ++ ((hdr ++ List.replicate 10 0) ++ post))
          (image.width : Int) transparentPix
          (((10 : Nat) : Int).toNat + 1) (pre.length + 45) ((10 : Nat) : Int) =
          .ok ([], pre.length + 45) :=
        readRowsF_stop2 _ _ _ _ _ _ (by norm_num) (by norm_num)
      have hneg : ¬ (((image.width : Nat) : Int) < 0 ∨
          ((image.height : Nat) : Int) < 0) := by omega
      simp only [_read_spr_image, hre, hup6, hup1, List.getD_cons_zero,
        List.getD_cons_succ, hbg, bgColorOfByte_FD, hstop]
      rw [if_neg hneg]
      have hdata : image.data =
          List.replicate (image.width * image.height) transparentPix := by
        simp only [outsideBboxTransparent, hbb] at hout
        rw [List.eq_replicate_iff]
        refine ⟨hsz, ?_⟩
        intro p hp
        have h4 := List.all_eq_true.mp hout p hp
        exact beq_iff_eq.mp h4
      simp only [Except.ok.injEq, Prod.mk.injEq]
      constructor
      · show (⟨_, _, _⟩ : Img) = image
        obtain ⟨w, h, data⟩ := image
        simp only at hdata hsz ⊢
        simp [hdata, Int.toNat_natCast]
      · simp [hlen45]
  | some lt =>
    obtain ⟨l, t, r, b⟩ := lt
    simp only [hbb] at hok
    cases hrb : rowsBytes l (croppedRows image l t r b) with
    | error e => rw [hrb, errBind] at hok; cases hok
    | ok body =>
      rw [hrb, okBind] at hok
      cases hph : packImageHeader image.width image.height l t r b 253
          (body.length + 10) with
      | error e => rw [hph, errBind] at hok; cases hok
      | ok hdr =>
        rw [hph, okBind] at hok
        cases hok
        obtain ⟨hlen45, hup6, hbg, hup1, hwb, hhb, _, _, _, _, _, _⟩ :=
          packImageHeader_parse hph
        obtain ⟨hbody, hbounds⟩ := rowsBytes_ok hrb
        have hre : readExact (pre ++ ((hdr ++ body ++ List.replicate 10 0) ++ post))
            pre.length 45 = .ok hdr := by
          unfold readExact
          rw [List.drop_left, List.append_assoc, List.append_assoc,
            List.take_left' hlen45, if_pos hlen45]
        -- the row loop over the encoded body
        have hdrop : (pre ++ ((hdr ++ body ++ List.replicate 10 0) ++ post)).drop
            (pre.length + 45) =
            encRowsBytes ((croppedRows image l t r b).map (encRow l)) ++
              (List.replicate 10 0 ++ post) := by
          have h1 : (pre ++ ((hdr ++ body ++ List.replicate 10 0) ++ post)).drop
              (pre.length + 45) =
              ((pre ++ ((hdr ++ body ++ List.replicate 10 0) ++ post)).drop
                pre.length).drop 45 := by
            rw [List.drop_drop]
          rw [h1, List.drop_left]
          rw [List.append_assoc, List.append_assoc]
          rw [List.drop_left' hlen45, ← hbody]
        have hbounds' : ∀ rr ∈ (croppedRows image l t r b).map (encRow l),
            2 * rr.1 < 2147483648 ∧ 2 * rr.2.length < 2147483648 ∧
            ∀ w2 ∈ rr.2, w2 < 65536 := by
          intro rr hrr
          obtain ⟨row, hrow, hrreq⟩ := List.mem_map.mp hrr
          obtain ⟨hb1, hb2, hb3⟩ := hbounds row hrow
          subst hrreq
          exact ⟨hb1, hb2, hb3⟩
        have hfuel : ((croppedRows image l t r b).map (encRow l)).length <
            (((body.length + 10 : Nat) : Int)).toNat + 1 := by
          have h2 := encRowsBytes_length_ge
            ((croppedRows image l t r b).map (encRow l))
          rw [← hbody] at h2
          omega
        have hrows := readRowsF_enc (image.width : Int) transparentPix
          (pre ++ ((hdr ++ body ++ List.replicate 10 0) ++ post))
          ((croppedRows image l t r b).map (encRow l))
          (List.replicate 10 0 ++ post) (pre.length + 45)
          ((((body.length + 10 : Nat) : Int)).toNat + 1)
          (((body.length + 10 : Nat) : Int))
          hfuel (by rw [← hbody]; push_cast; omega) hdrop hbounds'
        have hneg : ¬ (((image.width : Nat) : Int) < 0 ∨
            ((image.height : Nat) : Int) < 0) := by omega
        simp only [_read_spr_image, hre, hup6, hup1, List.getD_cons_zero,
          List.getD_cons_succ, hbg, bgColorOfByte_FD, hrows]
        rw [if_neg hneg]
        simp only [Except.ok.injEq, Prod.mk.injEq]
        constructor
        · have htn1 : (((image.width : Nat) : Int)).toNat = image.width := by omega
          have htn2 : (((t : Nat) : Int)).toNat = t := by omega
          have htn3 : ((((image.height : Nat) : Int)) -
              (((b : Nat) : Int))).toNat = image.height - b := by omega
          rw [htn1, htn2, htn3]
          show (⟨_, _, _⟩ : Img) = image
          have hd := image_data_reconstruct hsz hrep hout hbb
          obtain ⟨w, h, data⟩ := image
          simp only at hd hsz ⊢
          rw [← List.append_assoc] at hd
          simp [Int.toNat_natCast, hd]
        · rw [← hbody]
          simp only [List.length_append, List.length_replicate]
          omega

/-- Claim C7 (amended): for every image whose pixels all survive the 16-bit
packing (5-bit channels, mask 0 or 255), whose pixel count matches its
dimensions, and whose every pixel outside the RGB bounding box is the
sentinel `(255, 0, 255, 0)`, decoding the bytes produced by encoding the
image yields a pixel-identical image of the same width and height.  The
outside-the-box condition is the corrected part: a magenta pixel with the
mask bit on is invisible to the RGB-only bounding box, and when it lies
outside the box its mask is lost (see the counterexample). -/
theorem spr_row_codec_outside_bbox (image : Img) (bytes : List Nat)
    (hsz : image.data.length = image.width * image.height)
    (hrep : ∀ p ∈ image.data, Representable p)
    (hout : outsideBboxTransparent image = true)
    (hok : _image_object_to_sprite_image image = .ok bytes) :
    _read_spr_image bytes 0 = .ok (image, bytes.length) := by
  have h := read_spr_image_enc [] [] hsz hrep hout hok
  simpa using h

/-- Witness for the amended C7 at the 1-by-1 opaque red image. -/
theorem spr_row_codec_outside_bbox_witness :
    _read_spr_image
      [0, 0, 0, 0, 0, 0, 0, 0, 0, 0, 0, 0, 0, 0, 0, 0, 1, 0, 0, 0, 1, 0, 0, 0,
       0, 0, 0, 0, 0, 0, 0, 0, 1, 0, 0, 0, 1, 0, 0, 0, 253, 20, 0, 0, 0, 0, 0,
       0, 0, 2, 0, 0, 0, 0, 124, 0, 0, 0, 0, 0, 0, 0, 0, 0, 0] 0 =
      .ok (C3red, 65) :=
  spr_row_codec_outside_bbox C3red
    [0, 0, 0, 0, 0, 0, 0, 0, 0, 0, 0, 0, 0, 0, 0, 0, 1, 0, 0, 0, 1, 0, 0, 0,
     0, 0, 0, 0, 0, 0, 0, 0, 1, 0, 0, 0, 1, 0, 0, 0, 253, 20, 0, 0, 0, 0, 0,
     0, 0, 2, 0, 0, 0, 0, 124, 0, 0, 0, 0, 0, 0, 0, 0, 0, 0]
    (by decide) (by decide) (by decide) (by rfl)

/-! ## Round-trip machinery: generic helpers -/

theorem exceptMapM_ok {α β : Type} (f : α → Except PyErr β) (g : α → β) :
    ∀ (l : List α), (∀ x ∈ l, f x = .ok (g x)) → l.mapM f = .ok (l.map g) := by
  intro l
  induction l with
  | nil => intro _; rfl
  | cons x xs ih =>
    intro h
    rw [List.mapM_cons, h x (List.mem_cons_self _ _),
      ih (fun y hy => h y (List.mem_cons_of_mem _ hy))]
    rfl

theorem exceptMapM_inv {α β : Type} (f : α → Except PyErr β) :
    ∀ (l : List α) (out : List β), l.mapM f = .ok out →
    ∀ a ∈ out, ∃ x ∈ l, f x = .ok a := by
  intro l
  induction l with
  | nil =>
    intro out h a ha
    simp only [List.mapM_nil] at h
    cases h
    cases ha
  | cons x xs ih =>
    intro out h a ha
    rw [List.mapM_cons] at h
    cases hx : f x with
    | error e => rw [hx] at h; simp [errBind] at h
    | ok v =>
      rw [hx, okBind] at h
      cases hxs : xs.mapM f with
      | error e => rw [hxs] at h; simp [errBind] at h
      | ok vs =>
        rw [hxs, okBind] at h
        have hout : v :: vs = out := by injection h
        subst hout
        rcases List.mem_cons.mp ha with hav | hav
        · exact ⟨x, List.mem_cons_self _ _, by rw [hx, hav]⟩
        · obtain ⟨y, hy, hfy⟩ := ih vs hxs a hav
          exact ⟨y, List.mem_cons_of_mem _ hy, hfy⟩

theorem encodedImages_cons (all : List ImgObj) (m : Nat) (ms : List Nat) :
    encodedImages all (m :: ms) =
      encodedImages all [m] ++ encodedImages all ms := by
  simp [encodedImages]

theorem encodedImages_append (all : List ImgObj) (ms1 ms2 : List Nat) :
    encodedImages all (ms1 ++ ms2) =
      encodedImages all ms1 ++ encodedImages all ms2 := by
  induction ms1 with
  | nil => rfl
  | cons m ms ih =>
    rw [List.cons_append, encodedImages_cons, ih, encodedImages_cons _ m ms,
      List.append_assoc]

theorem encode_length_ge {image : Img} {bs : List Nat}
    (h : _image_object_to_sprite_image image = .ok bs) : 55 ≤ bs.length := by
  unfold _image_object_to_sprite_image at h
  cases hbb : getbbox image.width image.data with
  | none =>
    simp only [hbb] at h
    cases hph : packImageHeader image.width image.height 0 0 0 0 253 10 with
    | error e => rw [hph, errBind] at h; cases h
    | ok hdr =>
      rw [hph, okBind] at h
      cases h
      obtain ⟨hlen45, _⟩ := packImageHeader_parse hph
      simp [hlen45]
  | some lt =>
    obtain ⟨l, t, r, b⟩ := lt
    simp only [hbb] at h
    cases hrb : rowsBytes l (croppedRows image l t r b) with
    | error e => rw [hrb, errBind] at h; cases h
    | ok body =>
      rw [hrb, okBind] at h
      cases hph : packImageHeader image.width image.height l t r b 253
          (body.length + 10) with
      | error e => rw [hph, errBind] at h; cases h
      | ok hdr =>
        rw [hph, okBind] at h
        cases h
        obtain ⟨hlen45, _⟩ := packImageHeader_parse hph
        simp [hlen45]
        omega

theorem int_to_frame_fields (v : Int) :
    (_int_to_frame v).image < 1024 ∧ (_int_to_frame v).transparency < 8 := by
  unfold _int_to_frame
  constructor
  · show (v % 1024).toNat < 1024
    have h1 : 0 ≤ v % 1024 := Int.emod_nonneg v (by norm_num)
    have h2 : v % 1024 < 1024 := Int.emod_lt_of_pos v (by norm_num)
    omega
  · show (v.fdiv 1024 % 8).toNat < 8
    have h1 : 0 ≤ v.fdiv 1024 % 8 := Int.emod_nonneg _ (by norm_num)
    have h2 : v.fdiv 1024 % 8 < 8 := Int.emod_lt_of_pos _ (by norm_num)
    omega

/-- Inversion of the boundary scan: the found minimum is at most the running
minimum, is either the running minimum or an element of the scanned prefix,
and bounds every scanned element from below. -/
theorem findBoundary_inv (ao : Int) : ∀ (vs : List Int) (ff : Int) (i : Nat)
    {bIdx : Nat} {ffr : Int}, findBoundary ao vs ff i = some (bIdx, ffr) →
    ffr ≤ ff ∧ (ffr = ff ∨ ffr ∈ vs.take (bIdx - i)) ∧
    (∀ v ∈ vs.take (bIdx - i), ffr ≤ v) ∧ (i ≤ bIdx ∧ bIdx < i + vs.length) := by
  intro vs
  induction vs with
  | nil => intro ff i bIdx ffr h; cases h
  | cons v rest ih =>
    intro ff i bIdx ffr h
    simp only [findBoundary] at h
    by_cases ht : ((i : Int) * 4 + ao = ff)
    · rw [if_pos ht] at h
      simp only [Option.some.injEq, Prod.mk.injEq] at h
      obtain ⟨h1, h2⟩ := h
      subst h1; subst h2
      refine ⟨le_rfl, Or.inl rfl, ?_, le_rfl, by simp⟩
      intro v2 hv2
      rw [Nat.sub_self, List.take_zero] at hv2
      cases hv2
    · rw [if_neg ht] at h
      obtain ⟨ih1, ih2, ih3, ih4a, ih4b⟩ := ih (if v < ff then v else ff) (i + 1) h
      have hffle : (if v < ff then v else ff) ≤ ff := by
        split <;> omega
      have hbi : bIdx - i = (bIdx - (i + 1)) + 1 := by omega
      have htk : (v :: rest).take (bIdx - i) = v :: rest.take (bIdx - (i + 1)) := by
        rw [hbi, List.take_succ_cons]
      refine ⟨le_trans ih1 hffle, ?_, ?_, by simp only [List.length_cons]; omega⟩
      · rcases ih2 with h2 | h2
        · by_cases hvf : v < ff
          · rw [if_pos hvf] at h2
            subst h2
            right
            rw [htk]
            exact List.mem_cons_self _ _
          · rw [if_neg hvf] at h2
            exact Or.inl h2
        · right
          rw [htk]
          exact List.mem_cons_of_mem _ h2
      · intro v2 hv2
        rw [htk] at hv2
        rcases List.mem_cons.mp hv2 with h2 | h2
        · subst h2
          have : (if v2 < ff then v2 else ff) ≤ v2 := by split <;> omega
          exact le_trans ih1 this
        · exact ih3 v2 h2

/-- `Sprite.init` success: the fields are stored as passed and the truthiness
of `frames` and `animation_index` agree. -/
theorem sprite_init_inv {imgs : List ImgObj} {fr : Option (List Frame)}
    {ai : Option (List Int)} {s : Sprite} (h : Sprite.init imgs fr ai = .ok s) :
    s.images = imgs ∧ s.frames = fr ∧ s.animation_index = ai ∧
    truthy fr = truthy ai ∧ s.has_animations = truthy fr := by
  unfold Sprite.init at h
  by_cases ht : truthy fr ≠ truthy ai
  · rw [if_pos ht] at h; cases h
  · rw [if_neg ht] at h
    cases h
    push_neg at ht
    exact ⟨rfl, rfl, rfl, ht, rfl⟩

theorem getD_append_left {acc : List Int} {x : Int} {m : Nat}
    (hm : m < acc.length) : (acc ++ [x]).getD m 0 = acc.getD m 0 := by
  rw [List.getD_eq_getElem?_getD, List.getD_eq_getElem?_getD,
    List.getElem?_append_left hm]

theorem getD_append_right {acc : List Int} {x : Int} :
    (acc ++ [x]).getD acc.length 0 = x := by
  rw [List.getD_eq_getElem?_getD, List.getElem?_append_right le_rfl]
  simp

/-- The offset half of the `save` image-loop specification: the returned
`current_end` is the data length, every first-occurrence position's index
entry is the length of the encodings written before it, and every
first-occurrence position's image encodes successfully. -/
theorem buildImagesF_offsets (all : List ImgObj) :
    ∀ (rest : List ImgObj) (n : Nat) (acc : List Int) (ce : Nat) (d : List Nat)
      (idx : List Int) (e : Nat) (data : List Nat),
      buildImagesF all rest n acc ce d = .ok (idx, e, data) →
      rest = all.drop n → acc.length = n → n ≤ all.length →
      ce = d.length →
      d = encodedImages all ((List.range n).filter (isFirstOcc all)) →
      (∀ m, m < n → isFirstOcc all m = true →
        acc.getD m 0 =
          ((encodedImages all
            ((List.range m).filter (isFirstOcc all))).length : Int)) →
      (∀ m, m < n → isFirstOcc all m = true →
        ∃ bs, _image_object_to_sprite_image (all.getD m noImg).img = .ok bs) →
      e = data.length ∧
      (∀ m, m < all.length → isFirstOcc all m = true →
        idx.getD m 0 =
          ((encodedImages all
            ((List.range m).filter (isFirstOcc all))).length : Int)) ∧
      (∀ m, m < all.length → isFirstOcc all m = true →
        ∃ bs, _image_object_to_sprite_image (all.getD m noImg).img = .ok bs) := by
  intro rest
  induction rest with
  | nil =>
    intro n acc ce d idx e data hok hrest hacc hn hce hd hinv henc
    have hlen : all.length ≤ n := List.drop_eq_nil_iff.mp hrest.symm
    have hne : n = all.length := by omega
    simp only [buildImagesF] at hok
    obtain ⟨h1, h2, h3⟩ : idx = acc ∧ e = ce ∧ data = d := by
      cases hok
      exact ⟨rfl, rfl, rfl⟩
    subst h1; subst h2; subst h3
    refine ⟨by omega, ?_, ?_⟩
    · intro m hm hfm
      exact hinv m (by omega) hfm
    · intro m hm hfm
      exact henc m (by omega) hfm
  | cons img rest ih =>
    intro n acc ce d idx e data hok hrest hacc hn hce hd hinv henc
    have hnlt : n < all.length := by
      by_contra hc
      rw [List.drop_eq_nil_of_le (by omega)] at hrest
      simp at hrest
    have hdc := List.drop_eq_getElem_cons hnlt
    rw [hdc] at hrest
    obtain ⟨himg, hrest'⟩ : img = all[n] ∧ rest = all.drop (n + 1) := by
      cases hrest
      exact ⟨rfl, rfl⟩
    have hgetn : all.getD n noImg = img := by
      rw [getD_eq_getElem' all noImg hnlt, himg]
    obtain ⟨f, hfo, hfle, hfid, hffix⟩ := firstOcc_spec all n hnlt
    rw [hgetn] at hfo
    simp only [buildImagesF, head_find_matching, hfo] at hok
    by_cases hfn : f = n
    · subst hfn
      rw [if_pos rfl] at hok
      have hfirst : isFirstOcc all f = true := by
        unfold isFirstOcc
        rw [head_find_matching]
        simp only [hgetn]
        rw [hfo]
        simp
      cases henc2 : _image_object_to_sprite_image img.img with
      | error err => rw [henc2] at hok; cases hok
      | ok bytes =>
        rw [henc2] at hok
        have hd' : d ++ bytes =
            encodedImages all ((List.range (f + 1)).filter (isFirstOcc all)) := by
          rw [List.range_succ, List.filter_append, encodedImages_append, ← hd]
          congr 1
          simp only [List.filter_cons, hfirst, List.filter_nil, if_pos]
          simp only [encodedImages, List.foldr_cons, List.foldr_nil,
            List.append_nil]
          rw [hgetn, henc2]
        apply ih (f + 1) (acc ++ [(ce : Int)]) (ce + bytes.length) (d ++ bytes)
          idx e data hok hrest' (by simp [hacc]) (by omega)
          (by simp [hce]) hd'
        · intro m hm hfm
          rcases Nat.lt_or_ge m f with hmf | hmf
          · rw [← hacc] at hmf
            rw [getD_append_left hmf]
            exact hinv m (by omega) hfm
          · have hmeq : m = f := by omega
            subst hmeq
            rw [← hacc, getD_append_right, hacc, hce, hd]
        · intro m hm hfm
          rcases Nat.lt_or_ge m f with hmf | hmf
          · exact henc m (by omega) hfm
          · have hmeq : m = f := by omega
            subst hmeq
            exact ⟨bytes, by rw [hgetn]; exact henc2⟩
    · have hflt : f < n := by omega
      rw [if_neg hfn] at hok
      have hnotfirst : isFirstOcc all n = false := by
        unfold isFirstOcc
        rw [head_find_matching]
        simp only [hgetn]
        rw [hfo]
        simp [hfn]
      have hd' : d =
          encodedImages all ((List.range (n + 1)).filter (isFirstOcc all)) := by
        rw [List.range_succ, List.filter_append]
        simp only [List.filter_cons, hnotfirst, List.filter_nil]
        simpa using hd
      apply ih (n + 1) (acc ++ [acc.getD f 0]) ce d idx e data hok hrest'
        (by simp [hacc]) (by omega) hce hd'
      · intro m hm hfm
        rcases Nat.lt_or_ge m n with hmf | hmf
        · rw [← hacc] at hmf
          rw [getD_append_left hmf]
          exact hinv m (by omega) hfm
        · have hmeq : m = n := by omega
          subst hmeq
          rw [hfm] at hnotfirst
          cases hnotfirst
      · intro m hm hfm
        rcases Nat.lt_or_ge m n with hmf | hmf
        · exact henc m (by omega) hfm
        · have hmeq : m = n := by omega
          subst hmeq
          rw [hfm] at hnotfirst
          cases hnotfirst

theorem getD_append_left2 {α : Type} {acc : List α} {x d : α} {m : Nat}
    (hm : m < acc.length) : (acc ++ [x]).getD m d = acc.getD m d := by
  rw [List.getD_eq_getElem?_getD, List.getD_eq_getElem?_getD,
    List.getElem?_append_left hm]

theorem getD_append_right2 {α : Type} {acc : List α} {x d : α} :
    (acc ++ [x]).getD acc.length d = x := by
  rw [List.getD_eq_getElem?_getD, List.getElem?_append_right le_rfl]
  simp

/-- A prefix of a filtered range is the filtered range up to the cut
element: the written positions before the `j`-th written position are
exactly the first-occurrence positions below it. -/
theorem filter_range_take (p : Nat → Bool) :
    ∀ (N : Nat) (j : Nat), j < ((List.range N).filter p).length →
      ((List.range N).filter p).take j =
        (List.range (((List.range N).filter p).getD j 0)).filter p := by
  intro N
  induction N with
  | zero => intro j hj; simp at hj
  | succ k ih =>
    intro j hj
    rw [List.range_succ] at hj ⊢
    cases hpk : p k with
    | false =>
      have hfe : List.filter p (List.range k ++ [k]) = List.filter p (List.range k) := by
        rw [List.filter_append]
        simp [List.filter_cons, hpk]
      rw [hfe] at hj ⊢
      exact ih j hj
    | true =>
      have hfe : List.filter p (List.range k ++ [k]) =
          List.filter p (List.range k) ++ [k] := by
        rw [List.filter_append]
        simp [List.filter_cons, hpk]
      rw [hfe] at hj ⊢
      rcases Nat.lt_or_ge j ((List.range k).filter p).length with hjl | hjr
      · rw [List.take_append_of_le_length (by omega), getD_append_left2 hjl]
        exact ih j hjl
      · have hjeq : j = ((List.range k).filter p).length := by
          rw [List.length_append, List.length_cons, List.length_nil] at hj
          omega
        subst hjeq
        rw [List.take_left, getD_append_right2]


theorem omapOf_keys (all : List ImgObj) : ∀ (ms : List Nat) (b : Int) (c : Nat),
    ∀ kv ∈ omapOf all ms b c, b ≤ kv.1 := by
  intro ms
  induction ms with
  | nil => intro b c kv hkv; cases hkv
  | cons m rest ih =>
    intro b c kv hkv
    simp only [omapOf] at hkv
    rcases List.mem_cons.mp hkv with h | h
    · subst h; exact le_rfl
    · have h2 := ih (b + ((encodedImages all [m]).length : Int)) (c + 1) kv h
      omega

/-- Looking up the cumulative offset of the `j`-th image in the offset map
resolves to position `cnt + j`. -/
theorem omapOf_lookup (all : List ImgObj) :
    ∀ (ms : List Nat) (base : Int) (cnt : Nat) (j : Nat), j < ms.length →
    (∀ m ∈ ms, 0 < (encodedImages all [m]).length) →
    dictLookup (omapOf all ms base cnt)
      (base + ((encodedImages all (ms.take j)).length : Int)) = some (cnt + j) := by
  intro ms
  induction ms with
  | nil => intro base cnt j hj; simp at hj
  | cons m rest ih =>
    intro base cnt j hj hpos
    cases j with
    | zero =>
      simp only [List.take_zero, encodedImages, List.foldr_nil, List.length_nil,
        Nat.cast_zero, add_zero]
      unfold dictLookup
      simp only [omapOf, List.reverse_cons, List.find?_append]
      have hnone : (omapOf all rest (base + ((encodedImages all [m]).length : Int))
          (cnt + 1)).reverse.find? (fun e2 => e2.1 == base) = none := by
        rw [List.find?_eq_none]
        intro kv hkv
        have h2 := omapOf_keys all rest _ _ kv (List.mem_reverse.mp hkv)
        have h3 := hpos m (List.mem_cons_self _ _)
        simp only [beq_iff_eq]
        omega
      rw [hnone]
      simp
    | succ j =>
      have hkey : base + ((encodedImages all ((m :: rest).take (j + 1))).length : Int) =
          (base + ((encodedImages all [m]).length : Int)) +
            ((encodedImages all (rest.take j)).length : Int) := by
        rw [List.take_succ_cons, encodedImages_cons, List.length_append]
        push_cast
        ring
      rw [hkey]
      have hih := ih (base + ((encodedImages all [m]).length : Int)) (cnt + 1) j
        (by simpa using Nat.lt_of_succ_lt_succ hj)
        (fun m2 hm2 => hpos m2 (List.mem_cons_of_mem _ hm2))
      unfold dictLookup at hih ⊢
      simp only [omapOf, List.reverse_cons, List.find?_append]
      cases hf : (omapOf all rest (base + ((encodedImages all [m]).length : Int))
          (cnt + 1)).reverse.find? (fun e2 => e2.1 ==
            (base + ((encodedImages all [m]).length : Int)) +
              ((encodedImages all (rest.take j)).length : Int)) with
      | none => rw [hf] at hih; cases hih
      | some kv =>
        rw [hf] at hih
        simp only [Option.or_some]
        rw [show cnt + (j + 1) = cnt + 1 + j from by omega]
        exact hih

/-- Running the decoder's image loop over a data section that is the
concatenation of the encodings of the images at positions `ms` decodes each
image back and records one offset-map entry per image. -/
theorem readImagesF_run (all : List ImgObj) (file : List Nat) (fo ce : Int) :
    ∀ (ms : List Nat) (pos : Nat) (srcs : List Img) (omap : List (Int × Nat))
      (fuel : Nat),
    ms.length < fuel →
    (∀ m ∈ ms,
      (all.getD m noImg).img.data.length =
        (all.getD m noImg).img.width * (all.getD m noImg).img.height ∧
      (∀ p ∈ (all.getD m noImg).img.data, Representable p) ∧
      outsideBboxTransparent (all.getD m noImg).img = true ∧
      ∃ bs, _image_object_to_sprite_image (all.getD m noImg).img = .ok bs) →
    (∃ pre, file = pre ++ encodedImages all ms ∧ pre.length = pos) →
    ((pos : Int) - fo) + ((encodedImages all ms).length : Int) = ce →
    readImagesF file fo ce fuel pos srcs omap =
      .ok (srcs ++ ms.map (fun m => (all.getD m noImg).img),
        omap ++ omapOf all ms ((pos : Int) - fo) srcs.length) := by
  intro ms
  induction ms with
  | nil =>
    intro pos srcs omap fuel hfuel hconds hfile hce
    cases fuel with
    | zero => omega
    | succ f =>
      simp only [encodedImages, List.foldr_nil, List.length_nil, Nat.cast_zero,
        add_zero] at hce
      simp only [readImagesF]
      rw [if_pos hce]
      simp [omapOf]
  | cons m rest ih =>
    intro pos srcs omap fuel hfuel hconds hfile hce
    cases fuel with
    | zero => omega
    | succ f =>
      obtain ⟨hsz, hrep, hout, bs, hok⟩ := hconds m (List.mem_cons_self _ _)
      have henc_eq : encodedImages all [m] = bs := by
        simp only [encodedImages, List.foldr_cons, List.foldr_nil, List.append_nil]
        rw [hok]
      have hcons : encodedImages all (m :: rest) = bs ++ encodedImages all rest := by
        rw [encodedImages_cons, henc_eq]
      have hbs55 : 55 ≤ bs.length := encode_length_ge hok
      obtain ⟨pre, hfeq, hplen⟩ := hfile
      have hlen_cons : (encodedImages all (m :: rest)).length =
          bs.length + (encodedImages all rest).length := by
        rw [hcons, List.length_append]
      have hne : ¬ ((pos : Int) - fo = ce) := by
        rw [hlen_cons] at hce
        push_cast at hce
        omega
      simp only [readImagesF]
      rw [if_neg hne]
      have hdec : _read_spr_image file pos =
          .ok ((all.getD m noImg).img, pos + bs.length) := by
        have h2 := read_spr_image_enc pre (encodedImages all rest) hsz hrep hout hok
        rw [hplen] at h2
        rw [hfeq, hcons]
        exact h2
      simp only [hdec]
      have hih := ih (pos + bs.length) (srcs ++ [(all.getD m noImg).img])
        (omap ++ [((pos : Int) - fo, srcs.length)]) f
        (by simp only [List.length_cons] at hfuel; omega)
        (fun m2 hm2 => hconds m2 (List.mem_cons_of_mem _ hm2))
        (⟨pre ++ bs, by rw [hfeq, hcons, List.append_assoc], by
          rw [List.length_append]; omega⟩)
        (by rw [hlen_cons] at hce; push_cast at hce ⊢; omega)
      rw [hih]
      simp only [Except.ok.injEq, Prod.mk.injEq]
      constructor
      · simp
      · have hoff : ((pos + bs.length : Nat) : Int) - fo =
            ((pos : Int) - fo) + ((encodedImages all [m]).length : Int) := by
          rw [henc_eq]
          push_cast
          ring
        rw [hoff]
        simp only [omapOf, List.length_append, List.length_cons, List.length_nil]
        rw [List.append_assoc]
        rfl

/-- The boundary scan over the offsets written by `save` finds the boundary
exactly at the end of the index section: every offset is at least the first
frame record's address `4 * ni + 12`, that address is attained (some index
entry is 0), and no scanned position's own address can equal the running
minimum before position `ni`. -/
theorem findBoundary_offsets :
    ∀ (vs : List Int) (ws : List Int) (i ni : Nat) (ff : Int),
    ((ni : Int) * 4 + 12) ≤ ff →
    i + vs.length = ni →
    (ff = ((ni : Int) * 4 + 12) ∨ ((ni : Int) * 4 + 12) ∈ vs) →
    (∀ v ∈ vs, ((ni : Int) * 4 + 12) ≤ v) →
    ws ≠ [] →
    findBoundary 12 (vs ++ ws) ff i = some (ni, ((ni : Int) * 4 + 12)) := by
  intro vs
  induction vs with
  | nil =>
    intro ws i ni ff hle hi hmin hvs hws
    have hieq : i = ni := by simpa using hi
    subst hieq
    have hff : ff = ((i : Int) * 4 + 12) := by
      rcases hmin with h | h
      · exact h
      · cases h
    cases ws with
    | nil => exact absurd rfl hws
    | cons w ws' =>
      simp only [List.nil_append, findBoundary]
      rw [if_pos hff.symm, hff]
  | cons v vs' ih =>
    intro ws i ni ff hle hi hmin hvs hws
    have hilt : i < ni := by
      simp only [List.length_cons] at hi
      omega
    have hvt := hvs v (List.mem_cons_self _ _)
    simp only [List.cons_append, findBoundary]
    rw [if_neg (by omega)]
    apply ih ws (i + 1) ni (if v < ff then v else ff)
    · split <;> omega
    · simp only [List.length_cons] at hi
      omega
    · rcases hmin with h | h
      · left
        rw [h]
        have h3 : ¬ v < ((ni : Int) * 4 + 12) := by omega
        rw [if_neg h3]
      · rcases List.mem_cons.mp h with h2 | h2
        · left
          subst h2
          split <;> omega
        · right
          exact h2
    · intro v2 hv2
      exact hvs v2 (List.mem_cons_of_mem _ hv2)
    · exact hws

/-- Splitting the animation section that `save` wrote recovers the original
animation index and frames. -/
theorem splitAnimData_enc (idx : List Int) (ws : List Int)
    (hne : idx ≠ []) (h0 : (0 : Int) ∈ idx) (hnn : ∀ i ∈ idx, 0 ≤ i)
    (hws : ws ≠ []) :
    splitAnimData 12 (animEntryOffsets 12 idx.length idx ++ ws) =
      .ok (idx, ws.map _int_to_frame) := by
  cases idx with
  | nil => exact absurd rfl hne
  | cons i0 idx' =>
    have hfb : findBoundary 12
        ((12 + 4 * (((i0 :: idx').length : Nat) : Int) + 4 * i0) ::
          (idx'.map (fun i => 12 + 4 * (((i0 :: idx').length : Nat) : Int) + 4 * i)
            ++ ws))
        (12 + 4 * (((i0 :: idx').length : Nat) : Int) + 4 * i0) 0 =
        some ((i0 :: idx').length, ((((i0 :: idx').length : Nat) : Int) * 4 + 12)) := by
      have hshape : (12 + 4 * (((i0 :: idx').length : Nat) : Int) + 4 * i0) ::
          (idx'.map (fun i => 12 + 4 * (((i0 :: idx').length : Nat) : Int) + 4 * i)
            ++ ws) =
          animEntryOffsets 12 (i0 :: idx').length (i0 :: idx') ++ ws := by
        simp [animEntryOffsets]
      rw [hshape]
      apply findBoundary_offsets
      · have := hnn i0 (List.mem_cons_self _ _)
        omega
      · simp [animEntryOffsets]
      · right
        have h2 : (12 + 4 * (((i0 :: idx').length : Nat) : Int) + 4 * 0) ∈
            animEntryOffsets 12 (i0 :: idx').length (i0 :: idx') := by
          unfold animEntryOffsets
          exact List.mem_map_of_mem _ h0
        have heq : (12 + 4 * (((i0 :: idx').length : Nat) : Int) + 4 * 0) =
            ((((i0 :: idx').length : Nat) : Int) * 4 + 12) := by ring
        rwa [heq] at h2
      · intro v hv
        unfold animEntryOffsets at hv
        obtain ⟨i, hi, hieq⟩ := List.mem_map.mp hv
        have := hnn i hi
        omega
      · exact hws
    simp only [animEntryOffsets, List.map_cons, List.cons_append]
    simp only [splitAnimData, hfb]
    have htk : ((12 + 4 * (((i0 :: idx').length : Nat) : Int) + 4 * i0) ::
        (idx'.map (fun i => 12 + 4 * (((i0 :: idx').length : Nat) : Int) + 4 * i)
          ++ ws)).take (i0 :: idx').length =
        (i0 :: idx').map
          (fun i => 12 + 4 * (((i0 :: idx').length : Nat) : Int) + 4 * i) := by
      rw [show ((12 + 4 * (((i0 :: idx').length : Nat) : Int) + 4 * i0) ::
          (idx'.map (fun i => 12 + 4 * (((i0 :: idx').length : Nat) : Int) + 4 * i)
            ++ ws)) =
          (i0 :: idx').map
            (fun i => 12 + 4 * (((i0 :: idx').length : Nat) : Int) + 4 * i) ++ ws
        from by simp]
      rw [List.take_left' (by simp)]
    have hdr : ((12 + 4 * (((i0 :: idx').length : Nat) : Int) + 4 * i0) ::
        (idx'.map (fun i => 12 + 4 * (((i0 :: idx').length : Nat) : Int) + 4 * i)
          ++ ws)).drop (i0 :: idx').length = ws := by
      rw [show ((12 + 4 * (((i0 :: idx').length : Nat) : Int) + 4 * i0) ::
          (idx'.map (fun i => 12 + 4 * (((i0 :: idx').length : Nat) : Int) + 4 * i)
            ++ ws)) =
          (i0 :: idx').map
            (fun i => 12 + 4 * (((i0 :: idx').length : Nat) : Int) + 4 * i) ++ ws
        from by simp]
      rw [List.drop_left' (by simp)]
    rw [htk, hdr]
    simp only [Except.ok.injEq, Prod.mk.injEq]
    refine ⟨?_, trivial⟩
    rw [List.map_map]
    have hcg : ∀ i ∈ (i0 :: idx'),
        ((fun o => (o - ((((i0 :: idx').length : Nat) : Int) * 4 + 12)).fdiv 4) ∘
          (fun i => 12 + 4 * (((i0 :: idx').length : Nat) : Int) + 4 * i)) i = i := by
      intro i hi
      show ((12 + 4 * (((i0 :: idx').length : Nat) : Int) + 4 * i) -
          ((((i0 :: idx').length : Nat) : Int) * 4 + 12)).fdiv 4 = i
      rw [show (12 + 4 * (((i0 :: idx').length : Nat) : Int) + 4 * i) -
          ((((i0 :: idx').length : Nat) : Int) * 4 + 12) = 4 * i from by ring]
      exact Int.mul_fdiv_cancel_left i (by norm_num)
    rw [List.map_congr_left hcg]
    simp

/-- What a successful animation-section split guarantees about its output:
frame fields are masked into range, and a nonempty decoded index contains 0
and only non-negative entries (the subtracted `first_frame` is the attained
minimum of the scanned prefix). -/
theorem splitAnimData_inv {ao : Int} {ad : List Int} {idx : List Int}
    {fs : List Frame} (h : splitAnimData ao ad = .ok (idx, fs)) :
    (∀ f ∈ fs, f.image < 1024 ∧ f.transparency < 8) ∧
    (idx ≠ [] → ((0 : Int) ∈ idx ∧ ∀ i ∈ idx, 0 ≤ i)) ∧ fs ≠ [] := by
  cases ad with
  | nil => cases h
  | cons d0 rest =>
    simp only [splitAnimData] at h
    cases hfb : findBoundary ao (d0 :: rest) d0 0 with
    | none => rw [hfb] at h; cases h
    | some pr =>
      obtain ⟨bIdx, ff⟩ := pr
      simp only [hfb] at h
      simp only [Except.ok.injEq, Prod.mk.injEq] at h
      obtain ⟨hidx, hfs⟩ := h
      refine ⟨?_, ?_, ?_⟩
      · intro f hf
        rw [← hfs] at hf
        obtain ⟨v, _, hveq⟩ := List.mem_map.mp hf
        rw [← hveq]
        exact int_to_frame_fields v
      case refine_3 =>
        obtain ⟨_, _, _, _, hlt⟩ := findBoundary_inv ao (d0 :: rest) d0 0 hfb
        rw [← hfs]
        intro hmap
        have hdrop : (d0 :: rest).drop bIdx = [] := List.map_eq_nil_iff.mp hmap
        rw [List.drop_eq_nil_iff] at hdrop
        simp only [List.length_cons] at hdrop hlt
        omega
      · intro hne
        obtain ⟨h1, h2, h3, _⟩ := findBoundary_inv ao (d0 :: rest) d0 0 hfb
        rw [Nat.sub_zero] at h2 h3
        have hbne : bIdx ≠ 0 := by
          intro hb0
          rw [← hidx, hb0] at hne
          simp at hne
        have hd0mem : d0 ∈ (d0 :: rest).take bIdx := by
          cases hb : bIdx with
          | zero => exact absurd hb hbne
          | succ k =>
            rw [List.take_succ_cons]
            exact List.mem_cons_self _ _
        have hffmem : ff ∈ (d0 :: rest).take bIdx := by
          rcases h2 with h | h
          · rw [h]; exact hd0mem
          · exact h
        constructor
        · rw [← hidx]
          refine List.mem_map.mpr ⟨ff, hffmem, ?_⟩
          simp
        · intro i hi
          rw [← hidx] at hi
          obtain ⟨v, hv, hveq⟩ := List.mem_map.mp hi
          have := h3 v hv
          rw [← hveq, Int.fdiv_eq_ediv _ (by norm_num)]
          omega

/-- What a successful `load` guarantees about its output: every image object
is position `k` paired with the `k`-th decoded source (so equal ids imply
equal pixel data), the frames and animation index agree in truthiness, frame
fields are in range, and a nonempty animation index contains 0 and only
non-negative entries. -/
theorem load_ok_invariants {b : List Nat} {D : Sprite} (hload : load b = .ok D) :
    (∃ srcs : List Img, ∀ a ∈ D.images, ∃ k, a = ⟨k, srcs.getD k ⟨0, 0, []⟩⟩) ∧
    truthy D.frames = truthy D.animation_index ∧
    D.has_animations = truthy D.frames ∧
    (∀ fs, D.frames = some fs → ∀ f ∈ fs, f.image < 1024 ∧ f.transparency < 8) ∧
    (∀ idx, D.animation_index = some idx → idx ≠ [] →
      ((0 : Int) ∈ idx ∧ ∀ i ∈ idx, 0 ≤ i)) ∧
    (D.has_animations = false → D.frames = none ∧ D.animation_index = none) ∧
    (∀ fs, D.frames = some fs → fs ≠ []) := by
  unfold load at hload
  cases h12 : readExact b 0 12 with
  | error e => rw [h12] at hload; cases hload
  | ok hdr =>
    simp only [h12] at hload
    cases hoffs : unpackI32s hdr 3 with
    | error e => rw [hoffs] at hload; cases hload
    | ok offs =>
      simp only [hoffs] at hload
      set ao := offs.getD 0 0 with haodef
      set xo := offs.getD 1 0 with hxodef
      set fo := offs.getD 2 0 with hfodef
      -- the index-and-images tail, shared by both animation branches
      have tail_inv : ∀ (anims : Option (List Frame × List Int)),
          (match anims with
            | some (fs, idx) => ∀ fsx idxx, anims = some (fsx, idxx) →
                (∀ f ∈ fsx, f.image < 1024 ∧ f.transparency < 8) ∧
                (idxx ≠ [] → ((0 : Int) ∈ idxx ∧ ∀ i ∈ idxx, 0 ≤ i)) ∧ fsx ≠ []
            | none => True) →
          (if xo < 0 then (.error .osError : Except PyErr Sprite)
           else
            if (fo - xo).fdiv 4 < 0 then .error .structError
            else
              match unpackI32s ((b.drop xo.toNat).take (fo - xo).toNat)
                  ((fo - xo).fdiv 4).toNat with
              | .error e => .error e
              | .ok image_index =>
                match image_index.getLast? with
                | none => .error .indexError
                | some lastEntry =>
                  match readImagesF b fo lastEntry (b.length + 2)
                      (xo.toNat + ((b.drop xo.toNat).take (fo - xo).toNat).length)
                      [] [] with
                  | .error e => .error e
                  | .ok (srcs, omap) =>
                    match (image_index.dropLast.mapM (fun x =>
                            match dictLookup omap x with
                            | some k => .ok (⟨k, srcs.getD k ⟨0, 0, []⟩⟩ : ImgObj)
                            | none => .error PyErr.keyError) :
                          Except PyErr (List ImgObj)) with
                    | .error e => .error e
                    | .ok images =>
                      match anims with
                      | some (fs, idx) => Sprite.init images (some fs) (some idx)
                      | none => Sprite.init images none none) = .ok D →
          (∃ srcs : List Img, ∀ a ∈ D.images, ∃ k, a = ⟨k, srcs.getD k ⟨0, 0, []⟩⟩) ∧
          truthy D.frames = truthy D.animation_index ∧
          D.has_animations = truthy D.frames ∧
          (∀ fs, D.frames = some fs →
            ∀ f ∈ fs, f.image < 1024 ∧ f.transparency < 8) ∧
          (∀ idx, D.animation_index = some idx → idx ≠ [] →
            ((0 : Int) ∈ idx ∧ ∀ i ∈ idx, 0 ≤ i)) ∧
          (D.has_animations = false → D.frames = none ∧ D.animation_index = none) ∧
          (∀ fs, D.frames = some fs → fs ≠ []) := by
        intro anims hanims h
        by_cases hx0 : xo < 0
        · rw [if_pos hx0] at h; cases h
        rw [if_neg hx0] at h
        by_cases hx4 : (fo - xo).fdiv 4 < 0
        · rw [if_pos hx4] at h; cases h
        rw [if_neg hx4] at h
        cases hux : unpackI32s ((b.drop xo.toNat).take (fo - xo).toNat)
            ((fo - xo).fdiv 4).toNat with
        | error e => rw [hux] at h; cases h
        | ok image_index =>
          simp only [hux] at h
          cases hlast : image_index.getLast? with
          | none => rw [hlast] at h; cases h
          | some lastEntry =>
            simp only [hlast] at h
            cases hri : readImagesF b fo lastEntry (b.length + 2)
                (xo.toNat + ((b.drop xo.toNat).take (fo - xo).toNat).length)
                [] [] with
            | error e => rw [hri] at h; cases h
            | ok sm =>
              obtain ⟨srcs, omap⟩ := sm
              simp only [hri] at h
              cases hmap : (image_index.dropLast.mapM (fun x =>
                    match dictLookup omap x with
                    | some k => .ok (⟨k, srcs.getD k ⟨0, 0, []⟩⟩ : ImgObj)
                    | none => .error PyErr.keyError) :
                  Except PyErr (List ImgObj)) with
              | error e => rw [hmap] at h; cases h
              | ok images =>
                simp only [hmap] at h
                have himgs : ∀ a ∈ images, ∃ k,
                    a = (⟨k, srcs.getD k ⟨0, 0, []⟩⟩ : ImgObj) := by
                  intro a ha
                  obtain ⟨x, _, hfx⟩ := exceptMapM_inv _ _ _ hmap a ha
                  cases hdl : dictLookup omap x with
                  | none => rw [hdl] at hfx; cases hfx
                  | some k =>
                    rw [hdl] at hfx
                    refine ⟨k, ?_⟩
                    cases hfx
                    rfl
                cases hanims2 : anims with
                | some pr =>
                  obtain ⟨fs, idx⟩ := pr
                  rw [hanims2] at h
                  obtain ⟨hsi, hsf, hsa, htruth, hhas⟩ := sprite_init_inv h
                  rw [hanims2] at hanims
                  obtain ⟨hfr, hidx, hfsne⟩ := hanims fs idx rfl
                  have htfs : truthy (some fs) = true := by
                    cases fs with
                    | nil => exact absurd rfl hfsne
                    | cons f fs' => rfl
                  rw [hsi]
                  refine ⟨⟨srcs, himgs⟩, ?_, ?_, ?_, ?_, ?_, ?_⟩
                  · rw [hsf, hsa]
                    exact htruth
                  · rw [hsf]
                    exact hhas
                  · intro fs2 hfs2
                    rw [hsf] at hfs2
                    cases hfs2
                    exact hfr
                  · intro idx2 hidx2
                    rw [hsa] at hidx2
                    cases hidx2
                    exact hidx
                  · intro hfalse
                    rw [hhas, htfs] at hfalse
                    cases hfalse
                  · intro fs2 hfs2
                    rw [hsf] at hfs2
                    cases hfs2
                    exact hfsne
                | none =>
                  rw [hanims2] at h
                  obtain ⟨hsi, hsf, hsa, htruth, hhas⟩ := sprite_init_inv h
                  rw [hsi]
                  refine ⟨⟨srcs, himgs⟩, ?_, ?_, ?_, ?_, ?_, ?_⟩
                  · rw [hsf, hsa]
                    rfl
                  · rw [hsf]
                    exact hhas
                  · intro fs2 hfs2
                    rw [hsf] at hfs2
                    cases hfs2
                  · intro idx2 hidx2
                    rw [hsa] at hidx2
                    cases hidx2
                  · intro _
                    exact ⟨hsf, hsa⟩
                  · intro fs2 hfs2
                    rw [hsf] at hfs2
                    cases hfs2
      by_cases hao0 : ao ≠ 0
      · rw [if_pos hao0] at hload
        by_cases haolt : ao < 0
        · rw [if_pos haolt] at hload; cases hload
        rw [if_neg haolt] at hload
        by_cases ha4 : (xo - ao).fdiv 4 < 0
        · rw [if_pos ha4] at hload; cases hload
        rw [if_neg ha4] at hload
        cases hud : unpackI32s ((b.drop ao.toNat).take (xo - ao).toNat)
            ((xo - ao).fdiv 4).toNat with
        | error e => rw [hud] at hload; cases hload
        | ok anim_data =>
          simp only [hud] at hload
          cases hsplit : splitAnimData ao anim_data with
          | error e => rw [hsplit] at hload; cases hload
          | ok pr =>
            obtain ⟨idxD, fsD⟩ := pr
            simp only [hsplit] at hload
            exact tail_inv (some (fsD, idxD))
              (by
                intro fsx idxx hx
                simp only [Option.some.injEq, Prod.mk.injEq] at hx
                obtain ⟨h1, h2⟩ := hx
                subst h1; subst h2
                exact splitAnimData_inv hsplit)
              hload
      · rw [if_neg hao0] at hload
        exact tail_inv none trivial hload

theorem bindOkInv {α β : Type} {x : Except PyErr α} {f : α → Except PyErr β} {out : β}
    (h : x >>= f = .ok out) : ∃ a, x = .ok a ∧ f a = .ok out := by
  cases x with
  | error e => rw [errBind] at h; cases h
  | ok a => rw [okBind] at h; exact ⟨a, rfl, h⟩

theorem getD_map {α β : Type} (f : α → β) (l : List α) (j : Nat) (d : β) (d0 : α)
    (hj : j < l.length) : (l.map f).getD j d = f (l.getD j d0) := by
  rw [List.getD_eq_getElem?_getD, List.getElem?_map, List.getD_eq_getElem?_getD,
    List.getElem?_eq_getElem hj]
  rfl

theorem mem_writtenIdxs {all : List ImgObj} {m : Nat} :
    m ∈ writtenIdxs all ↔ m < all.length ∧ isFirstOcc all m = true := by
  unfold writtenIdxs
  rw [List.mem_filter, List.mem_range]

theorem encodedImages_length_ge (all : List ImgObj) : ∀ (ms : List Nat),
    (∀ m ∈ ms, ∃ bs, _image_object_to_sprite_image (all.getD m noImg).img = .ok bs) →
    ms.length ≤ (encodedImages all ms).length := by
  intro ms
  induction ms with
  | nil => intro _; simp [encodedImages]
  | cons m rest ih =>
    intro h
    obtain ⟨bs, hbs⟩ := h m (List.mem_cons_self _ _)
    have h1 : encodedImages all [m] = bs := by
      simp only [encodedImages, List.foldr_cons, List.foldr_nil, List.append_nil]
      rw [hbs]
    have h2 := encode_length_ge hbs
    have h3 := ih (fun m2 hm2 => h m2 (List.mem_cons_of_mem _ hm2))
    rw [encodedImages_cons, List.length_append, h1]
    simp only [List.length_cons]
    omega

/-- The index-and-images tail of decoding a file written by `save`: the image
loop decodes the written images, and resolving the index entries through the
offset map rebuilds an images list that is pixel-for-pixel the original. -/
theorem images_section_enc (all : List ImgObj) (b2 pre : List Nat)
    (index : List Int) (ce : Nat) (data indexBytes : List Nat) (xoN : Nat)
    (hwf : ∀ o ∈ all, o.img.data.length = o.img.width * o.img.height ∧
      (∀ p ∈ o.img.data, Representable p) ∧ outsideBboxTransparent o.img = true)
    (hidimg : ∀ a ∈ all, ∀ a2 ∈ all, a.id = a2.id → a.img = a2.img)
    (hbuild : buildImagesF all all 0 [] 0 [] = .ok (index, ce, data))
    (hidxb : packI32s (index ++ [(ce : Int)]) = .ok indexBytes)
    (hb2 : b2 = pre ++ (indexBytes ++ data))
    (hpre : pre.length = xoN) :
    ∃ (srcs2 : List Img) (omap2 : List (Int × Nat)) (images2 : List ImgObj),
      readImagesF b2 ((xoN + 4 * (all.length + 1) : Nat) : Int) ((ce : Nat) : Int)
        (b2.length + 2) (xoN + 4 * (all.length + 1)) [] [] = .ok (srcs2, omap2) ∧
      (index.mapM (fun x =>
          match dictLookup omap2 x with
          | some k => .ok (⟨k, srcs2.getD k ⟨0, 0, []⟩⟩ : ImgObj)
          | none => .error PyErr.keyError) :
        Except PyErr (List ImgObj)) = .ok images2 ∧
      images2.map ImgObj.img = all.map ImgObj.img := by
  obtain ⟨_, hlen, hdata0, hinv⟩ :=
    buildImagesF_spec all all 0 [] 0 [] index ce data hbuild rfl rfl (Nat.zero_le _)
  obtain ⟨hce, hoffs, hencok⟩ :=
    buildImagesF_offsets all all 0 [] 0 [] index ce data hbuild rfl rfl
      (Nat.zero_le _) rfl (by simp [encodedImages])
      (by intro m hm; omega) (by intro m hm; omega)
  have hdata : data = encodedImages all (writtenIdxs all) := by
    rw [hdata0]
    unfold writtenIdxs
    rw [List.range_eq_range']
    simp
  have hwmem : ∀ m ∈ writtenIdxs all, m < all.length ∧ isFirstOcc all m = true :=
    fun m hm => mem_writtenIdxs.mp hm
  have hwenc : ∀ m ∈ writtenIdxs all,
      ∃ bs, _image_object_to_sprite_image (all.getD m noImg).img = .ok bs := by
    intro m hm
    obtain ⟨h1, h2⟩ := hwmem m hm
    exact hencok m h1 h2
  have hwpos : ∀ m ∈ writtenIdxs all, 0 < (encodedImages all [m]).length := by
    intro m hm
    obtain ⟨bs, hbs⟩ := hwenc m hm
    have h1 : encodedImages all [m] = bs := by
      simp only [encodedImages, List.foldr_cons, List.foldr_nil, List.append_nil]
      rw [hbs]
    have h2 := encode_length_ge hbs
    rw [h1]
    omega
  have hdlen : (writtenIdxs all).length ≤ data.length := by
    rw [hdata]
    exact encodedImages_length_ge all _ hwenc
  -- run the image loop
  have hrun := readImagesF_run all b2 ((xoN + 4 * (all.length + 1) : Nat) : Int)
    ((ce : Nat) : Int) (writtenIdxs all) (xoN + 4 * (all.length + 1)) [] []
    (b2.length + 2)
    (by
      have : data.length ≤ b2.length := by
        rw [hb2]
        simp only [List.length_append]
        omega
      omega)
    (by
      intro m hm
      obtain ⟨h1, h2⟩ := hwmem m hm
      have hmem : all.getD m noImg ∈ all := by
        rw [getD_eq_getElem' all noImg h1]
        exact List.getElem_mem h1
      obtain ⟨hw1, hw2, hw3⟩ := hwf _ hmem
      exact ⟨hw1, hw2, hw3, hwenc m hm⟩)
    (⟨pre ++ indexBytes, by
        rw [hb2, hdata, List.append_assoc], by
        rw [List.length_append, hpre]
        obtain ⟨hil, _, _⟩ := packI32s_ok hidxb
        rw [hil]
        simp only [List.length_append, List.length_cons, List.length_nil, hlen]⟩)
    (by
      rw [← hdata]
      push_cast
      omega)
  rw [List.nil_append, List.nil_append] at hrun
  have hzero : ((xoN + 4 * (all.length + 1) : Nat) : Int) -
      ((xoN + 4 * (all.length + 1) : Nat) : Int) = 0 := by omega
  rw [hzero] at hrun
  -- per-position resolution of the index entries
  have hperpos : ∀ m, m < all.length →
      ∃ j, j < (writtenIdxs all).length ∧
        dictLookup (omapOf all (writtenIdxs all) 0 0) (index.getD m 0) = some j ∧
        ((writtenIdxs all).map (fun m2 => (all.getD m2 noImg).img)).getD j
          ⟨0, 0, []⟩ = (all.getD m noImg).img := by
    intro m hm
    obtain ⟨f, hfo, hfle, hfid, hffix⟩ := firstOcc_spec all m hm
    have hflt : f < all.length := by omega
    have hffirst : isFirstOcc all f = true := by
      unfold isFirstOcc
      rw [head_find_matching, hffix]
      simp
    have hfw : f ∈ writtenIdxs all := mem_writtenIdxs.mpr ⟨hflt, hffirst⟩
    obtain ⟨j, hjlen, hjeq⟩ := List.getElem_of_mem hfw
    have hentry : index.getD m 0 = index.getD f 0 := by
      have h1 := hinv m (Nat.zero_le _) hm
      rw [h1, hfo]
      simp
    have hentryf : index.getD f 0 =
        ((encodedImages all ((List.range f).filter (isFirstOcc all))).length : Int) :=
      hoffs f hflt hffirst
    have hgetDj : (writtenIdxs all).getD j 0 = f := by
      rw [getD_eq_getElem' _ 0 hjlen, hjeq]
    have htake : (writtenIdxs all).take j =
        (List.range f).filter (isFirstOcc all) := by
      have h2 := filter_range_take (isFirstOcc all) all.length j hjlen
      unfold writtenIdxs at h2 ⊢
      rw [h2]
      unfold writtenIdxs at hgetDj
      rw [hgetDj]
    have hkey := omapOf_lookup all (writtenIdxs all) 0 0 j hjlen hwpos
    rw [htake, ← hentryf, ← hentry, Int.zero_add, Nat.zero_add] at hkey
    refine ⟨j, hjlen, hkey, ?_⟩
    rw [getD_map _ _ _ _ 0 hjlen, hgetDj]
    have hmemf : all.getD f noImg ∈ all := by
      rw [getD_eq_getElem' all noImg hflt]
      exact List.getElem_mem hflt
    have hmemm : all.getD m noImg ∈ all := by
      rw [getD_eq_getElem' all noImg hm]
      exact List.getElem_mem hm
    exact hidimg _ hmemf _ hmemm hfid
  have hmapfn : ∀ x ∈ index,
      ((match dictLookup (omapOf all (writtenIdxs all) 0 0) x with
        | some k => .ok (⟨k, ((writtenIdxs all).map
            (fun m2 => (all.getD m2 noImg).img)).getD k ⟨0, 0, []⟩⟩ : ImgObj)
        | none => (.error PyErr.keyError : Except PyErr ImgObj)) :
        Except PyErr ImgObj) =
      .ok (match dictLookup (omapOf all (writtenIdxs all) 0 0) x with
        | some k => (⟨k, ((writtenIdxs all).map
            (fun m2 => (all.getD m2 noImg).img)).getD k ⟨0, 0, []⟩⟩ : ImgObj)
        | none => noImg) := by
    intro x hx
    obtain ⟨m, hmlt, hmeq⟩ := List.getElem_of_mem hx
    have hmlt2 : m < all.length := by rw [hlen] at hmlt; exact hmlt
    obtain ⟨j, hj1, hj2, hj3⟩ := hperpos m hmlt2
    have hx2 : index.getD m 0 = x := by
      rw [getD_eq_getElem' _ _ hmlt]
      exact hmeq
    rw [hx2] at hj2
    simp only [hj2]
  have hmapM := exceptMapM_ok
    (fun x => match dictLookup (omapOf all (writtenIdxs all) 0 0) x with
      | some k => .ok (⟨k, ((writtenIdxs all).map
          (fun m2 => (all.getD m2 noImg).img)).getD k ⟨0, 0, []⟩⟩ : ImgObj)
      | none => (.error PyErr.keyError : Except PyErr ImgObj))
    (fun x => match dictLookup (omapOf all (writtenIdxs all) 0 0) x with
      | some k => (⟨k, ((writtenIdxs all).map
          (fun m2 => (all.getD m2 noImg).img)).getD k ⟨0, 0, []⟩⟩ : ImgObj)
      | none => noImg)
    index hmapfn
  refine ⟨(writtenIdxs all).map (fun m => (all.getD m noImg).img),
    omapOf all (writtenIdxs all) 0 0,
    index.map (fun x => match dictLookup (omapOf all (writtenIdxs all) 0 0) x with
      | some k => (⟨k, ((writtenIdxs all).map
          (fun m2 => (all.getD m2 noImg).img)).getD k ⟨0, 0, []⟩⟩ : ImgObj)
      | none => noImg),
    hrun, hmapM, ?_⟩
  apply List.ext_getElem
  · simp [hlen]
  · intro i h1 h2
    simp only [List.getElem_map]
    have hilt : i < all.length := by
      simp only [List.length_map, List.length_map] at h1
      rw [hlen] at h1
      exact h1
    obtain ⟨j, hj1, hj2, hj3⟩ := hperpos i hilt
    have hIlt : i < index.length := by rw [hlen]; exact hilt
    rw [← getD_eq_getElem' index 0 hIlt]
    simp only [hj2]
    rw [hj3, getD_eq_getElem' all noImg hilt]

/-- Inversion of a successful `save` of an animated sprite: the file is the
concatenation of the packed header, the packed animation section, the packed
image index and the image data. -/
theorem save_anim_inv {s : Sprite} {fs : List Frame} {idx : List Int} {b2 : List Nat}
    (hha : s.has_animations = true) (hdf : s.frames = some fs)
    (hda : s.animation_index = some idx) (hsave : save s = .ok b2) :
    ∃ (header animBytes : List Nat) (index : List Int) (ce : Nat)
      (data indexBytes : List Nat),
      packI32s [(((12 : Nat)) : Int),
        ((12 + 4 * (idx.length + fs.length) : Nat) : Int),
        ((12 + 4 * (idx.length + fs.length) + 4 * (s.images.length + 1) : Nat) : Int)] =
        .ok header ∧
      packI32s (animEntryOffsets (((12 : Nat)) : Int) idx.length idx ++
        fs.map (fun f => ((_frame_to_int f : Nat) : Int))) = .ok animBytes ∧
      buildImagesF s.images s.images 0 [] 0 [] = .ok (index, ce, data) ∧
      packI32s (index ++ [((ce : Nat) : Int)]) = .ok indexBytes ∧
      b2 = header ++ animBytes ++ indexBytes ++ data := by
  simp only [save, hha, hdf, hda, if_true, Option.isSome_some, okBind] at hsave
  obtain ⟨header, hhdr, hsave⟩ := bindOkInv hsave
  obtain ⟨animBytes, hanimb, hsave⟩ := bindOkInv hsave
  obtain ⟨bid, hbuild, hsave⟩ := bindOkInv hsave
  obtain ⟨indexBytes, hidxb, hsave⟩ := bindOkInv hsave
  obtain ⟨index, ce, data⟩ := bid
  dsimp only at hidxb hsave
  have hb2 : header ++ animBytes ++ indexBytes ++ data = b2 := by
    injection hsave
  exact ⟨header, animBytes, index, ce, data, indexBytes, hhdr, hanimb, hbuild,
    hidxb, hb2.symm⟩

/-- Inversion of a successful `save` of a static sprite: the file is the packed
header followed by the packed image index and the image data. -/
theorem save_static_inv {s : Sprite} {b2 : List Nat}
    (hha : s.has_animations = false) (hsave : save s = .ok b2) :
    ∃ (header : List Nat) (index : List Int) (ce : Nat)
      (data indexBytes : List Nat),
      packI32s [(((0 : Nat)) : Int), (((12 : Nat)) : Int),
        ((12 + 4 * (s.images.length + 1) : Nat) : Int)] = .ok header ∧
      buildImagesF s.images s.images 0 [] 0 [] = .ok (index, ce, data) ∧
      packI32s (index ++ [((ce : Nat) : Int)]) = .ok indexBytes ∧
      b2 = header ++ [] ++ indexBytes ++ data := by
  simp only [save, hha, Bool.false_eq_true, if_false, Option.isSome_none, okBind] at hsave
  obtain ⟨header, hhdr, hsave⟩ := bindOkInv hsave
  obtain ⟨bid, hbuild, hsave⟩ := bindOkInv hsave
  obtain ⟨indexBytes, hidxb, hsave⟩ := bindOkInv hsave
  obtain ⟨index, ce, data⟩ := bid
  dsimp only at hidxb hsave
  have hb2 : header ++ [] ++ indexBytes ++ data = b2 := by
    injection hsave
  exact ⟨header, index, ce, data, indexBytes, hhdr, hbuild, hidxb, hb2.symm⟩

/-- Saving a loaded document and loading the result reproduces the document's
pixel data, frames and animation index, provided each image of the loaded
document is size-consistent, representable and transparent outside its RGB
bounding box. -/
theorem load_save_load {b b2 : List Nat} {D : Sprite}
    (hload : load b = .ok D)
    (hwf : ∀ o ∈ D.images, o.img.data.length = o.img.width * o.img.height ∧
      (∀ p ∈ o.img.data, Representable p) ∧ outsideBboxTransparent o.img = true)
    (hsave : save D = .ok b2) :
    ∃ D2, load b2 = .ok D2 ∧
      D2.images.map ImgObj.img = D.images.map ImgObj.img ∧
      D2.frames = D.frames ∧ D2.animation_index = D.animation_index := by
  obtain ⟨⟨srcs0, hsrcs0⟩, htruth, hhas, hframes, hidxinv, hnoanim, hfsne⟩ :=
    load_ok_invariants hload
  have hidimg : ∀ a ∈ D.images, ∀ a2 ∈ D.images, a.id = a2.id → a.img = a2.img := by
    intro a ha a2 ha2 hid
    obtain ⟨k, hk⟩ := hsrcs0 a ha
    obtain ⟨k2, hk2⟩ := hsrcs0 a2 ha2
    have hkk : k = k2 := by
      rw [hk, hk2] at hid
      simpa using hid
    subst hkk
    rw [hk, hk2]
  by_cases hha : D.has_animations = true
  · -- animated document
    obtain ⟨fs, hdf⟩ : ∃ fs, D.frames = some fs := by
      cases hdfc : D.frames with
      | none => rw [hhas, hdfc] at hha; simp [truthy] at hha
      | some fs => exact ⟨fs, rfl⟩
    obtain ⟨idx, hda⟩ : ∃ idx, D.animation_index = some idx := by
      cases hdac : D.animation_index with
      | none =>
        rw [hdf, hdac] at htruth
        rw [hhas, hdf] at hha
        rw [hha] at htruth
        simp [truthy] at htruth
      | some idx => exact ⟨idx, rfl⟩
    obtain ⟨header, animBytes, index, ce, data, indexBytes, hhdr, hanimb, hbuild,
      hidxb, hb2r⟩ := save_anim_inv hha hdf hda hsave
    have hb2 : header ++ animBytes ++ indexBytes ++ data = b2 := hb2r.symm
    -- truthiness facts
    have hfst : truthy (some fs) = true := by
      rw [hhas, hdf] at hha
      exact hha
    have htreq : truthy (some fs) = truthy (some idx) := by
      rw [hdf, hda] at htruth
      exact htruth
    have hist : truthy (some idx) = true := by
      rw [← htreq]
      exact hfst
    have hidxne : idx ≠ [] := by
      intro h
      rw [h] at hist
      simp [truthy] at hist
    have hfsne2 : fs ≠ [] := hfsne fs hdf
    obtain ⟨h0idx, hnnidx⟩ := hidxinv idx hda hidxne
    -- invert the save chain
    -- normalize the 12-cast in the packed header and animation entries
    rw [show (((12 : Nat)) : Int) = (12 : Int) from by norm_num] at hhdr hanimb
    -- lengths of the written sections
    have hhlen : header.length = 12 := by
      rw [(packI32s_ok hhdr).1]
      simp
    have hanimlen : animBytes.length = 4 * (idx.length + fs.length) := by
      rw [(packI32s_ok hanimb).1]
      simp [animEntryOffsets]
    obtain ⟨_, hlen, _, _⟩ :=
      buildImagesF_spec D.images D.images 0 [] 0 [] index ce data hbuild rfl rfl
        (Nat.zero_le _)
    have hidxlen : indexBytes.length = 4 * (D.images.length + 1) := by
      rw [(packI32s_ok hidxb).1]
      simp [hlen]
    have hb2eq : b2 = header ++ (animBytes ++ (indexBytes ++ data)) := by
      rw [← hb2]
      simp [List.append_assoc]
    have hb2eq2 : b2 = (header ++ animBytes) ++ (indexBytes ++ data) := by
      rw [← hb2]
      simp [List.append_assoc]
    have hpre2 : (header ++ animBytes).length = 12 + 4 * (idx.length + fs.length) := by
      rw [List.length_append, hhlen, hanimlen]
    -- the index-and-images tail
    obtain ⟨srcs2, omap2, images2, hri, hmapM, himg2⟩ :=
      images_section_enc D.images b2 (header ++ animBytes) index ce data indexBytes
        (12 + 4 * (idx.length + fs.length)) hwf hidimg hbuild hidxb hb2eq2 hpre2
    -- step equations for the load of b2
    have h12 : readExact b2 0 12 = .ok header := by
      simp only [readExact]
      rw [List.drop_zero, hb2eq, List.take_left' hhlen, if_pos hhlen]
    have hoffs3 : unpackI32s header 3 = .ok [(12 : Int),
        ((12 + 4 * (idx.length + fs.length) : Nat) : Int),
        ((12 + 4 * (idx.length + fs.length) + 4 * (D.images.length + 1) : Nat) : Int)] :=
      unpackI32s_exact hhdr
    have hasz : ((12 + 4 * (idx.length + fs.length) : Nat) : Int) - 12 =
        ((4 * (idx.length + fs.length) : Nat) : Int) := by
      push_cast
      omega
    have hfd : (((4 * (idx.length + fs.length) : Nat) : Int)).fdiv 4 =
        ((idx.length + fs.length : Nat) : Int) := by
      push_cast
      exact Int.mul_fdiv_cancel_left _ (by norm_num)
    have hbuf : (b2.drop 12).take (4 * (idx.length + fs.length)) = animBytes := by
      rw [hb2eq, List.drop_left' hhlen, List.take_left' hanimlen]
    have hunp2 : unpackI32s animBytes (idx.length + fs.length) =
        .ok (animEntryOffsets (12 : Int) idx.length idx ++
          fs.map (fun f => ((_frame_to_int f : Nat) : Int))) := by
      have h := unpackI32s_exact hanimb
      rwa [show (animEntryOffsets (12 : Int) idx.length idx ++
          fs.map (fun f => ((_frame_to_int f : Nat) : Int))).length =
          idx.length + fs.length from by simp [animEntryOffsets]] at h
    have hfr : (fs.map (fun f => ((_frame_to_int f : Nat) : Int))).map _int_to_frame =
        fs := by
      rw [List.map_map]
      have hpt : ∀ f ∈ fs, (_int_to_frame ∘ fun f => ((_frame_to_int f : Nat) : Int)) f =
          id f := by
        intro f hf
        simp only [Function.comp, id]
        exact frame_roundtrip f (hframes fs hdf f hf).1 (hframes fs hdf f hf).2
      rw [List.map_congr_left hpt, List.map_id]
    have hmapne : fs.map (fun f => ((_frame_to_int f : Nat) : Int)) ≠ [] := by
      intro h
      exact hfsne2 (List.map_eq_nil_iff.mp h)
    have hsplit : splitAnimData 12 (animEntryOffsets (12 : Int) idx.length idx ++
        fs.map (fun f => ((_frame_to_int f : Nat) : Int))) = .ok (idx, fs) := by
      rw [splitAnimData_enc idx _ hidxne h0idx hnnidx hmapne, hfr]
    have hisz : ((12 + 4 * (idx.length + fs.length) + 4 * (D.images.length + 1) : Nat) :
        Int) - ((12 + 4 * (idx.length + fs.length) : Nat) : Int) =
        ((4 * (D.images.length + 1) : Nat) : Int) := by
      push_cast
      omega
    have hfd2 : (((4 * (D.images.length + 1) : Nat) : Int)).fdiv 4 =
        ((D.images.length + 1 : Nat) : Int) := by
      push_cast
      exact Int.mul_fdiv_cancel_left _ (by norm_num)
    have hbuf2 : (b2.drop (12 + 4 * (idx.length + fs.length))).take
        (4 * (D.images.length + 1)) = indexBytes := by
      rw [hb2eq2, List.drop_left' hpre2, List.take_left' hidxlen]
    have hunp3 : unpackI32s indexBytes (D.images.length + 1) =
        .ok (index ++ [((ce : Nat) : Int)]) := by
      have h := unpackI32s_exact hidxb
      rwa [show (index ++ [((ce : Nat) : Int)]).length = D.images.length + 1 from by
        simp [hlen]] at h
    have hinit2 : Sprite.init images2 (some fs) (some idx) = .ok
        { images := images2
          frames := some fs
          animation_index := some idx
          has_animations := truthy (some fs)
          type :=
            if truthy (some fs) then
              if ((some idx).getD []).length = 32 then SpriteType.UNIT
              else SpriteType.RESOURCES
            else SpriteType.STATIC } := by
      unfold Sprite.init
      rw [if_neg (fun h => h htreq)]
    have hmain : load b2 = .ok
        { images := images2, frames := some fs, animation_index := some idx,
          has_animations := truthy (some fs),
          type :=
            if truthy (some fs) then
              if ((some idx).getD []).length = 32 then SpriteType.UNIT
              else SpriteType.RESOURCES
            else SpriteType.STATIC } := by
      simp only [load, h12, hoffs3, List.getD_cons_zero, List.getD_cons_succ]
      rw [if_pos (show (12 : Int) ≠ 0 from by norm_num)]
      rw [if_neg (show ¬ (12 : Int) < 0 from by norm_num)]
      rw [hasz, hfd]
      rw [if_neg (show ¬ ((idx.length + fs.length : Nat) : Int) < 0 from by omega)]
      rw [show ((12 : Int)).toNat = 12 from rfl]
      rw [show (((4 * (idx.length + fs.length) : Nat) : Int)).toNat =
        4 * (idx.length + fs.length) from by omega]
      rw [show (((idx.length + fs.length : Nat) : Int)).toNat =
        idx.length + fs.length from by omega]
      rw [hbuf]
      simp only [hunp2, hsplit]
      rw [if_neg (show ¬ ((12 + 4 * (idx.length + fs.length) : Nat) : Int) < 0 from
        by omega)]
      rw [hisz, hfd2]
      rw [if_neg (show ¬ ((D.images.length + 1 : Nat) : Int) < 0 from by omega)]
      rw [show (((12 + 4 * (idx.length + fs.length) : Nat) : Int)).toNat =
        12 + 4 * (idx.length + fs.length) from by omega]
      rw [show (((4 * (D.images.length + 1) : Nat) : Int)).toNat =
        4 * (D.images.length + 1) from by omega]
      rw [show (((D.images.length + 1 : Nat) : Int)).toNat =
        D.images.length + 1 from by omega]
      rw [hbuf2]
      simp only [hunp3, List.getLast?_concat, List.dropLast_concat]
      rw [hidxlen]
      simp only [hri, hmapM]
      exact hinit2
    exact ⟨_, hmain, by simpa using himg2, by rw [hdf], by rw [hda]⟩
  · -- static document
    have hha2 : D.has_animations = false := by
      revert hha
      cases D.has_animations <;> simp
    obtain ⟨hdfn, hdan⟩ := hnoanim hha2
    obtain ⟨header, index, ce, data, indexBytes, hhdr, hbuild, hidxb, hb2r⟩ :=
      save_static_inv hha2 hsave
    have hb2 : header ++ [] ++ indexBytes ++ data = b2 := hb2r.symm
    rw [show (((0 : Nat)) : Int) = (0 : Int) from by norm_num,
      show (((12 : Nat)) : Int) = (12 : Int) from by norm_num] at hhdr
    have hhlen : header.length = 12 := by
      rw [(packI32s_ok hhdr).1]
      simp
    obtain ⟨_, hlen, _, _⟩ :=
      buildImagesF_spec D.images D.images 0 [] 0 [] index ce data hbuild rfl rfl
        (Nat.zero_le _)
    have hidxlen : indexBytes.length = 4 * (D.images.length + 1) := by
      rw [(packI32s_ok hidxb).1]
      simp [hlen]
    have hb2eq : b2 = header ++ (indexBytes ++ data) := by
      rw [← hb2]
      simp [List.append_assoc]
    obtain ⟨srcs2, omap2, images2, hri, hmapM, himg2⟩ :=
      images_section_enc D.images b2 header index ce data indexBytes 12
        hwf hidimg hbuild hidxb hb2eq hhlen
    have h12 : readExact b2 0 12 = .ok header := by
      simp only [readExact]
      rw [List.drop_zero, hb2eq, List.take_left' hhlen, if_pos hhlen]
    have hoffs3 : unpackI32s header 3 = .ok [(0 : Int), (12 : Int),
        ((12 + 4 * (D.images.length + 1) : Nat) : Int)] :=
      unpackI32s_exact hhdr
    have hisz : ((12 + 4 * (D.images.length + 1) : Nat) : Int) - 12 =
        ((4 * (D.images.length + 1) : Nat) : Int) := by
      push_cast
      omega
    have hfd2 : (((4 * (D.images.length + 1) : Nat) : Int)).fdiv 4 =
        ((D.images.length + 1 : Nat) : Int) := by
      push_cast
      exact Int.mul_fdiv_cancel_left _ (by norm_num)
    have hbuf2 : (b2.drop 12).take (4 * (D.images.length + 1)) = indexBytes := by
      rw [hb2eq, List.drop_left' hhlen, List.take_left' hidxlen]
    have hunp3 : unpackI32s indexBytes (D.images.length + 1) =
        .ok (index ++ [((ce : Nat) : Int)]) := by
      have h := unpackI32s_exact hidxb
      rwa [show (index ++ [((ce : Nat) : Int)]).length = D.images.length + 1 from by
        simp [hlen]] at h
    have hinit2 : Sprite.init images2 none none = .ok
        { images := images2, frames := none, animation_index := none,
          has_animations := truthy (none : Option (List Frame)),
          type :=
            if truthy (none : Option (List Frame)) then
              if ((none : Option (List Int)).getD []).length = 32 then SpriteType.UNIT
              else SpriteType.RESOURCES
            else SpriteType.STATIC } := by
      unfold Sprite.init
      rw [if_neg (fun h => h rfl)]
    have hmain : load b2 = .ok
        { images := images2, frames := none, animation_index := none,
          has_animations := truthy (none : Option (List Frame)),
          type :=
            if truthy (none : Option (List Frame)) then
              if ((none : Option (List Int)).getD []).length = 32 then SpriteType.UNIT
              else SpriteType.RESOURCES
            else SpriteType.STATIC } := by
      simp only [load, h12, hoffs3, List.getD_cons_zero, List.getD_cons_succ]
      simp only [if_neg (show ¬ (0 : Int) ≠ 0 from fun h => h rfl)]
      rw [if_neg (show ¬ (12 : Int) < 0 from by norm_num)]
      rw [hisz, hfd2]
      rw [if_neg (show ¬ ((D.images.length + 1 : Nat) : Int) < 0 from by omega)]
      rw [show ((12 : Int)).toNat = 12 from rfl]
      rw [show (((4 * (D.images.length + 1) : Nat) : Int)).toNat =
        4 * (D.images.length + 1) from by omega]
      rw [show (((D.images.length + 1 : Nat) : Int)).toNat =
        D.images.length + 1 from by omega]
      rw [hbuf2]
      simp only [hunp3, List.getLast?_concat, List.dropLast_concat]
      rw [hidxlen]
      simp only [hri, hmapM]
      exact hinit2
    exact ⟨_, hmain, by simpa using himg2, by rw [hdfn], by rw [hdan]⟩

/-- Claim C1 (amended): for every well-formed byte string whose decode succeeds
and whose decoded images are size-consistent, survive the 16-bit pixel packing
(5-bit-representable channels, mask 0 or 255) and are transparent outside
their RGB bounding box, decoding the bytes produced by re-encoding the decoded
document yields a document whose images are pixel-for-pixel equal position by
position and whose frames list and animation index are equal.  The unamended
claim fails: `spr_roundtrip_counterexample` decodes a file into a document
whose single pixel is masked magenta, and the re-encoded file decodes with the
mask bit cleared, because the encoder computes its bounding box on an RGB
conversion that drops the mask channel. -/
theorem spr_roundtrip_wellformed (b b2 : List Nat) (D : Sprite)
    (hload : load b = .ok D)
    (hwf : ∀ o ∈ D.images, o.img.data.length = o.img.width * o.img.height ∧
      (∀ p ∈ o.img.data, Representable p) ∧ outsideBboxTransparent o.img = true)
    (hsave : save D = .ok b2) :
    ∃ D2, load b2 = .ok D2 ∧
      D2.images.map ImgObj.img = D.images.map ImgObj.img ∧
      D2.frames = D.frames ∧ D2.animation_index = D.animation_index :=
  load_save_load hload hwf hsave

/-- Witness: the animated document `C1wdoc` decoded from `C1wbytes` satisfies
every hypothesis concretely and round-trips. -/
theorem spr_roundtrip_wellformed_witness :
    ∃ D2, load C1wbytes = .ok D2 ∧
      D2.images.map ImgObj.img = C1wdoc.images.map ImgObj.img ∧
      D2.frames = C1wdoc.frames ∧ D2.animation_index = C1wdoc.animation_index :=
  spr_roundtrip_wellformed C1wbytes C1wbytes C1wdoc (by rfl) (by decide) (by rfl)

end CivSprite
